import Mathlib

/-!
# Wavefront alignment driver (`wavefront/wavefront_align.c`)

A shallow embedding of the global alignment driver of the wavefront alignment
library: the termination detector `wavefront_align_global_terminate`, the
initial conditions `wavefront_align_global_initialize` and the score loop
`wavefront_align_global`.

Conventions of the embedding.

* C `int` values (lengths, scores, diagonals, offsets) are `Int`.  Signed
  overflow is undefined in C; the driver only ever forms `text_length -
  pattern_length`, `-score_final` and `score + 1` on non-negative lengths and
  scores, so unbounded integers agree with every defined execution.
* The C remainder `a % b` truncates towards zero: it is `Int.tmod`.
* An array reached through a pointer (`mwavefronts`, `offsets`, `bt_pcigar`,
  ...) is a total map from indices; a possibly-`NULL` pointer to a wavefront is
  an `Option`.  Wavefronts are held by value, one per slot.
* The aligner is mutated in place by the C code; here every function takes the
  state and returns the new one.
* The kernels the driver calls but which live in other files (extend, compute,
  the two backtraces and the slab) are parameters of the embedding, collected
  in `kernels_t`; every call to one of them is also appended to a call log so
  that the order and number of invocations can be stated.
-/

namespace WFA

/-! ## Data model -/

/-- Distance metrics named by the driver (`distance_metric_t`). -/
inductive distance_metric_t where
  | edit
  | gap_lineal
  | gap_affine
  | gap_affine_2p
deriving DecidableEq, Repr

/-- Modelled from the spec: the enumeration `alignment_scope_t` is declared in a
header that is not part of the sources; the driver only names
`alignment_scope_score` (score-only scope), the spec names one other scope, the
end-to-end alignment. -/
inductive alignment_scope_t where
  | alignment_scope_score
  | alignment_scope_alignment
deriving DecidableEq, Repr

/-- One wavefront (`wavefront_t`): the populated diagonal range and the arrays
indexed by diagonal. -/
structure wavefront_t where
  lo : Int
  hi : Int
  offsets : Int → Int
  bt_pcigar : Int → Nat
  bt_prev : Int → Nat

/-- The alignment result (`cigar_t`). -/
structure cigar_t where
  operations : List Char
  begin_offset : Int
  end_offset : Int
  score : Int
deriving DecidableEq, Repr

/-- The aligner (`wavefront_aligner_t`), restricted to the fields the driver
reads or writes.  `σ` is the state of the wavefront slab and `β` the state of
the backtrace buffer, both owned by other modules. -/
structure wavefront_aligner_t (σ β : Type) where
  distance_metric : distance_metric_t
  alignment_scope : alignment_scope_t
  memory_modular : Bool
  bt_piggyback : Bool
  max_score_scope : Int
  mwavefronts : Int → Option wavefront_t
  i1wavefronts : Int → Option wavefront_t
  d1wavefronts : Int → Option wavefront_t
  i2wavefronts : Int → Option wavefront_t
  d2wavefronts : Int → Option wavefront_t
  wavefront_slab : σ
  bt_buffer : β
  cigar : cigar_t

/-- The padded sequences (`strings_padded_t`): `pattern_padded` and
`text_padded` point at the first symbol of the sequence inside its padded
buffer, so index `i` with `0 ≤ i < length` is the `i`-th symbol and the other
indices are padding. -/
structure strings_padded_t where
  pattern_padded : Int → Char
  text_padded : Int → Char

/-- A call made by the driver to a function of another module, with the scalar
arguments it was given. -/
inductive call_t where
  | wavefront_slab_allocate (lo hi : Int)
  | wavefront_extend (pattern_length text_length score : Int)
  | wavefront_compute_affine (pattern_length text_length score : Int)
  | wavefront_compute_affine2p (pattern_length text_length score : Int)
  | wf_backtrace_buffer_recover_cigar (pcigar prev : Nat) (pattern_length text_length : Int)
  | wavefront_backtrace_affine (pattern_length text_length score : Int)
deriving DecidableEq, Repr

/-- The aligner together with the log of the calls made so far. -/
structure world_t (σ β : Type) where
  aligner : wavefront_aligner_t σ β
  calls : List call_t

/-- The functions of other modules that the driver calls.  Each takes what the C
function is handed and returns what it may have changed. -/
structure kernels_t (σ β : Type) where
  slab_acquire : σ → Int → Int → σ × wavefront_t
  wavefront_extend :
    wavefront_aligner_t σ β → (Int → Char) → Int → (Int → Char) → Int → Int → wavefront_aligner_t σ β
  wavefront_compute_affine :
    wavefront_aligner_t σ β → (Int → Char) → Int → (Int → Char) → Int → Int → wavefront_aligner_t σ β
  wavefront_compute_affine2p :
    wavefront_aligner_t σ β → (Int → Char) → Int → (Int → Char) → Int → Int → wavefront_aligner_t σ β
  wf_backtrace_buffer_recover_cigar :
    β → Nat → Nat → (Int → Char) → Int → (Int → Char) → Int → cigar_t → β × cigar_t
  wavefront_backtrace_affine :
    wavefront_aligner_t σ β → (Int → Char) → Int → (Int → Char) → Int → Int → wavefront_aligner_t σ β

/-- How a run of the driver ends: it returns, the process exits with a message
and a status, or the loop is still running when the fuel is spent. -/
inductive outcome_t (σ β : Type) where
  | returned (w : world_t σ β)
  | exited (message : String) (status : Int) (w : world_t σ β)
  | out_of_fuel

/-! ## Macros of `wavefront.h` -/

/-- Modelled from the spec: the macro `WAVEFRONT_DIAGONAL(h,v)` is defined in a
header that is not part of the sources; the spec gives the diagonal of a cell as
`text_pos - pattern_pos`. -/
def WAVEFRONT_DIAGONAL (h v : Int) : Int := h - v

/-- Modelled from the spec: the macro `WAVEFRONT_OFFSET(h,v)` is defined in a
header that is not part of the sources; the spec gives the offset of a cell as
`text_pos`. -/
def WAVEFRONT_OFFSET (h _v : Int) : Int := h

/-! ## The termination detector -/

/-- The slot of the score-indexed history that holds score `score_final`
(lines 52-54 of the source). -/
def score_slot {σ β : Type} (wf_aligner : wavefront_aligner_t σ β) (score_final : Int) : Int :=
  if wf_aligner.memory_modular then Int.tmod score_final wf_aligner.max_score_scope
  else score_final

/-- Function `wavefront_align_global_terminate`: the returned flag and the
state after the call. -/
def wavefront_align_global_terminate {σ β : Type} (K : kernels_t σ β)
    (w : world_t σ β) (sequences : strings_padded_t)
    (pattern_length text_length score_final : Int) : Bool × world_t σ β :=
  let alignment_k := WAVEFRONT_DIAGONAL text_length pattern_length
  let alignment_offset := WAVEFRONT_OFFSET text_length pattern_length
  let score := score_slot w.aligner score_final
  match w.aligner.mwavefronts score with
  | none => (false, w)
  | some mwavefront =>
    if mwavefront.lo > alignment_k ∨ alignment_k > mwavefront.hi then (false, w)
    else
      let offset := mwavefront.offsets alignment_k
      if offset < alignment_offset then (false, w)
      else if w.aligner.alignment_scope = alignment_scope_t.alignment_scope_score then
        (true,
          { w with aligner := { w.aligner with
              cigar := { w.aligner.cigar with
                begin_offset := 0, end_offset := 0, score := -score_final } } })
      else if w.aligner.bt_piggyback then
        let r := K.wf_backtrace_buffer_recover_cigar w.aligner.bt_buffer
          (mwavefront.bt_pcigar alignment_k) (mwavefront.bt_prev alignment_k)
          sequences.pattern_padded pattern_length sequences.text_padded text_length
          w.aligner.cigar
        (true,
          { aligner := { w.aligner with bt_buffer := r.1, cigar := r.2 }
            calls := w.calls ++ [call_t.wf_backtrace_buffer_recover_cigar
              (mwavefront.bt_pcigar alignment_k) (mwavefront.bt_prev alignment_k)
              pattern_length text_length] })
      else
        (true,
          { aligner := K.wavefront_backtrace_affine w.aligner
              sequences.pattern_padded pattern_length sequences.text_padded text_length score
            calls := w.calls ++ [call_t.wavefront_backtrace_affine
              pattern_length text_length score] })

/-! ## Initial conditions -/

/-- Modelled from the spec: `wavefront_slab_allocate` belongs to the slab module,
which is not part of the sources.  The spec has the driver obtain score 0's match
wavefront with `lo = hi = 0` from it, and a wavefront's `lo`, `hi` are the bounds
it populates: the wavefront handed out for `(lo, hi)` is non-null and carries
these bounds.  The content of its arrays and the new state of the slab are
whatever the slab module makes them (`slab_acquire`). -/
def wavefront_slab_allocate {σ β : Type} (K : kernels_t σ β) (wavefront_slab : σ)
    (lo hi : Int) : σ × wavefront_t :=
  let r := K.slab_acquire wavefront_slab lo hi
  (r.1, { r.2 with lo := lo, hi := hi })

/-- Function `wavefront_align_global_initialize`. -/
def wavefront_align_global_initialize {σ β : Type} (K : kernels_t σ β)
    (w : world_t σ β) : world_t σ β :=
  let distance_metric := w.aligner.distance_metric
  let r := wavefront_slab_allocate K w.aligner.wavefront_slab 0 0
  let calls := w.calls ++ [call_t.wavefront_slab_allocate 0 0]
  let m0 : wavefront_t := { r.2 with offsets := Function.update r.2.offsets 0 0 }
  let m0 : wavefront_t :=
    if w.aligner.bt_piggyback then
      { m0 with bt_pcigar := Function.update m0.bt_pcigar 0 0,
                bt_prev := Function.update m0.bt_prev 0 0 }
    else m0
  let a1 : wavefront_aligner_t σ β :=
    { w.aligner with
        wavefront_slab := r.1,
        mwavefronts := Function.update w.aligner.mwavefronts 0 (some m0) }
  if distance_metric = distance_metric_t.edit ∨ distance_metric = distance_metric_t.gap_lineal then
    { aligner := a1, calls := calls }
  else
    let a2 : wavefront_aligner_t σ β :=
      { a1 with
          d1wavefronts := Function.update a1.d1wavefronts 0 none,
          i1wavefronts := Function.update a1.i1wavefronts 0 none }
    if distance_metric = distance_metric_t.gap_affine then
      { aligner := a2, calls := calls }
    else
      { aligner :=
          { a2 with
              d2wavefronts := Function.update a2.d2wavefronts 0 none,
              i2wavefronts := Function.update a2.i2wavefronts 0 none },
        calls := calls }

/-! ## The score loop -/

/-- The message printed before `exit(1)`. -/
def not_implemented_message : String := "Distance function not yet implemented\n"

/-- The `while (true)` loop of `wavefront_align_global`, entered with the
current `score`; one unit of fuel is one iteration.  `distance_metric` is the
local constant read before the loop. -/
def wavefront_align_global_loop {σ β : Type} (K : kernels_t σ β)
    (sequences : strings_padded_t) (pattern_length text_length : Int)
    (distance_metric : distance_metric_t) :
    Nat → world_t σ β → Int → outcome_t σ β
  | 0, _, _ => outcome_t.out_of_fuel
  | fuel + 1, w, score =>
    let w1 : world_t σ β :=
      { aligner := K.wavefront_extend w.aligner
          sequences.pattern_padded pattern_length sequences.text_padded text_length score
        calls := w.calls ++ [call_t.wavefront_extend pattern_length text_length score] }
    let t := wavefront_align_global_terminate K w1 sequences pattern_length text_length score
    if t.1 then outcome_t.returned t.2
    else
      let score := score + 1
      match distance_metric with
      | distance_metric_t.gap_affine =>
        wavefront_align_global_loop K sequences pattern_length text_length distance_metric fuel
          { aligner := K.wavefront_compute_affine t.2.aligner
              sequences.pattern_padded pattern_length sequences.text_padded text_length score
            calls := t.2.calls ++ [call_t.wavefront_compute_affine pattern_length text_length score] }
          score
      | distance_metric_t.gap_affine_2p =>
        wavefront_align_global_loop K sequences pattern_length text_length distance_metric fuel
          { aligner := K.wavefront_compute_affine2p t.2.aligner
              sequences.pattern_padded pattern_length sequences.text_padded text_length score
            calls := t.2.calls ++ [call_t.wavefront_compute_affine2p pattern_length text_length score] }
          score
      | _ => outcome_t.exited not_implemented_message 1 t.2

/-- Function `wavefront_align_global`, run with `fuel` loop iterations. -/
def wavefront_align_global {σ β : Type} (K : kernels_t σ β) (fuel : Nat)
    (w : world_t σ β) (sequences : strings_padded_t)
    (pattern_length text_length : Int) : outcome_t σ β :=
  let distance_metric := w.aligner.distance_metric
  let w0 := wavefront_align_global_initialize K w
  wavefront_align_global_loop K sequences pattern_length text_length distance_metric fuel w0 0

/-! ## The iterations of the loop, one by one -/

/-- The state after the call to `wavefront_extend` that opens the iteration at
`score` (lines 124-126). -/
def after_extend {σ β : Type} (K : kernels_t σ β) (sequences : strings_padded_t)
    (pattern_length text_length : Int) (w : world_t σ β) (score : Int) : world_t σ β :=
  { aligner := K.wavefront_extend w.aligner
      sequences.pattern_padded pattern_length sequences.text_padded text_length score
    calls := w.calls ++ [call_t.wavefront_extend pattern_length text_length score] }

/-- The call the `switch` of lines 132-146 makes for an affine metric. -/
def compute_call (distance_metric : distance_metric_t)
    (pattern_length text_length score : Int) : call_t :=
  match distance_metric with
  | distance_metric_t.gap_affine_2p =>
    call_t.wavefront_compute_affine2p pattern_length text_length score
  | _ => call_t.wavefront_compute_affine pattern_length text_length score

/-- The state after the compute kernel the `switch` selects for an affine metric
has built the wavefronts of `score` (lines 133-142). -/
def after_compute {σ β : Type} (K : kernels_t σ β) (sequences : strings_padded_t)
    (pattern_length text_length : Int) (distance_metric : distance_metric_t)
    (w : world_t σ β) (score : Int) : world_t σ β :=
  { aligner :=
      match distance_metric with
      | distance_metric_t.gap_affine_2p =>
        K.wavefront_compute_affine2p w.aligner
          sequences.pattern_padded pattern_length sequences.text_padded text_length score
      | _ =>
        K.wavefront_compute_affine w.aligner
          sequences.pattern_padded pattern_length sequences.text_padded text_length score
    calls := w.calls ++ [compute_call distance_metric pattern_length text_length score] }

/-- The state at the head of the loop after `n` full iterations (extend, check,
compute) started from state `w` at `score`. -/
def loop_world {σ β : Type} (K : kernels_t σ β) (sequences : strings_padded_t)
    (pattern_length text_length : Int) (distance_metric : distance_metric_t) :
    Nat → world_t σ β → Int → world_t σ β
  | 0, w, _ => w
  | n + 1, w, score =>
    loop_world K sequences pattern_length text_length distance_metric n
      (after_compute K sequences pattern_length text_length distance_metric
        (wavefront_align_global_terminate K (after_extend K sequences pattern_length text_length w score)
          sequences pattern_length text_length score).2 (score + 1))
      (score + 1)

/-- The state on which the termination check of score `s` runs in an invocation
of `wavefront_align_global` from state `w`: the score-`s` wavefront has been
extended and every earlier iteration has gone through its compute. -/
def extended_world {σ β : Type} (K : kernels_t σ β) (sequences : strings_padded_t)
    (pattern_length text_length : Int) (w : world_t σ β) (s : Nat) : world_t σ β :=
  after_extend K sequences pattern_length text_length
    (loop_world K sequences pattern_length text_length w.aligner.distance_metric s
      ( wavefront_align_global_initialize K w) 0) s

/-- The result of the termination check of score `s` in an invocation from `w`. -/
def check_at {σ β : Type} (K : kernels_t σ β) (sequences : strings_padded_t)
    (pattern_length text_length : Int) (w : world_t σ β) (s : Nat) : Bool × world_t σ β :=
  wavefront_align_global_terminate K
    (extended_world K sequences pattern_length text_length w s)
    sequences pattern_length text_length s

/-- The calls of a full iteration at score `t` whose check fails: the extend of
`t`, then the compute of `t + 1`. -/
def iteration_calls (distance_metric : distance_metric_t)
    (pattern_length text_length : Int) (t : Nat) : List call_t :=
  [call_t.wavefront_extend pattern_length text_length t,
   compute_call distance_metric pattern_length text_length (t + 1)]

/-- Whether a call is one of the two backtrace strategies. -/
def call_t.is_backtrace : call_t → Bool
  | call_t.wf_backtrace_buffer_recover_cigar _ _ _ _ => true
  | call_t.wavefront_backtrace_affine _ _ _ => true
  | _ => false

/-- Whether a call is a compute kernel. -/
def call_t.is_compute : call_t → Bool
  | call_t.wavefront_compute_affine _ _ _ => true
  | call_t.wavefront_compute_affine2p _ _ _ => true
  | _ => false

/-- The check of the iteration reached after `n` full iterations from `(w, score)`. -/
def loop_check {σ β : Type} (K : kernels_t σ β) (sequences : strings_padded_t)
    (pl tl : Int) (d : distance_metric_t) (n : Nat) (w : world_t σ β) (score : Int) :
    Bool × world_t σ β :=
  wavefront_align_global_terminate K
    (after_extend K sequences pl tl (loop_world K sequences pl tl d n w score) (score + n))
    sequences pl tl (score + n)

/-- The calls logged by the end of a run; none when the fuel ran out. -/
def outcome_t.calls {σ β : Type} : outcome_t σ β → List call_t
  | outcome_t.returned w => w.calls
  | outcome_t.exited _ _ w => w.calls
  | outcome_t.out_of_fuel => []

/-! ## Sample inputs -/

/-- A wavefront over the single diagonal 0 with every entry 0. -/
def blank_wavefront : wavefront_t :=
  { lo := 0, hi := 0, offsets := fun _ => 0, bt_pcigar := fun _ => 0, bt_prev := fun _ => 0 }

/-- Kernels that leave the state as it is. -/
def idle_kernels : kernels_t Unit Unit :=
  { slab_acquire := fun s _ _ => (s, blank_wavefront)
    wavefront_extend := fun a _ _ _ _ _ => a
    wavefront_compute_affine := fun a _ _ _ _ _ => a
    wavefront_compute_affine2p := fun a _ _ _ _ _ => a
    wf_backtrace_buffer_recover_cigar := fun b _ _ _ _ _ _ c => (b, c)
    wavefront_backtrace_affine := fun a _ _ _ _ _ => a }

/-- An aligner with an empty history and an empty result. -/
def sample_aligner (distance_metric : distance_metric_t) (alignment_scope : alignment_scope_t)
    (memory_modular bt_piggyback : Bool) (max_score_scope : Int) : wavefront_aligner_t Unit Unit :=
  { distance_metric := distance_metric
    alignment_scope := alignment_scope
    memory_modular := memory_modular
    bt_piggyback := bt_piggyback
    max_score_scope := max_score_scope
    mwavefronts := fun _ => none
    i1wavefronts := fun _ => none
    d1wavefronts := fun _ => none
    i2wavefronts := fun _ => none
    d2wavefronts := fun _ => none
    wavefront_slab := ()
    bt_buffer := ()
    cigar := { operations := [], begin_offset := 7, end_offset := 7, score := 7 } }

/-- A world whose aligner holds `mwavefront` in slot `slot` of the match history and
whose call log is empty. -/
def sample_world (a : wavefront_aligner_t Unit Unit) (slot : Int) (mwavefront : wavefront_t) :
    world_t Unit Unit :=
  { aligner := { a with mwavefronts := Function.update a.mwavefronts slot (some mwavefront) }
    calls := [] }

/-- Two empty padded sequences. -/
def sample_sequences : strings_padded_t :=
  { pattern_padded := fun _ => '?', text_padded := fun _ => '!' }

/-- Kernels whose affine compute stores, for score `s`, a match wavefront over the
single diagonal 0 whose offset is `s`; the other kernels leave the state as it is. -/
def counting_kernels : kernels_t Unit Unit :=
  { idle_kernels with
    wavefront_compute_affine := fun a _ _ _ _ score =>
      { a with
          mwavefronts := (Function.update a.mwavefronts score
            (some { blank_wavefront with offsets := fun _ => score })) } }

/-- A world with an empty history, an empty result and an empty call log. -/
def empty_world (distance_metric : distance_metric_t) (alignment_scope : alignment_scope_t)
    (memory_modular bt_piggyback : Bool) (max_score_scope : Int) : world_t Unit Unit :=
  { aligner := sample_aligner distance_metric alignment_scope memory_modular bt_piggyback
      max_score_scope
    calls := [] }

/-! ## The extend operator, from its contract -/

/-- Modelled from the spec: `wavefront_extend` belongs to the extend module, which
is not part of the sources.  Its contract (section 4.2): on diagonal `k`, advance
the offset while the pattern symbol at `offset - k` equals the text symbol at
`offset`, stopping at the first mismatch or sentinel boundary.  A position
outside `[0, length)` of its sequence is padding, a sentinel that equals no
symbol.  One unit of fuel is one comparison. -/
def extend_offset (pattern : Int → Char) (pattern_length : Int)
    (text : Int → Char) (text_length : Int) (k : Int) : Nat → Int → Int
  | 0, offset => offset
  | fuel + 1, offset =>
    if 0 ≤ offset - k ∧ offset - k < pattern_length ∧ 0 ≤ offset ∧ offset < text_length ∧
        pattern (offset - k) = text offset then
      extend_offset pattern pattern_length text text_length k fuel (offset + 1)
    else offset

/-- Modelled from the spec: the extend operator applied to a wavefront (section
4.2): every diagonal of `[lo,hi]` is advanced, `lo` and `hi` and the other arrays
stay as they are.  The fuel `text_length - offset` lets the advance run to the
end of the text. -/
def wavefront_extend_wavefront (pattern : Int → Char) (pattern_length : Int)
    (text : Int → Char) (text_length : Int) (wavefront : wavefront_t) : wavefront_t :=
  { wavefront with
      offsets := fun k =>
        if wavefront.lo ≤ k ∧ k ≤ wavefront.hi then
          extend_offset pattern pattern_length text text_length k
            (text_length - wavefront.offsets k).toNat (wavefront.offsets k)
        else wavefront.offsets k }

/-- Modelled from the spec: `wavefront_extend` on the aligner (sections 2 and
4.2): an in-place extension of the match wavefront of the current score, found in
the slot of that score; nothing happens when that wavefront is null. -/
def wavefront_extend_spec {σ β : Type} (wf_aligner : wavefront_aligner_t σ β)
    (pattern : Int → Char) (pattern_length : Int) (text : Int → Char) (text_length : Int)
    (score : Int) : wavefront_aligner_t σ β :=
  match wf_aligner.mwavefronts (score_slot wf_aligner score) with
  | none => wf_aligner
  | some mwavefront =>
    { wf_aligner with
        mwavefronts := (Function.update wf_aligner.mwavefronts (score_slot wf_aligner score)
          (some (wavefront_extend_wavefront pattern pattern_length text text_length mwavefront))) }

/-- The kernels `K` with the extend operator of the contract in place of theirs. -/
def with_spec_extend {σ β : Type} (K : kernels_t σ β) : kernels_t σ β :=
  { K with wavefront_extend := wavefront_extend_spec }

/-- The padded view of a sequence: its symbols at `0 .. length - 1`, the sentinel
`pad` everywhere else. -/
def padded_view (s : List Char) (pad : Char) : Int → Char :=
  fun i => if 0 ≤ i then s.getD i.toNat pad else pad

/-- The padded sequences of a pattern and a text, with the sentinels `?` and `!`. -/
def padded_sequences (pattern text : List Char) : strings_padded_t :=
  { pattern_padded := padded_view pattern '?', text_padded := padded_view text '!' }

/-! ## The gap-affine compute operator, from its contract -/

/-- Modelled from the spec: the penalties of the gap-affine cost model (mismatch
cost, gap-open cost, gap-extend cost) are held by the aligner in a field that the
driver never reads; a match costs nothing and a gap of length `n` costs
`gap_opening + n * gap_extension`. -/
structure affine_penalties_t where
  mismatch : Nat
  gap_opening : Nat
  gap_extension : Nat
deriving DecidableEq, Repr

/-- Modelled from the spec: the sentinel stored for an unreachable diagonal, a
value less than any valid offset (section 3). -/
def OFFSET_NULL : Int := -1

/-- Modelled from the spec: the offset a wavefront holds on diagonal `k`; a null
wavefront and a diagonal outside `[lo,hi]` are unreachable (section 3). -/
def wavefront_offset_at (wavefront : Option wavefront_t) (k : Int) : Int :=
  match wavefront with
  | none => OFFSET_NULL
  | some m => if m.lo ≤ k ∧ k ≤ m.hi then m.offsets k else OFFSET_NULL

/-- An offset shifted by one position; an unreachable offset stays unreachable. -/
def offset_shift (offset : Int) : Int :=
  if offset < 0 then OFFSET_NULL else offset + 1

/-- Modelled from the spec: the new insertion offset on diagonal `k` (section 4.3):
open a gap from the match wavefront at gap-open+extend cost or extend the
insertion wavefront at gap-extend cost, both read on diagonal `k - 1`, and
advance the text by one. -/
def affine_ins (m_gap i_ext : Option wavefront_t) (k : Int) : Int :=
  offset_shift (max (wavefront_offset_at m_gap (k - 1)) (wavefront_offset_at i_ext (k - 1)))

/-- Modelled from the spec: the new deletion offset on diagonal `k` (section 4.3):
open a gap from the match wavefront or extend the deletion wavefront, both read
on diagonal `k + 1`; the text position stays. -/
def affine_del (m_gap d_ext : Option wavefront_t) (k : Int) : Int :=
  max (wavefront_offset_at m_gap (k + 1)) (wavefront_offset_at d_ext (k + 1))

/-- Modelled from the spec: the new match offset on diagonal `k` (section 4.3): the
maximum of a substitution step from the mismatch-cost match wavefront and of
closing the insertion or the deletion of this score. -/
def affine_mat (m_misms m_gap i_ext d_ext : Option wavefront_t) (k : Int) : Int :=
  max (offset_shift (wavefront_offset_at m_misms k))
    (max (affine_ins m_gap i_ext k) (affine_del m_gap d_ext k))

/-- The least `lo` among wavefronts, given a first one. -/
def min_lo (first : wavefront_t) (others : List wavefront_t) : Int :=
  others.foldl (fun acc w => min acc w.lo) first.lo

/-- The greatest `hi` among wavefronts, given a first one. -/
def max_hi (first : wavefront_t) (others : List wavefront_t) : Int :=
  others.foldl (fun acc w => max acc w.hi) first.hi

/-- Modelled from the spec: the diagonal range of a new wavefront set (section
4.3): the union of the ranges of the contributing (non-null) wavefronts with a
margin of one diagonal on either side; none when no wavefront contributes. -/
def compute_range (contributors : List (Option wavefront_t)) : Option (Int × Int) :=
  match contributors.reduceOption with
  | [] => none
  | first :: others => some (min_lo first others - 1, max_hi first others + 1)

/-- The wavefronts of one score under the gap-affine model. -/
structure wavefront_set_t where
  mwavefront : Option wavefront_t
  i1wavefront : Option wavefront_t
  d1wavefront : Option wavefront_t

/-- Modelled from the spec: the wavefront set of a score from the retained sets it
depends on (section 4.3): `m_misms` is the match wavefront at mismatch cost below,
`m_gap` the match wavefront at gap-open+extend cost below, `i_ext` and `d_ext`
the gap wavefronts at gap-extend cost below.  With no contributor the whole set
is null; a gap wavefront is null as long as nothing contributes to it, that is
before a gap of its kind has been opened (section 3).  The trace fields are those
of piggyback mode, which this model leaves empty. -/
def wavefront_compute_affine_set (m_misms m_gap i_ext d_ext : Option wavefront_t) :
    wavefront_set_t :=
  match compute_range [m_misms, m_gap, i_ext, d_ext] with
  | none => { mwavefront := none, i1wavefront := none, d1wavefront := none }
  | some (lo, hi) =>
    { mwavefront := some
        { lo := lo, hi := hi, offsets := affine_mat m_misms m_gap i_ext d_ext,
          bt_pcigar := fun _ => 0, bt_prev := fun _ => 0 }
      i1wavefront :=
        if m_gap.isSome || i_ext.isSome then some
          { lo := lo, hi := hi, offsets := affine_ins m_gap i_ext,
            bt_pcigar := fun _ => 0, bt_prev := fun _ => 0 }
        else none
      d1wavefront :=
        if m_gap.isSome || d_ext.isSome then some
          { lo := lo, hi := hi, offsets := affine_del m_gap d_ext,
            bt_pcigar := fun _ => 0, bt_prev := fun _ => 0 }
        else none }

/-- Modelled from the spec: the wavefront a history retains for `score`: none
below score 0, else the content of the slot of that score (section 3). -/
def history_at {σ β : Type} (wf_aligner : wavefront_aligner_t σ β)
    (history : Int → Option wavefront_t) (score : Int) : Option wavefront_t :=
  if score < 0 then none else history (score_slot wf_aligner score)

/-- Modelled from the spec: `wavefront_compute_affine` belongs to the compute
module, which is not part of the sources.  Its contract (section 4.3): from the
retained sets at `score - mismatch`, `score - (gap_opening + gap_extension)` and
`score - gap_extension` build the set of `score` and store it in the slot of
`score` of the three histories. -/
def wavefront_compute_affine_spec {σ β : Type} (penalties : affine_penalties_t)
    (wf_aligner : wavefront_aligner_t σ β)
    (_pattern : Int → Char) (_pattern_length : Int) (_text : Int → Char) (_text_length : Int)
    (score : Int) : wavefront_aligner_t σ β :=
  let m_misms := history_at wf_aligner wf_aligner.mwavefronts (score - penalties.mismatch)
  let m_gap := history_at wf_aligner wf_aligner.mwavefronts
    (score - (penalties.gap_opening + penalties.gap_extension))
  let i_ext := history_at wf_aligner wf_aligner.i1wavefronts (score - penalties.gap_extension)
  let d_ext := history_at wf_aligner wf_aligner.d1wavefronts (score - penalties.gap_extension)
  let set := wavefront_compute_affine_set m_misms m_gap i_ext d_ext
  { wf_aligner with
      mwavefronts := (Function.update wf_aligner.mwavefronts
        (score_slot wf_aligner score) set.mwavefront),
      i1wavefronts := (Function.update wf_aligner.i1wavefronts
        (score_slot wf_aligner score) set.i1wavefront),
      d1wavefronts := (Function.update wf_aligner.d1wavefronts
        (score_slot wf_aligner score) set.d1wavefront) }

/-- The kernels `K` with the extend operator and the gap-affine compute operator of
the contracts in place of theirs. -/
def with_spec_affine {σ β : Type} (penalties : affine_penalties_t) (K : kernels_t σ β) :
    kernels_t σ β :=
  { K with
      wavefront_extend := wavefront_extend_spec,
      wavefront_compute_affine := (wavefront_compute_affine_spec penalties) }

/-! ## The two-piece gap-affine compute operator, from its contract -/

/-- Modelled from the spec: the penalties of the two-piece gap-affine cost model
(section 4.3 and glossary): a mismatch cost and two gap profiles, each with a
gap-open and a gap-extend cost; a gap of length `n` costs the lesser of
`gap_opening1 + n * gap_extension1` and `gap_opening2 + n * gap_extension2`. -/
structure affine2p_penalties_t where
  mismatch : Nat
  gap_opening1 : Nat
  gap_extension1 : Nat
  gap_opening2 : Nat
  gap_extension2 : Nat
deriving DecidableEq, Repr

/-- One of the two gap profiles of the two-piece model, as gap-affine penalties. -/
def affine2p_penalties_t.piece (penalties : affine2p_penalties_t) (second : Bool) :
    affine_penalties_t :=
  if second then
    { mismatch := penalties.mismatch, gap_opening := penalties.gap_opening2,
      gap_extension := penalties.gap_extension2 }
  else
    { mismatch := penalties.mismatch, gap_opening := penalties.gap_opening1,
      gap_extension := penalties.gap_extension1 }

/-- Modelled from the spec: the new match offset on diagonal `k` under the two-piece
model (section 4.3): the two gap tracks are computed independently, the gap offset
merged into the match computation is the better of the two, and the match offset
is the maximum of the substitution step and of the closed gaps. -/
def affine2p_mat (m_misms m_gap1 m_gap2 i1_ext i2_ext d1_ext d2_ext : Option wavefront_t)
    (k : Int) : Int :=
  max (offset_shift (wavefront_offset_at m_misms k))
    (max (max (affine_ins m_gap1 i1_ext k) (affine_ins m_gap2 i2_ext k))
      (max (affine_del m_gap1 d1_ext k) (affine_del m_gap2 d2_ext k)))

/-- The wavefronts of one score under the two-piece gap-affine model. -/
structure wavefront_set2p_t where
  mwavefront : Option wavefront_t
  i1wavefront : Option wavefront_t
  d1wavefront : Option wavefront_t
  i2wavefront : Option wavefront_t
  d2wavefront : Option wavefront_t

/-- Modelled from the spec: the wavefront set of a score under the two-piece model
from the retained sets it depends on (section 4.3): the match wavefronts at
mismatch cost and at either gap-open+extend cost below, and the four gap
wavefronts at their gap-extend cost below.  With no contributor the whole set is
null; a gap wavefront is null as long as nothing contributes to it.  The trace
fields are those of piggyback mode, which this model leaves empty. -/
def wavefront_compute_affine2p_set
    (m_misms m_gap1 m_gap2 i1_ext i2_ext d1_ext d2_ext : Option wavefront_t) :
    wavefront_set2p_t :=
  match compute_range [m_misms, m_gap1, m_gap2, i1_ext, i2_ext, d1_ext, d2_ext] with
  | none =>
    { mwavefront := none, i1wavefront := none, d1wavefront := none,
      i2wavefront := none, d2wavefront := none }
  | some (lo, hi) =>
    { mwavefront := some
        { lo := lo, hi := hi,
          offsets := affine2p_mat m_misms m_gap1 m_gap2 i1_ext i2_ext d1_ext d2_ext,
          bt_pcigar := fun _ => 0, bt_prev := fun _ => 0 }
      i1wavefront :=
        if m_gap1.isSome || i1_ext.isSome then some
          { lo := lo, hi := hi, offsets := affine_ins m_gap1 i1_ext,
            bt_pcigar := fun _ => 0, bt_prev := fun _ => 0 }
        else none
      d1wavefront :=
        if m_gap1.isSome || d1_ext.isSome then some
          { lo := lo, hi := hi, offsets := affine_del m_gap1 d1_ext,
            bt_pcigar := fun _ => 0, bt_prev := fun _ => 0 }
        else none
      i2wavefront :=
        if m_gap2.isSome || i2_ext.isSome then some
          { lo := lo, hi := hi, offsets := affine_ins m_gap2 i2_ext,
            bt_pcigar := fun _ => 0, bt_prev := fun _ => 0 }
        else none
      d2wavefront :=
        if m_gap2.isSome || d2_ext.isSome then some
          { lo := lo, hi := hi, offsets := affine_del m_gap2 d2_ext,
            bt_pcigar := fun _ => 0, bt_prev := fun _ => 0 }
        else none }

/-- Modelled from the spec: `wavefront_compute_affine2p` belongs to the compute
module, which is not part of the sources.  Its contract (section 4.3): from the
retained sets at `score - mismatch`, at `score - (gap_opening + gap_extension)`
and at `score - gap_extension` of either gap profile build the set of `score`
and store it in the slot of `score` of the five histories. -/
def wavefront_compute_affine2p_spec {σ β : Type} (penalties : affine2p_penalties_t)
    (wf_aligner : wavefront_aligner_t σ β)
    (_pattern : Int → Char) (_pattern_length : Int) (_text : Int → Char) (_text_length : Int)
    (score : Int) : wavefront_aligner_t σ β :=
  let m_misms := history_at wf_aligner wf_aligner.mwavefronts (score - penalties.mismatch)
  let m_gap1 := history_at wf_aligner wf_aligner.mwavefronts
    (score - (penalties.gap_opening1 + penalties.gap_extension1))
  let m_gap2 := history_at wf_aligner wf_aligner.mwavefronts
    (score - (penalties.gap_opening2 + penalties.gap_extension2))
  let i1_ext := history_at wf_aligner wf_aligner.i1wavefronts (score - penalties.gap_extension1)
  let i2_ext := history_at wf_aligner wf_aligner.i2wavefronts (score - penalties.gap_extension2)
  let d1_ext := history_at wf_aligner wf_aligner.d1wavefronts (score - penalties.gap_extension1)
  let d2_ext := history_at wf_aligner wf_aligner.d2wavefronts (score - penalties.gap_extension2)
  let set := wavefront_compute_affine2p_set m_misms m_gap1 m_gap2 i1_ext i2_ext d1_ext d2_ext
  { wf_aligner with
      mwavefronts := (Function.update wf_aligner.mwavefronts
        (score_slot wf_aligner score) set.mwavefront),
      i1wavefronts := (Function.update wf_aligner.i1wavefronts
        (score_slot wf_aligner score) set.i1wavefront),
      d1wavefronts := (Function.update wf_aligner.d1wavefronts
        (score_slot wf_aligner score) set.d1wavefront),
      i2wavefronts := (Function.update wf_aligner.i2wavefronts
        (score_slot wf_aligner score) set.i2wavefront),
      d2wavefronts := (Function.update wf_aligner.d2wavefronts
        (score_slot wf_aligner score) set.d2wavefront) }

/-- The kernels `K` with the extend operator and both compute operators of the
contracts in place of theirs. -/
def with_spec_kernels {σ β : Type} (penalties : affine_penalties_t)
    (penalties2p : affine2p_penalties_t) (K : kernels_t σ β) : kernels_t σ β :=
  { K with
      wavefront_extend := wavefront_extend_spec,
      wavefront_compute_affine := (wavefront_compute_affine_spec penalties),
      wavefront_compute_affine2p := (wavefront_compute_affine2p_spec penalties2p) }

/-! ## The reference dynamic programme of the gap-affine model -/

/-- One cell of the reference table for the prefixes of lengths `(i, j)`: the
minimum cost of an alignment of the two prefixes (`m`), of one that ends with an
insertion (`i`), of one that ends with a deletion (`d`); `⊤` when there is none. -/
structure affine_cell_t where
  m : ℕ∞
  i : ℕ∞
  d : ℕ∞

/-- Row 0 of the reference table: the empty pattern prefix against the text
prefix of length `j`, which can only be inserted. -/
def affine_row_zero (penalties : affine_penalties_t) : Nat → affine_cell_t
  | 0 => { m := 0, i := ⊤, d := ⊤ }
  | j + 1 =>
    let left := affine_row_zero penalties j
    let ins := min (left.m + (penalties.gap_opening + penalties.gap_extension : Nat))
      (left.i + (penalties.gap_extension : Nat))
    { m := ins, i := ins, d := ⊤ }

/-- Row `i + 1` of the reference table from row `i` (`above`), where
`pattern_symbol` is symbol `i` of the pattern. -/
def affine_row_succ (penalties : affine_penalties_t) (pattern_symbol : Char)
    (text : Int → Char) (above : Nat → affine_cell_t) : Nat → affine_cell_t
  | 0 =>
    let up := above 0
    let del := min (up.m + (penalties.gap_opening + penalties.gap_extension : Nat))
      (up.d + (penalties.gap_extension : Nat))
    { m := del, i := ⊤, d := del }
  | j + 1 =>
    let left := affine_row_succ penalties pattern_symbol text above j
    let up := above (j + 1)
    let diag := above j
    let ins := min (left.m + (penalties.gap_opening + penalties.gap_extension : Nat))
      (left.i + (penalties.gap_extension : Nat))
    let del := min (up.m + (penalties.gap_opening + penalties.gap_extension : Nat))
      (up.d + (penalties.gap_extension : Nat))
    let sub := diag.m + ((if pattern_symbol = text j then 0 else penalties.mismatch : Nat) : ℕ∞)
    { m := min sub (min ins del), i := ins, d := del }

/-- The reference table (Gotoh's recurrences): cell `(i, j)` for the pattern prefix
of length `i` and the text prefix of length `j`. -/
def affine_table (penalties : affine_penalties_t) (pattern text : Int → Char) :
    Nat → Nat → affine_cell_t
  | 0 => affine_row_zero penalties
  | i + 1 => affine_row_succ penalties (pattern i) text (affine_table penalties pattern text i)

/-- The minimum gap-affine alignment cost of the pattern of length
`pattern_length` against the text of length `text_length`. -/
def affine_alignment_cost (penalties : affine_penalties_t) (pattern : Int → Char)
    (pattern_length : Nat) (text : Int → Char) (text_length : Nat) : ℕ∞ :=
  (affine_table penalties pattern text pattern_length text_length).m

/-! ## The reference dynamic programme of the two-piece gap-affine model -/

/-- One cell of the two-piece reference table for the prefixes of lengths `(i, j)`:
the minimum cost of an alignment of the two prefixes (`m`) and of one that ends
with an insertion or a deletion charged on the first or on the second gap
profile (`i1`, `d1`, `i2`, `d2`); `⊤` when there is none. -/
structure affine2p_cell_t where
  m : ℕ∞
  i1 : ℕ∞
  d1 : ℕ∞
  i2 : ℕ∞
  d2 : ℕ∞

/-- Row 0 of the two-piece reference table. -/
def affine2p_row_zero (penalties : affine2p_penalties_t) : Nat → affine2p_cell_t
  | 0 => { m := 0, i1 := ⊤, d1 := ⊤, i2 := ⊤, d2 := ⊤ }
  | j + 1 =>
    let left := affine2p_row_zero penalties j
    let ins1 := min (left.m + (penalties.gap_opening1 + penalties.gap_extension1 : Nat))
      (left.i1 + (penalties.gap_extension1 : Nat))
    let ins2 := min (left.m + (penalties.gap_opening2 + penalties.gap_extension2 : Nat))
      (left.i2 + (penalties.gap_extension2 : Nat))
    { m := min ins1 ins2, i1 := ins1, d1 := ⊤, i2 := ins2, d2 := ⊤ }

/-- Row `i + 1` of the two-piece reference table from row `i` (`above`), where
`pattern_symbol` is symbol `i` of the pattern. -/
def affine2p_row_succ (penalties : affine2p_penalties_t) (pattern_symbol : Char)
    (text : Int → Char) (above : Nat → affine2p_cell_t) : Nat → affine2p_cell_t
  | 0 =>
    let up := above 0
    let del1 := min (up.m + (penalties.gap_opening1 + penalties.gap_extension1 : Nat))
      (up.d1 + (penalties.gap_extension1 : Nat))
    let del2 := min (up.m + (penalties.gap_opening2 + penalties.gap_extension2 : Nat))
      (up.d2 + (penalties.gap_extension2 : Nat))
    { m := min del1 del2, i1 := ⊤, d1 := del1, i2 := ⊤, d2 := del2 }
  | j + 1 =>
    let left := affine2p_row_succ penalties pattern_symbol text above j
    let up := above (j + 1)
    let diag := above j
    let ins1 := min (left.m + (penalties.gap_opening1 + penalties.gap_extension1 : Nat))
      (left.i1 + (penalties.gap_extension1 : Nat))
    let ins2 := min (left.m + (penalties.gap_opening2 + penalties.gap_extension2 : Nat))
      (left.i2 + (penalties.gap_extension2 : Nat))
    let del1 := min (up.m + (penalties.gap_opening1 + penalties.gap_extension1 : Nat))
      (up.d1 + (penalties.gap_extension1 : Nat))
    let del2 := min (up.m + (penalties.gap_opening2 + penalties.gap_extension2 : Nat))
      (up.d2 + (penalties.gap_extension2 : Nat))
    let sub := diag.m + ((if pattern_symbol = text j then 0 else penalties.mismatch : Nat) : ℕ∞)
    { m := min sub (min (min ins1 ins2) (min del1 del2)),
      i1 := ins1, d1 := del1, i2 := ins2, d2 := del2 }

/-- The two-piece reference table: cell `(i, j)` for the pattern prefix of length
`i` and the text prefix of length `j`. -/
def affine2p_table (penalties : affine2p_penalties_t) (pattern text : Int → Char) :
    Nat → Nat → affine2p_cell_t
  | 0 => affine2p_row_zero penalties
  | i + 1 =>
    affine2p_row_succ penalties (pattern i) text (affine2p_table penalties pattern text i)

/-- The minimum two-piece gap-affine alignment cost of the pattern of length
`pattern_length` against the text of length `text_length`. -/
def affine2p_alignment_cost (penalties : affine2p_penalties_t) (pattern : Int → Char)
    (pattern_length : Nat) (text : Int → Char) (text_length : Nat) : ℕ∞ :=
  (affine2p_table penalties pattern text pattern_length text_length).m

/-- The minimum alignment cost under the configured affine model: the two-piece
reference table for the two-piece metric, the gap-affine reference table
otherwise. -/
def affine_model_cost (distance_metric : distance_metric_t) (penalties : affine_penalties_t)
    (penalties2p : affine2p_penalties_t) (pattern : Int → Char) (pattern_length : Nat)
    (text : Int → Char) (text_length : Nat) : ℕ∞ :=
  match distance_metric with
  | distance_metric_t.gap_affine_2p =>
    affine2p_alignment_cost penalties2p pattern pattern_length text text_length
  | _ => affine_alignment_cost penalties pattern pattern_length text text_length

/-! ## Predicates relating wavefronts to the reference table -/

/-- An alignment problem: the penalties, the two sequences and their lengths. -/
structure affine_problem_t where
  penalties : affine_penalties_t
  pattern : Int → Char
  pattern_length : Nat
  text : Int → Char
  text_length : Nat

/-- The reference table of a problem. -/
def affine_problem_t.table (P : affine_problem_t) : Nat → Nat → affine_cell_t :=
  affine_table P.penalties P.pattern P.text

/-- The minimum alignment cost of a problem. -/
def affine_problem_t.cost (P : affine_problem_t) : ℕ∞ :=
  (P.table P.pattern_length P.text_length).m

/-- The three components of a wavefront set and of a table cell. -/
inductive component_t where
  | M
  | I
  | D
deriving DecidableEq, Repr

/-- The entry of a table cell for a component. -/
def affine_cell_t.get (c : affine_cell_t) : component_t → ℕ∞
  | component_t.M => c.m
  | component_t.I => c.i
  | component_t.D => c.d

/-- The least cost of the gaps that lead from a cell `d` diagonals above the
target diagonal (`d < 0`: below) back to it, when the cell is in component `X`:
a gap of `|d|` symbols, whose opening is already paid if `X` is the gap of that
direction. -/
def gap_potential (penalties : affine_penalties_t) (X : component_t) (d : Int) : Nat :=
  if 0 < d then
    (if X = component_t.D then 0 else penalties.gap_opening) + d.toNat * penalties.gap_extension
  else if d < 0 then
    (if X = component_t.I then 0 else penalties.gap_opening) + (-d).toNat * penalties.gap_extension
  else 0

/-- A reachable cell `(v, h)` held in component `X` of the wavefronts of score `s`
is sound: inside the table its reference cost is at most `s`; past the end of a
sequence, the cost of the whole alignment is at most `s` plus the gaps that lead
back to the target diagonal. -/
def cell_sound (P : affine_problem_t) (X : component_t) (s : Nat) (v h : Int) : Prop :=
  0 ≤ v ∧ 0 ≤ h ∧
  ((v ≤ P.pattern_length ∧ h ≤ P.text_length ∧ (P.table v.toNat h.toNat).get X ≤ (s : ℕ∞)) ∨
   ((P.pattern_length < v ∨ P.text_length < h) ∧
     P.cost ≤ ((s + gap_potential P.penalties X
       ((h - v) - ((P.text_length : Int) - (P.pattern_length : Int))) : Nat) : ℕ∞)))

/-- Every reachable offset of the wavefront of score `t` is a sound cell. -/
def wavefront_sound (P : affine_problem_t) (X : component_t) (t : Int)
    (wavefront : Option wavefront_t) : Prop :=
  ∀ k, 0 ≤ wavefront_offset_at wavefront k →
    0 ≤ t ∧ cell_sound P X t.toNat (wavefront_offset_at wavefront k - k)
      (wavefront_offset_at wavefront k)

/-- The wavefront of score `t` has reached every cell of the table whose
reference cost is exactly `t`. -/
def wavefront_complete (P : affine_problem_t) (X : component_t) (t : Int)
    (wavefront : Option wavefront_t) : Prop :=
  ∀ i j : Nat, i ≤ P.pattern_length → j ≤ P.text_length →
    (P.table i j).get X = ((t.toNat : Nat) : ℕ∞) → 0 ≤ t →
    (j : Int) ≤ wavefront_offset_at wavefront ((j : Int) - (i : Int))

/-- The match wavefront of score `t`, before it is extended, has reached every
cell of cost exactly `t` that is not a match continuing a cell of cost `t`. -/
def wavefront_complete_pre (P : affine_problem_t) (t : Int)
    (wavefront : Option wavefront_t) : Prop :=
  ∀ i j : Nat, i ≤ P.pattern_length → j ≤ P.text_length →
    (P.table i j).m = ((t.toNat : Nat) : ℕ∞) → 0 ≤ t →
    (∀ i' j' : Nat, i = i' + 1 → j = j' + 1 → P.pattern i' = P.text j' →
      (P.table i' j').m ≠ ((t.toNat : Nat) : ℕ∞)) →
    (j : Int) ≤ wavefront_offset_at wavefront ((j : Int) - (i : Int))

/-- The problem an invocation of the driver solves. -/
def problem_of (penalties : affine_penalties_t) (sequences : strings_padded_t)
    (pattern_length text_length : Nat) : affine_problem_t :=
  { penalties := penalties
    pattern := sequences.pattern_padded
    pattern_length := pattern_length
    text := sequences.text_padded
    text_length := text_length }

/-- The wavefronts the aligner retains in the slot of score `t`. -/
def retained_set {σ β : Type} (wf_aligner : wavefront_aligner_t σ β) (t : Int) :
    wavefront_set_t :=
  { mwavefront := wf_aligner.mwavefronts (score_slot wf_aligner t)
    i1wavefront := wf_aligner.i1wavefronts (score_slot wf_aligner t)
    d1wavefront := wf_aligner.d1wavefronts (score_slot wf_aligner t) }

/-- Every wavefront of the set of score `t` is sound. -/
def set_sound (P : affine_problem_t) (t : Int) (S : wavefront_set_t) : Prop :=
  wavefront_sound P component_t.M t S.mwavefront ∧
  wavefront_sound P component_t.I t S.i1wavefront ∧
  wavefront_sound P component_t.D t S.d1wavefront

/-- Every wavefront of the set of score `t` is complete. -/
def set_complete (P : affine_problem_t) (t : Int) (S : wavefront_set_t) : Prop :=
  wavefront_complete P component_t.M t S.mwavefront ∧
  wavefront_complete P component_t.I t S.i1wavefront ∧
  wavefront_complete P component_t.D t S.d1wavefront

/-- The set of score `t` is complete up to the extension of its match wavefront. -/
def set_complete_pre (P : affine_problem_t) (t : Int) (S : wavefront_set_t) : Prop :=
  wavefront_complete_pre P t S.mwavefront ∧
  wavefront_complete P component_t.I t S.i1wavefront ∧
  wavefront_complete P component_t.D t S.d1wavefront

/-- Score `t` is still live when the loop is at score `s`: it is not above `s` and,
under modular retention, its slot has not been reused. -/
def retained {σ β : Type} (wf_aligner : wavefront_aligner_t σ β) (s t : Nat) : Prop :=
  t ≤ s ∧ (wf_aligner.memory_modular = true → (s : Int) < (t : Int) + wf_aligner.max_score_scope)

/-- The state of the history after the extend of score `s`: every live score
holds a sound and complete wavefront set. -/
def history_extended {σ β : Type} (P : affine_problem_t) (wf_aligner : wavefront_aligner_t σ β)
    (s : Nat) : Prop :=
  ∀ t : Nat, retained wf_aligner s t →
    set_sound P t (retained_set wf_aligner t) ∧ set_complete P t (retained_set wf_aligner t)

/-- The state of the history before the extend of score `s`: as after it for the
live scores below `s`, and the set of `s` itself is sound and complete up to the
extension. -/
def history_computed {σ β : Type} (P : affine_problem_t) (wf_aligner : wavefront_aligner_t σ β)
    (s : Nat) : Prop :=
  (∀ t : Nat, t < s → retained wf_aligner s t →
    set_sound P t (retained_set wf_aligner t) ∧ set_complete P t (retained_set wf_aligner t)) ∧
  set_sound P s (retained_set wf_aligner s) ∧ set_complete_pre P s (retained_set wf_aligner s)

/-- Two aligner states have the same retention policy, scope and metric. -/
def same_config {σ β : Type} (a b : wavefront_aligner_t σ β) : Prop :=
  a.memory_modular = b.memory_modular ∧ a.max_score_scope = b.max_score_scope ∧
  a.alignment_scope = b.alignment_scope ∧ a.distance_metric = b.distance_metric

/-- The scope of modular retention is large enough for the penalties: more than
the largest single-step score delta. -/
def scope_covers {σ β : Type} (penalties : affine_penalties_t)
    (wf_aligner : wavefront_aligner_t σ β) : Prop :=
  wf_aligner.memory_modular = true →
    ((max penalties.mismatch (penalties.gap_opening + penalties.gap_extension) : Nat) : Int)
      < wf_aligner.max_score_scope

/-! ## Predicates relating two-piece wavefronts to the two-piece reference table -/

/-- A two-piece alignment problem: the penalties, the two sequences and their
lengths. -/
structure affine2p_problem_t where
  penalties : affine2p_penalties_t
  pattern : Int → Char
  pattern_length : Nat
  text : Int → Char
  text_length : Nat

/-- The reference table of a two-piece problem. -/
def affine2p_problem_t.table (P : affine2p_problem_t) : Nat → Nat → affine2p_cell_t :=
  affine2p_table P.penalties P.pattern P.text

/-- The minimum alignment cost of a two-piece problem. -/
def affine2p_problem_t.cost (P : affine2p_problem_t) : ℕ∞ :=
  (P.table P.pattern_length P.text_length).m

/-- The five components of a two-piece wavefront set and of a two-piece table cell:
the match component and, for either gap profile (`second` false or true), the
insertion and the deletion component. -/
inductive component2p_t where
  | M
  | I (second : Bool)
  | D (second : Bool)
deriving DecidableEq, Repr

/-- The insertion entry of a cell for a gap profile. -/
def affine2p_cell_t.ins (c : affine2p_cell_t) (second : Bool) : ℕ∞ :=
  if second then c.i2 else c.i1

/-- The deletion entry of a cell for a gap profile. -/
def affine2p_cell_t.del (c : affine2p_cell_t) (second : Bool) : ℕ∞ :=
  if second then c.d2 else c.d1

/-- The entry of a two-piece table cell for a component. -/
def affine2p_cell_t.get (c : affine2p_cell_t) : component2p_t → ℕ∞
  | component2p_t.M => c.m
  | component2p_t.I second => c.ins second
  | component2p_t.D second => c.del second

/-- The wavefront of a two-piece set for a component. -/
def wavefront_set2p_t.get (S : wavefront_set2p_t) : component2p_t → Option wavefront_t
  | component2p_t.M => S.mwavefront
  | component2p_t.I second => if second then S.i2wavefront else S.i1wavefront
  | component2p_t.D second => if second then S.d2wavefront else S.d1wavefront

/-- The cost of one more gap symbol on a gap profile from component `X`: the
extension alone when `X` is already the gap `target` of that profile, the opening
and the extension otherwise. -/
def gap_step (penalties : affine2p_penalties_t) (X target : component2p_t) (second : Bool) :
    Nat :=
  (if X = target then 0 else (penalties.piece second).gap_opening)
    + (penalties.piece second).gap_extension

/-- The least cost of `n` more deleted symbols from component `X`. -/
def del_potential (penalties : affine2p_penalties_t) : component2p_t → Nat → Nat
  | _, 0 => 0
  | X, n + 1 =>
    min (gap_step penalties X (component2p_t.D false) false
          + del_potential penalties (component2p_t.D false) n)
        (gap_step penalties X (component2p_t.D true) true
          + del_potential penalties (component2p_t.D true) n)

/-- The least cost of `n` more inserted symbols from component `X`. -/
def ins_potential (penalties : affine2p_penalties_t) : component2p_t → Nat → Nat
  | _, 0 => 0
  | X, n + 1 =>
    min (gap_step penalties X (component2p_t.I false) false
          + ins_potential penalties (component2p_t.I false) n)
        (gap_step penalties X (component2p_t.I true) true
          + ins_potential penalties (component2p_t.I true) n)

/-- The least cost of the gaps that lead from a cell `d` diagonals above the
target diagonal (`d < 0`: below) back to it, when the cell is in component `X`. -/
def gap_potential2p (penalties : affine2p_penalties_t) (X : component2p_t) (d : Int) : Nat :=
  if 0 < d then del_potential penalties X d.toNat
  else if d < 0 then ins_potential penalties X (-d).toNat
  else 0

/-- A reachable cell `(v, h)` held in component `X` of the two-piece wavefronts of
score `s` is sound: inside the table its reference cost is at most `s`; past the
end of a sequence, the cost of the whole alignment is at most `s` plus the gaps
that lead back to the target diagonal. -/
def cell_sound2p (P : affine2p_problem_t) (X : component2p_t) (s : Nat) (v h : Int) : Prop :=
  0 ≤ v ∧ 0 ≤ h ∧
  ((v ≤ P.pattern_length ∧ h ≤ P.text_length ∧ (P.table v.toNat h.toNat).get X ≤ (s : ℕ∞)) ∨
   ((P.pattern_length < v ∨ P.text_length < h) ∧
     P.cost ≤ ((s + gap_potential2p P.penalties X
       ((h - v) - ((P.text_length : Int) - (P.pattern_length : Int))) : Nat) : ℕ∞)))

/-- Every reachable offset of the two-piece wavefront of score `t` is a sound cell. -/
def wavefront_sound2p (P : affine2p_problem_t) (X : component2p_t) (t : Int)
    (wavefront : Option wavefront_t) : Prop :=
  ∀ k, 0 ≤ wavefront_offset_at wavefront k →
    0 ≤ t ∧ cell_sound2p P X t.toNat (wavefront_offset_at wavefront k - k)
      (wavefront_offset_at wavefront k)

/-- The two-piece wavefront of score `t` has reached every cell of the table whose
reference cost is exactly `t`. -/
def wavefront_complete2p (P : affine2p_problem_t) (X : component2p_t) (t : Int)
    (wavefront : Option wavefront_t) : Prop :=
  ∀ i j : Nat, i ≤ P.pattern_length → j ≤ P.text_length →
    (P.table i j).get X = ((t.toNat : Nat) : ℕ∞) → 0 ≤ t →
    (j : Int) ≤ wavefront_offset_at wavefront ((j : Int) - (i : Int))

/-- The two-piece match wavefront of score `t`, before it is extended, has reached
every cell of cost exactly `t` that is not a match continuing a cell of cost `t`. -/
def wavefront_complete2p_pre (P : affine2p_problem_t) (t : Int)
    (wavefront : Option wavefront_t) : Prop :=
  ∀ i j : Nat, i ≤ P.pattern_length → j ≤ P.text_length →
    (P.table i j).m = ((t.toNat : Nat) : ℕ∞) → 0 ≤ t →
    (∀ i' j' : Nat, i = i' + 1 → j = j' + 1 → P.pattern i' = P.text j' →
      (P.table i' j').m ≠ ((t.toNat : Nat) : ℕ∞)) →
    (j : Int) ≤ wavefront_offset_at wavefront ((j : Int) - (i : Int))

/-- The two-piece problem an invocation of the driver solves. -/
def problem2p_of (penalties : affine2p_penalties_t) (sequences : strings_padded_t)
    (pattern_length text_length : Nat) : affine2p_problem_t :=
  { penalties := penalties
    pattern := sequences.pattern_padded
    pattern_length := pattern_length
    text := sequences.text_padded
    text_length := text_length }

/-- The two-piece wavefronts the aligner retains in the slot of score `t`. -/
def retained_set2p {σ β : Type} (wf_aligner : wavefront_aligner_t σ β) (t : Int) :
    wavefront_set2p_t :=
  { mwavefront := wf_aligner.mwavefronts (score_slot wf_aligner t)
    i1wavefront := wf_aligner.i1wavefronts (score_slot wf_aligner t)
    d1wavefront := wf_aligner.d1wavefronts (score_slot wf_aligner t)
    i2wavefront := wf_aligner.i2wavefronts (score_slot wf_aligner t)
    d2wavefront := wf_aligner.d2wavefronts (score_slot wf_aligner t) }

/-- Every wavefront of the two-piece set of score `t` is sound. -/
def set2p_sound (P : affine2p_problem_t) (t : Int) (S : wavefront_set2p_t) : Prop :=
  ∀ X, wavefront_sound2p P X t (S.get X)

/-- Every wavefront of the two-piece set of score `t` is complete. -/
def set2p_complete (P : affine2p_problem_t) (t : Int) (S : wavefront_set2p_t) : Prop :=
  ∀ X, wavefront_complete2p P X t (S.get X)

/-- The two-piece set of score `t` is complete up to the extension of its match
wavefront. -/
def set2p_complete_pre (P : affine2p_problem_t) (t : Int) (S : wavefront_set2p_t) : Prop :=
  wavefront_complete2p_pre P t S.mwavefront ∧
  ∀ second, wavefront_complete2p P (component2p_t.I second) t
      (S.get (component2p_t.I second)) ∧
    wavefront_complete2p P (component2p_t.D second) t (S.get (component2p_t.D second))

/-- The state of the two-piece history after the extend of score `s`. -/
def history2p_extended {σ β : Type} (P : affine2p_problem_t)
    (wf_aligner : wavefront_aligner_t σ β) (s : Nat) : Prop :=
  ∀ t : Nat, retained wf_aligner s t →
    set2p_sound P t (retained_set2p wf_aligner t) ∧
    set2p_complete P t (retained_set2p wf_aligner t)

/-- The state of the two-piece history before the extend of score `s`. -/
def history2p_computed {σ β : Type} (P : affine2p_problem_t)
    (wf_aligner : wavefront_aligner_t σ β) (s : Nat) : Prop :=
  (∀ t : Nat, t < s → retained wf_aligner s t →
    set2p_sound P t (retained_set2p wf_aligner t) ∧
    set2p_complete P t (retained_set2p wf_aligner t)) ∧
  set2p_sound P s (retained_set2p wf_aligner s) ∧
  set2p_complete_pre P s (retained_set2p wf_aligner s)

/-- The scope of modular retention is large enough for the two-piece penalties:
more than the largest single-step score delta. -/
def scope2p_covers {σ β : Type} (penalties : affine2p_penalties_t)
    (wf_aligner : wavefront_aligner_t σ β) : Prop :=
  wf_aligner.memory_modular = true →
    ((max penalties.mismatch
      (max (penalties.gap_opening1 + penalties.gap_extension1)
        (penalties.gap_opening2 + penalties.gap_extension2)) : Nat) : Int)
      < wf_aligner.max_score_scope

/-! ## Lemmas on the termination detector and the initial conditions -/

/-- The termination detector returns true exactly when the match wavefront of the
slot exists, its range contains the target diagonal and its offset there has
reached the target offset. -/
theorem terminate_fst_iff {σ β : Type} (K : kernels_t σ β) (w : world_t σ β)
    (sequences : strings_padded_t) (pattern_length text_length score_final : Int) :
    (wavefront_align_global_terminate K w sequences pattern_length text_length score_final).1 = true
      ↔ ∃ mwavefront,
          w.aligner.mwavefronts (score_slot w.aligner score_final) = some mwavefront ∧
          mwavefront.lo ≤ text_length - pattern_length ∧
          text_length - pattern_length ≤ mwavefront.hi ∧
          mwavefront.offsets (text_length - pattern_length) ≥ text_length := by
  unfold wavefront_align_global_terminate
  simp only [WAVEFRONT_DIAGONAL, WAVEFRONT_OFFSET]
  cases hm : w.aligner.mwavefronts (score_slot w.aligner score_final) with
  | none => simp
  | some mw =>
    simp only [Option.some.injEq, exists_eq_left']
    by_cases h1 : mw.lo > text_length - pattern_length ∨ text_length - pattern_length > mw.hi
    · rw [if_pos h1]
      simp only [Bool.false_eq_true, false_iff, not_and]
      intro h2 h3
      rcases h1 with h1 | h1 <;> omega
    · rw [if_neg h1]
      by_cases h2 : mw.offsets (text_length - pattern_length) < text_length
      · rw [if_pos h2]
        simp only [Bool.false_eq_true, false_iff, not_and]
        intro _ _
        omega
      · rw [if_neg h2]
        have h3 : mw.lo ≤ text_length - pattern_length ∧
            text_length - pattern_length ≤ mw.hi ∧
            mw.offsets (text_length - pattern_length) ≥ text_length := by
          refine ⟨?_, ?_, ?_⟩ <;> omega
        split_ifs <;> simp [h3]

/-- A failed check leaves the state as it was. -/
theorem terminate_false_world {σ β : Type} (K : kernels_t σ β) (w : world_t σ β)
    (sequences : strings_padded_t) (pattern_length text_length score_final : Int)
    (hret : (wavefront_align_global_terminate K w sequences
      pattern_length text_length score_final).1 = false) :
    (wavefront_align_global_terminate K w sequences
      pattern_length text_length score_final).2 = w := by
  unfold wavefront_align_global_terminate at hret ⊢
  simp only [] at hret ⊢
  cases hm : w.aligner.mwavefronts (score_slot w.aligner score_final) with
  | none => rfl
  | some mw =>
    rw [hm] at hret
    simp only [] at hret ⊢
    split_ifs at hret ⊢ <;> simp_all

/-- The state a successful check leaves in score-only scope. -/
theorem terminate_score_only_state {σ β : Type} (K : kernels_t σ β) (w : world_t σ β)
    (sequences : strings_padded_t) (pattern_length text_length score_final : Int)
    (hret : (wavefront_align_global_terminate K w sequences
      pattern_length text_length score_final).1 = true)
    (hscope : w.aligner.alignment_scope = alignment_scope_t.alignment_scope_score) :
    (wavefront_align_global_terminate K w sequences
        pattern_length text_length score_final).2
      = { w with aligner := { w.aligner with
            cigar := { w.aligner.cigar with
              begin_offset := 0, end_offset := 0, score := -score_final } } } := by
  unfold wavefront_align_global_terminate at hret ⊢
  simp only [] at hret ⊢
  cases hm : w.aligner.mwavefronts (score_slot w.aligner score_final) with
  | none => rw [hm] at hret; simp at hret
  | some mw =>
    rw [hm] at hret
    simp only [] at hret ⊢
    split_ifs at hret ⊢
    all_goals simp_all

/-- The calls of the initial conditions: one allocation from the slab. -/
theorem initialize_calls {σ β : Type} (K : kernels_t σ β) (w : world_t σ β) :
    ( wavefront_align_global_initialize K w).calls
      = w.calls ++ [call_t.wavefront_slab_allocate 0 0] := by
  unfold wavefront_align_global_initialize
  simp only []
  split_ifs <;> rfl

/-- The calls of the termination detector: at most one, and only a backtrace. -/
theorem terminate_calls {σ β : Type} (K : kernels_t σ β) (w : world_t σ β)
    (sequences : strings_padded_t) (pl tl score_final : Int) :
    ∃ tail, (wavefront_align_global_terminate K w sequences pl tl score_final).2.calls
        = w.calls ++ tail ∧ tail.length ≤ 1 ∧ ∀ c ∈ tail, call_t.is_backtrace c = true := by
  unfold wavefront_align_global_terminate
  simp only []
  cases hm : w.aligner.mwavefronts (score_slot w.aligner score_final) with
  | none => exact ⟨[], by simp⟩
  | some mw =>
    simp only []
    split_ifs
    · exact ⟨[], by simp⟩
    · exact ⟨[], by simp⟩
    · exact ⟨[], by simp⟩
    · exact ⟨[_], rfl, by simp, by simp [call_t.is_backtrace]⟩
    · exact ⟨[_], rfl, by simp, by simp [call_t.is_backtrace]⟩

/-- Score 0 lives in slot 0 under either retention policy. -/
theorem score_slot_zero {σ β : Type} (a : wavefront_aligner_t σ β) : score_slot a 0 = 0 := by
  unfold score_slot
  split_ifs <;> simp

/-- The score-0 match wavefront the initial conditions leave. -/
theorem initialize_mwavefront_zero {σ β : Type} (K : kernels_t σ β) (w : world_t σ β) :
    ∃ m, ( wavefront_align_global_initialize K w).aligner.mwavefronts 0 = some m ∧
      m.lo = 0 ∧ m.hi = 0 ∧ m.offsets 0 = 0 := by
  unfold wavefront_align_global_initialize wavefront_slab_allocate
  cases hp : w.aligner.bt_piggyback
  all_goals cases hd : w.aligner.distance_metric
  all_goals simp

/-- The initial conditions keep the configuration of the aligner. -/
theorem initialize_config {σ β : Type} (K : kernels_t σ β) (w : world_t σ β) :
    ( wavefront_align_global_initialize K w).aligner.alignment_scope = w.aligner.alignment_scope ∧
    ( wavefront_align_global_initialize K w).aligner.memory_modular = w.aligner.memory_modular ∧
    ( wavefront_align_global_initialize K w).aligner.max_score_scope = w.aligner.max_score_scope ∧
    ( wavefront_align_global_initialize K w).aligner.bt_piggyback = w.aligner.bt_piggyback ∧
    ( wavefront_align_global_initialize K w).aligner.cigar = w.aligner.cigar := by
  unfold wavefront_align_global_initialize
  simp only []
  split_ifs <;> exact ⟨rfl, rfl, rfl, rfl, rfl⟩

/-- The state after a successful termination check in end-to-end scope with the
piggyback flag clear: the recompute retrace has run on the aligner with the slot
of `score_final` as its score argument. -/
theorem terminate_retrace_state {σ β : Type} (K : kernels_t σ β) (w : world_t σ β)
    (sequences : strings_padded_t) (pattern_length text_length score_final : Int)
    (hret : (wavefront_align_global_terminate K w sequences
      pattern_length text_length score_final).1 = true)
    (hscope : w.aligner.alignment_scope = alignment_scope_t.alignment_scope_alignment)
    (hpiggy : w.aligner.bt_piggyback = false) :
    (wavefront_align_global_terminate K w sequences
        pattern_length text_length score_final).2
      = { aligner := K.wavefront_backtrace_affine w.aligner
            sequences.pattern_padded pattern_length sequences.text_padded text_length
            (score_slot w.aligner score_final)
          calls := w.calls ++ [call_t.wavefront_backtrace_affine pattern_length text_length
            (score_slot w.aligner score_final)] } := by
  unfold wavefront_align_global_terminate at hret ⊢
  simp only [WAVEFRONT_DIAGONAL, WAVEFRONT_OFFSET] at hret ⊢
  cases hm : w.aligner.mwavefronts (score_slot w.aligner score_final) with
  | none => rw [hm] at hret; simp at hret
  | some mw =>
    rw [hm] at hret
    simp only [] at hret ⊢
    by_cases h1 : mw.lo > text_length - pattern_length ∨ text_length - pattern_length > mw.hi
    · rw [if_pos h1] at hret; simp at hret
    · rw [if_neg h1] at hret ⊢
      by_cases h2 : mw.offsets (text_length - pattern_length) < text_length
      · rw [if_pos h2] at hret; simp at hret
      · rw [if_neg h2, if_neg (by rw [hscope]; decide), hpiggy]
        simp

/-- The truncated remainder of a score within the scope is the score. -/
theorem tmod_of_lt (s W : Int) (h0 : 0 ≤ s) (h : s < W) : Int.tmod s W = s :=
  Int.tmod_eq_of_lt h0 h

/-- The truncated remainder of a score at or past a positive scope is a
non-negative number below the scope, hence not the score. -/
theorem tmod_of_ge (s W : Int) (hW : 0 < W) (h : W ≤ s) :
    0 ≤ Int.tmod s W ∧ Int.tmod s W < W := by
  rw [Int.tmod_eq_emod (by omega) (by omega)]
  exact ⟨Int.emod_nonneg _ (by omega), Int.emod_lt_of_pos _ hW⟩

/-! ## Lemmas on the loop -/

/-- One iteration of the loop whose check succeeds. -/
theorem loop_succ_of_check_true {σ β : Type} (K : kernels_t σ β)
    (sequences : strings_padded_t) (pl tl : Int) (d : distance_metric_t)
    (fuel : Nat) (w : world_t σ β) (score : Int)
    (h : (wavefront_align_global_terminate K (after_extend K sequences pl tl w score)
      sequences pl tl score).1 = true) :
    wavefront_align_global_loop K sequences pl tl d (fuel + 1) w score
      = outcome_t.returned (wavefront_align_global_terminate K
          (after_extend K sequences pl tl w score) sequences pl tl score).2 := by
  simp only [wavefront_align_global_loop]
  unfold after_extend at h ⊢
  rw [if_pos h]

/-- One iteration of the loop whose check fails, for an affine metric. -/
theorem loop_succ_of_check_false {σ β : Type} (K : kernels_t σ β)
    (sequences : strings_padded_t) (pl tl : Int) (d : distance_metric_t)
    (hd : d = distance_metric_t.gap_affine ∨ d = distance_metric_t.gap_affine_2p)
    (fuel : Nat) (w : world_t σ β) (score : Int)
    (h : (wavefront_align_global_terminate K (after_extend K sequences pl tl w score)
      sequences pl tl score).1 = false) :
    wavefront_align_global_loop K sequences pl tl d (fuel + 1) w score
      = wavefront_align_global_loop K sequences pl tl d fuel
          (after_compute K sequences pl tl d
            (wavefront_align_global_terminate K (after_extend K sequences pl tl w score)
              sequences pl tl score).2 (score + 1)) (score + 1) := by
  rw [wavefront_align_global_loop]
  unfold after_extend at h ⊢
  simp only [h, Bool.false_eq_true, ↓reduceIte]
  rcases hd with hd | hd <;> subst hd <;> rfl

/-- One iteration of the loop whose check fails, for a metric that is not affine. -/
theorem loop_succ_of_check_false_other {σ β : Type} (K : kernels_t σ β)
    (sequences : strings_padded_t) (pl tl : Int) (d : distance_metric_t)
    (hd : d = distance_metric_t.edit ∨ d = distance_metric_t.gap_lineal)
    (fuel : Nat) (w : world_t σ β) (score : Int)
    (h : (wavefront_align_global_terminate K (after_extend K sequences pl tl w score)
      sequences pl tl score).1 = false) :
    wavefront_align_global_loop K sequences pl tl d (fuel + 1) w score
      = outcome_t.exited not_implemented_message 1 (after_extend K sequences pl tl w score) := by
  rw [wavefront_align_global_loop]
  have h2 := terminate_false_world K _ sequences pl tl score h
  unfold after_extend at h h2 ⊢
  simp only [h, Bool.false_eq_true, ↓reduceIte]
  rcases hd with hd | hd <;> subst hd <;> simp only [h2]


theorem loop_check_succ {σ β : Type} (K : kernels_t σ β) (sequences : strings_padded_t)
    (pl tl : Int) (d : distance_metric_t) (n : Nat) (w : world_t σ β) (score : Int) :
    loop_check K sequences pl tl d (n + 1) w score
      = loop_check K sequences pl tl d n
          (after_compute K sequences pl tl d
            (wavefront_align_global_terminate K (after_extend K sequences pl tl w score)
              sequences pl tl score).2 (score + 1)) (score + 1) := by
  unfold loop_check
  have e : score + ((n + 1 : Nat) : Int) = score + 1 + (n : Int) := by push_cast; ring
  rw [e]
  rfl

theorem loop_check_zero {σ β : Type} (K : kernels_t σ β) (sequences : strings_padded_t)
    (pl tl : Int) (d : distance_metric_t) (w : world_t σ β) (score : Int) :
    loop_check K sequences pl tl d 0 w score
      = wavefront_align_global_terminate K (after_extend K sequences pl tl w score)
          sequences pl tl score := by
  unfold loop_check
  simp [loop_world]

/-- If the loop returns, it does so at the first iteration whose check succeeds. -/
theorem loop_returned_elim {σ β : Type} (K : kernels_t σ β) (sequences : strings_padded_t)
    (pl tl : Int) (d : distance_metric_t)
    (hd : d = distance_metric_t.gap_affine ∨ d = distance_metric_t.gap_affine_2p) :
    ∀ (fuel : Nat) (w : world_t σ β) (score : Int) (w' : world_t σ β),
      wavefront_align_global_loop K sequences pl tl d fuel w score = outcome_t.returned w' →
      ∃ n, n < fuel ∧
        (∀ t, t < n → (loop_check K sequences pl tl d t w score).1 = false) ∧
        (loop_check K sequences pl tl d n w score).1 = true ∧
        w' = (loop_check K sequences pl tl d n w score).2 := by
  intro fuel
  induction fuel with
  | zero =>
    intro w score w' h
    simp [wavefront_align_global_loop] at h
  | succ fuel ih =>
    intro w score w' h
    cases hc : (wavefront_align_global_terminate K (after_extend K sequences pl tl w score)
        sequences pl tl score).1 with
    | true =>
      rw [loop_succ_of_check_true K sequences pl tl d fuel w score hc] at h
      refine ⟨0, Nat.succ_pos _, ?_, ?_, ?_⟩
      · intro t ht; omega
      · rw [loop_check_zero]; exact hc
      · rw [loop_check_zero]; exact (outcome_t.returned.inj h).symm
    | false =>
      rw [loop_succ_of_check_false K sequences pl tl d hd fuel w score hc] at h
      obtain ⟨n, hn, hfail, hok, hw⟩ := ih _ _ _ h
      refine ⟨n + 1, Nat.succ_lt_succ hn, ?_, ?_, ?_⟩
      · intro t ht
        cases t with
        | zero => rw [loop_check_zero]; exact hc
        | succ t =>
          rw [loop_check_succ]
          exact hfail t (by omega)
      · rw [loop_check_succ]; exact hok
      · rw [loop_check_succ]; exact hw

/-- With more fuel than the first iteration whose check succeeds, the loop returns there. -/
theorem loop_returned_intro {σ β : Type} (K : kernels_t σ β) (sequences : strings_padded_t)
    (pl tl : Int) (d : distance_metric_t)
    (hd : d = distance_metric_t.gap_affine ∨ d = distance_metric_t.gap_affine_2p) :
    ∀ (n : Nat) (fuel : Nat) (w : world_t σ β) (score : Int),
      n < fuel →
      (∀ t, t < n → (loop_check K sequences pl tl d t w score).1 = false) →
      (loop_check K sequences pl tl d n w score).1 = true →
      wavefront_align_global_loop K sequences pl tl d fuel w score
        = outcome_t.returned (loop_check K sequences pl tl d n w score).2 := by
  intro n
  induction n with
  | zero =>
    intro fuel w score hn _ hok
    obtain ⟨f, rfl⟩ : ∃ f, fuel = f + 1 := ⟨fuel - 1, by omega⟩
    rw [loop_check_zero] at hok ⊢
    exact loop_succ_of_check_true K sequences pl tl d f w score hok
  | succ n ih =>
    intro fuel w score hn hfail hok
    obtain ⟨f, rfl⟩ : ∃ f, fuel = f + 1 := ⟨fuel - 1, by omega⟩
    have h0 := hfail 0 (Nat.succ_pos _)
    rw [loop_check_zero] at h0
    rw [loop_succ_of_check_false K sequences pl tl d hd f w score h0, loop_check_succ]
    apply ih
    · omega
    · intro t ht
      have := hfail (t + 1) (by omega)
      rwa [loop_check_succ] at this
    · rwa [loop_check_succ] at hok

/-- The calls logged by `n` full iterations whose checks all fail. -/
theorem loop_world_calls {σ β : Type} (K : kernels_t σ β) (sequences : strings_padded_t)
    (pl tl : Int) (d : distance_metric_t) :
    ∀ (n : Nat) (w : world_t σ β) (score : Int),
      (∀ t, t < n → (loop_check K sequences pl tl d t w score).1 = false) →
      (loop_world K sequences pl tl d n w score).calls
        = w.calls ++ (List.range n).flatMap (fun t =>
            [call_t.wavefront_extend pl tl (score + t),
             compute_call d pl tl (score + t + 1)]) := by
  intro n
  induction n with
  | zero => intro w score _; simp [loop_world]
  | succ n ih =>
    intro w score hfail
    have h0 := hfail 0 (Nat.succ_pos _)
    rw [loop_check_zero] at h0
    have hw := terminate_false_world K _ sequences pl tl score h0
    rw [loop_world, ih]
    · rw [hw, List.range_succ_eq_map, List.flatMap_cons, List.flatMap_map]
      simp only [after_compute, after_extend, List.append_assoc, List.singleton_append,
        Nat.cast_zero, add_zero, List.cons_append, List.nil_append]
      congr 3
      apply List.flatMap_congr
      intro t _
      simp only [Function.comp, Nat.cast_succ]
      have e1 : score + 1 + (t : Int) = score + ((t : Int) + 1) := by ring
      rw [e1, add_assoc score]
    · intro t ht
      have := hfail (t + 1) (by omega)
      rwa [loop_check_succ] at this

/-- The check of score `s` of an invocation is the check of the loop after `s` iterations. -/
theorem check_at_eq_loop_check {σ β : Type} (K : kernels_t σ β) (sequences : strings_padded_t)
    (pl tl : Int) (w : world_t σ β) (s : Nat) :
    check_at K sequences pl tl w s
      = loop_check K sequences pl tl w.aligner.distance_metric s
          ( wavefront_align_global_initialize K w) 0 := by
  unfold check_at loop_check extended_world
  rw [zero_add]

/-! ## Lemmas on the extend operator -/

/-- The extension never moves an offset backwards. -/
theorem extend_offset_ge (pattern : Int → Char) (pl : Int) (text : Int → Char) (tl : Int)
    (k : Int) : ∀ (fuel : Nat) (offset : Int),
      offset ≤ extend_offset pattern pl text tl k fuel offset := by
  intro fuel
  induction fuel with
  | zero => intro offset; simp [extend_offset]
  | succ fuel ih =>
    intro offset
    rw [extend_offset]
    split_ifs
    · exact le_trans (by omega) (ih (offset + 1))
    · exact le_refl _

/-- On diagonal 0 of two sequences with the same `n` symbols, the extension of an
offset inside the sequences runs to their end. -/
theorem extend_offset_identical (pattern text : Int → Char) (n : Nat)
    (hsame : ∀ i : Int, 0 ≤ i → i < n → pattern i = text i) :
    ∀ (fuel : Nat) (offset : Int), 0 ≤ offset → offset ≤ n → (n - offset).toNat ≤ fuel →
      extend_offset pattern n text n 0 fuel offset = n := by
  intro fuel
  induction fuel with
  | zero =>
    intro offset h0 hn hf
    simp only [extend_offset]
    omega
  | succ fuel ih =>
    intro offset h0 hn hf
    rw [extend_offset]
    by_cases hlt : offset < n
    · rw [if_pos ⟨by omega, by omega, h0, hlt, by rw [sub_zero]; exact hsame offset h0 hlt⟩]
      exact ih (offset + 1) (by omega) (by omega) (by omega)
    · rw [if_neg (by intro h; exact hlt h.2.2.2.1)]
      omega

/-- The extend operator of the contract keeps the configuration of the aligner. -/
theorem extend_spec_config {σ β : Type} (a : wavefront_aligner_t σ β)
    (pattern : Int → Char) (pl : Int) (text : Int → Char) (tl : Int) (score : Int) :
    (wavefront_extend_spec a pattern pl text tl score).alignment_scope = a.alignment_scope ∧
    (wavefront_extend_spec a pattern pl text tl score).memory_modular = a.memory_modular ∧
    (wavefront_extend_spec a pattern pl text tl score).max_score_scope = a.max_score_scope ∧
    (wavefront_extend_spec a pattern pl text tl score).bt_piggyback = a.bt_piggyback ∧
    (wavefront_extend_spec a pattern pl text tl score).cigar = a.cigar := by
  unfold wavefront_extend_spec
  cases a.mwavefronts (score_slot a score) <;> exact ⟨rfl, rfl, rfl, rfl, rfl⟩

/-- After the initial conditions and the extend of score 0 on two sequences with
the same `n` symbols, the score-0 match wavefront has reached offset `n` on
diagonal 0. -/
theorem extended_zero_identical {σ β : Type} (K : kernels_t σ β) (w : world_t σ β)
    (sequences : strings_padded_t) (n : Nat)
    (hsame : ∀ i : Int, 0 ≤ i → i < n → sequences.pattern_padded i = sequences.text_padded i) :
    ∃ m, (extended_world (with_spec_extend K) sequences n n w 0).aligner.mwavefronts 0 = some m ∧
      m.lo = 0 ∧ m.hi = 0 ∧ m.offsets 0 = n := by
  obtain ⟨m0, hm0, hlo, hhi, hoff⟩ := initialize_mwavefront_zero (with_spec_extend K) w
  refine ⟨wavefront_extend_wavefront sequences.pattern_padded n sequences.text_padded n m0,
    ?_, hlo, hhi, ?_⟩
  · show (wavefront_extend_spec ( wavefront_align_global_initialize (with_spec_extend K) w).aligner
      sequences.pattern_padded n sequences.text_padded n ((0 : Nat) : Int)).mwavefronts 0 = _
    unfold wavefront_extend_spec
    rw [Nat.cast_zero, score_slot_zero, hm0]
    simp
  · simp only [wavefront_extend_wavefront, hlo, hhi, le_refl, and_self, if_true, hoff]
    exact extend_offset_identical _ _ n hsame _ 0 (le_refl _) (by omega) (by simp)

/-! ## Lemmas on the reference table -/

theorem table_i_zero (P : affine_problem_t) (i : Nat) : (P.table i 0).i = ⊤ := by
  cases i <;> rfl

theorem table_d_zero (P : affine_problem_t) (j : Nat) : (P.table 0 j).d = ⊤ := by
  cases j <;> rfl

theorem table_m_zero_zero (P : affine_problem_t) : (P.table 0 0).m = 0 := rfl

theorem table_i_succ (P : affine_problem_t) (i j : Nat) :
    (P.table i (j + 1)).i
      = min ((P.table i j).m + ((P.penalties.gap_opening + P.penalties.gap_extension : Nat) : ℕ∞))
          ((P.table i j).i + (P.penalties.gap_extension : ℕ∞)) := by
  cases i <;> rfl

theorem table_d_succ (P : affine_problem_t) (i j : Nat) :
    (P.table (i + 1) j).d
      = min ((P.table i j).m + ((P.penalties.gap_opening + P.penalties.gap_extension : Nat) : ℕ∞))
          ((P.table i j).d + (P.penalties.gap_extension : ℕ∞)) := by
  cases j <;> rfl

theorem table_m_zero_succ (P : affine_problem_t) (j : Nat) :
    (P.table 0 (j + 1)).m = (P.table 0 (j + 1)).i := rfl

theorem table_m_succ_zero (P : affine_problem_t) (i : Nat) :
    (P.table (i + 1) 0).m = (P.table (i + 1) 0).d := rfl

theorem table_m_succ_succ (P : affine_problem_t) (i j : Nat) :
    (P.table (i + 1) (j + 1)).m
      = min ((P.table i j).m +
            ((if P.pattern i = P.text j then 0 else P.penalties.mismatch : Nat) : ℕ∞))
          (min (P.table (i + 1) (j + 1)).i (P.table (i + 1) (j + 1)).d) := rfl

theorem table_m_le_i (P : affine_problem_t) (i j : Nat) : (P.table i j).m ≤ (P.table i j).i := by
  cases j with
  | zero => rw [table_i_zero]; exact le_top
  | succ j =>
    cases i with
    | zero => rw [table_m_zero_succ]
    | succ i => rw [table_m_succ_succ]; exact le_trans (min_le_right _ _) (min_le_left _ _)

theorem table_m_le_d (P : affine_problem_t) (i j : Nat) : (P.table i j).m ≤ (P.table i j).d := by
  cases i with
  | zero => rw [table_d_zero]; exact le_top
  | succ i =>
    cases j with
    | zero => rw [table_m_succ_zero]
    | succ j => rw [table_m_succ_succ]; exact le_trans (min_le_right _ _) (min_le_right _ _)

theorem table_m_le_get (P : affine_problem_t) (X : component_t) (i j : Nat) :
    (P.table i j).m ≤ (P.table i j).get X := by
  cases X
  · exact le_refl _
  · exact table_m_le_i P i j
  · exact table_m_le_d P i j

theorem table_m_ne_top (P : affine_problem_t) (i j : Nat) : (P.table i j).m ≠ ⊤ := by
  induction i generalizing j with
  | zero =>
    induction j with
    | zero => rw [table_m_zero_zero]; exact ENat.zero_ne_top
    | succ j ih =>
      rw [table_m_zero_succ, table_i_succ]
      intro h
      have h1 := min_le_left ((P.table 0 j).m +
        ((P.penalties.gap_opening + P.penalties.gap_extension : Nat) : ℕ∞))
        ((P.table 0 j).i + (P.penalties.gap_extension : ℕ∞))
      rw [h, top_le_iff] at h1
      exact WithTop.add_ne_top.mpr ⟨ih, ENat.coe_ne_top _⟩ h1
  | succ i ih =>
    intro h
    have h1 : (P.table (i + 1) j).d ≤ (P.table i j).m +
        ((P.penalties.gap_opening + P.penalties.gap_extension : Nat) : ℕ∞) := by
      rw [table_d_succ]; exact min_le_left _ _
    have h2 := le_trans (table_m_le_d P (i + 1) j) h1
    rw [h, top_le_iff] at h2
    exact WithTop.add_ne_top.mpr ⟨ih j, ENat.coe_ne_top _⟩ h2

theorem enat_add_le_coe {a : ℕ∞} {n s : Nat} (h : a ≤ (s : ℕ∞)) :
    a + (n : ℕ∞) ≤ ((s + n : Nat) : ℕ∞) := by
  rw [ENat.coe_add]
  exact add_le_add_right h _

theorem enat_add_eq_coe {a : ℕ∞} {n s : Nat} (h : a + (n : ℕ∞) = (s : ℕ∞)) :
    ∃ m : Nat, a = (m : ℕ∞) ∧ m + n = s := by
  induction a using ENat.recTopCoe with
  | top => simp at h
  | coe m =>
    refine ⟨m, rfl, ?_⟩
    rw [← ENat.coe_add] at h
    exact ENat.coe_inj.mp h

/-- One more deleted symbol costs at most one gap extension. -/
theorem table_d_extend (P : affine_problem_t) (i j : Nat) :
    (P.table (i + 1) j).d ≤ (P.table i j).d + (P.penalties.gap_extension : ℕ∞) := by
  rw [table_d_succ]; exact min_le_right _ _

/-- A first deleted symbol costs at most a gap opening and a gap extension. -/
theorem table_d_open (P : affine_problem_t) (i j : Nat) :
    (P.table (i + 1) j).d ≤ (P.table i j).m +
      ((P.penalties.gap_opening + P.penalties.gap_extension : Nat) : ℕ∞) := by
  rw [table_d_succ]; exact min_le_left _ _

theorem table_i_extend (P : affine_problem_t) (i j : Nat) :
    (P.table i (j + 1)).i ≤ (P.table i j).i + (P.penalties.gap_extension : ℕ∞) := by
  rw [table_i_succ]; exact min_le_right _ _

theorem table_i_open (P : affine_problem_t) (i j : Nat) :
    (P.table i (j + 1)).i ≤ (P.table i j).m +
      ((P.penalties.gap_opening + P.penalties.gap_extension : Nat) : ℕ∞) := by
  rw [table_i_succ]; exact min_le_left _ _

/-- A substitution or a match costs at most the mismatch penalty. -/
theorem table_m_step (P : affine_problem_t) (i j : Nat) :
    (P.table (i + 1) (j + 1)).m ≤ (P.table i j).m + (P.penalties.mismatch : ℕ∞) := by
  rw [table_m_succ_succ]
  refine le_trans (min_le_left _ _) (add_le_add_left ?_ _)
  split_ifs
  · exact bot_le
  · exact le_refl _

/-- A match costs nothing. -/
theorem table_m_match (P : affine_problem_t) (i j : Nat) (h : P.pattern i = P.text j) :
    (P.table (i + 1) (j + 1)).m ≤ (P.table i j).m := by
  rw [table_m_succ_succ, if_pos h]
  refine le_trans (min_le_left _ _) ?_
  simp

/-- Deleting `n` more symbols from an open deletion. -/
theorem table_d_extend_many (P : affine_problem_t) (i j n s : Nat)
    (h : (P.table i j).d ≤ (s : ℕ∞)) :
    (P.table (i + n) j).d ≤ ((s + n * P.penalties.gap_extension : Nat) : ℕ∞) := by
  induction n with
  | zero => simpa using h
  | succ n ih =>
    have h1 := le_trans (table_d_extend P (i + n) j) (enat_add_le_coe ih)
    have e : s + n * P.penalties.gap_extension + P.penalties.gap_extension
        = s + (n + 1) * P.penalties.gap_extension := by ring
    rw [e] at h1
    exact h1

/-- Deleting `n + 1` symbols with a new deletion. -/
theorem table_d_open_many (P : affine_problem_t) (i j n s : Nat)
    (h : (P.table i j).m ≤ (s : ℕ∞)) :
    (P.table (i + (n + 1)) j).d
      ≤ ((s + (P.penalties.gap_opening + (n + 1) * P.penalties.gap_extension) : Nat) : ℕ∞) := by
  have h1 := le_trans (table_d_open P i j) (enat_add_le_coe h)
  have h2 := table_d_extend_many P (i + 1) j n _ h1
  have e1 : i + 1 + n = i + (n + 1) := by ring
  have e2 : s + (P.penalties.gap_opening + P.penalties.gap_extension)
        + n * P.penalties.gap_extension
      = s + (P.penalties.gap_opening + (n + 1) * P.penalties.gap_extension) := by ring
  rw [e1, e2] at h2
  exact h2

theorem table_i_extend_many (P : affine_problem_t) (i j n s : Nat)
    (h : (P.table i j).i ≤ (s : ℕ∞)) :
    (P.table i (j + n)).i ≤ ((s + n * P.penalties.gap_extension : Nat) : ℕ∞) := by
  induction n with
  | zero => simpa using h
  | succ n ih =>
    have h1 := le_trans (table_i_extend P i (j + n)) (enat_add_le_coe ih)
    have e : s + n * P.penalties.gap_extension + P.penalties.gap_extension
        = s + (n + 1) * P.penalties.gap_extension := by ring
    rw [e] at h1
    exact h1

theorem table_i_open_many (P : affine_problem_t) (i j n s : Nat)
    (h : (P.table i j).m ≤ (s : ℕ∞)) :
    (P.table i (j + (n + 1))).i
      ≤ ((s + (P.penalties.gap_opening + (n + 1) * P.penalties.gap_extension) : Nat) : ℕ∞) := by
  have h1 := le_trans (table_i_open P i j) (enat_add_le_coe h)
  have h2 := table_i_extend_many P i (j + 1) n _ h1
  have e1 : j + 1 + n = j + (n + 1) := by ring
  have e2 : s + (P.penalties.gap_opening + P.penalties.gap_extension)
        + n * P.penalties.gap_extension
      = s + (P.penalties.gap_opening + (n + 1) * P.penalties.gap_extension) := by ring
  rw [e1, e2] at h2
  exact h2

/-! ## Lemmas on the gap potential -/

theorem gap_potential_zero (pen : affine_penalties_t) (X : component_t) :
    gap_potential pen X 0 = 0 := by
  simp [gap_potential]

theorem gap_potential_pos (pen : affine_penalties_t) (X : component_t) (n : Nat) :
    gap_potential pen X ((n : Int) + 1)
      = (if X = component_t.D then 0 else pen.gap_opening) + (n + 1) * pen.gap_extension := by
  have h : (0 : Int) < (n : Int) + 1 := by omega
  have e : ((n : Int) + 1).toNat = n + 1 := by omega
  simp only [gap_potential, if_pos h, e]

theorem gap_potential_neg (pen : affine_penalties_t) (X : component_t) (n : Nat) :
    gap_potential pen X (-((n : Int) + 1))
      = (if X = component_t.I then 0 else pen.gap_opening) + (n + 1) * pen.gap_extension := by
  have h : ¬ (0 : Int) < -((n : Int) + 1) := by omega
  have h' : -((n : Int) + 1) < 0 := by omega
  have e : (- -((n : Int) + 1)).toNat = n + 1 := by omega
  simp only [gap_potential, if_neg h, if_pos h', e]

/-- Every diagonal distance is 0, `n + 1` or `-(n + 1)`. -/
theorem int_sign_cases (d : Int) :
    d = 0 ∨ (∃ n : Nat, d = (n : Int) + 1) ∨ (∃ n : Nat, d = -((n : Int) + 1)) := by
  rcases lt_trichotomy d 0 with h | h | h
  · exact Or.inr (Or.inr ⟨(-d - 1).toNat, by omega⟩)
  · exact Or.inl h
  · exact Or.inr (Or.inl ⟨(d - 1).toNat, by omega⟩)

/-- Opening an insertion: one diagonal up, at gap-open+extend cost. -/
theorem gap_potential_open_ins (pen : affine_penalties_t) (d : Int) :
    gap_potential pen component_t.M d
      ≤ (pen.gap_opening + pen.gap_extension) + gap_potential pen component_t.I (d + 1) := by
  rcases int_sign_cases d with h | ⟨n, h⟩ | ⟨n, h⟩
  · subst h
    rw [gap_potential_zero]; exact Nat.zero_le _
  · subst h
    have e : (n : Int) + 1 + 1 = ((n + 1 : Nat) : Int) + 1 := by push_cast; ring
    rw [e, gap_potential_pos, gap_potential_pos]
    simp only [reduceCtorEq, if_false]
    have : (n + 1 + 1) * pen.gap_extension = (n + 1) * pen.gap_extension + pen.gap_extension := by
      ring
    omega
  · subst h
    rw [gap_potential_neg]
    simp only [reduceCtorEq, if_false]
    cases n with
    | zero =>
      have e : -(((0 : Nat) : Int) + 1) + 1 = 0 := by simp
      rw [e, gap_potential_zero]
      simp
    | succ n =>
      have e : -(((n + 1 : Nat) : Int) + 1) + 1 = -((n : Int) + 1) := by push_cast; ring
      rw [e, gap_potential_neg]
      simp only [if_true]
      have : (n + 1 + 1) * pen.gap_extension = (n + 1) * pen.gap_extension + pen.gap_extension := by
        ring
      omega

/-- Extending an insertion: one diagonal up, at gap-extend cost. -/
theorem gap_potential_extend_ins (pen : affine_penalties_t) (d : Int) :
    gap_potential pen component_t.I d
      ≤ pen.gap_extension + gap_potential pen component_t.I (d + 1) := by
  rcases int_sign_cases d with h | ⟨n, h⟩ | ⟨n, h⟩
  · subst h
    rw [gap_potential_zero]; exact Nat.zero_le _
  · subst h
    have e : (n : Int) + 1 + 1 = ((n + 1 : Nat) : Int) + 1 := by push_cast; ring
    rw [e, gap_potential_pos, gap_potential_pos]
    simp only [reduceCtorEq, if_false]
    have : (n + 1 + 1) * pen.gap_extension = (n + 1) * pen.gap_extension + pen.gap_extension := by
      ring
    omega
  · subst h
    rw [gap_potential_neg]
    simp only [if_true]
    cases n with
    | zero =>
      have e : -(((0 : Nat) : Int) + 1) + 1 = 0 := by simp
      rw [e, gap_potential_zero]
      simp
    | succ n =>
      have e : -(((n + 1 : Nat) : Int) + 1) + 1 = -((n : Int) + 1) := by push_cast; ring
      rw [e, gap_potential_neg]
      simp only [if_true]
      have : (n + 1 + 1) * pen.gap_extension = (n + 1) * pen.gap_extension + pen.gap_extension := by
        ring
      omega

/-- Opening a deletion: one diagonal down, at gap-open+extend cost. -/
theorem gap_potential_open_del (pen : affine_penalties_t) (d : Int) :
    gap_potential pen component_t.M d
      ≤ (pen.gap_opening + pen.gap_extension) + gap_potential pen component_t.D (d - 1) := by
  rcases int_sign_cases d with h | ⟨n, h⟩ | ⟨n, h⟩
  · subst h
    rw [gap_potential_zero]; exact Nat.zero_le _
  · subst h
    rw [gap_potential_pos]
    simp only [reduceCtorEq, if_false]
    cases n with
    | zero =>
      have e : ((0 : Nat) : Int) + 1 - 1 = 0 := by simp
      rw [e, gap_potential_zero]
      simp
    | succ n =>
      have e : ((n + 1 : Nat) : Int) + 1 - 1 = (n : Int) + 1 := by push_cast; ring
      rw [e, gap_potential_pos]
      simp only [if_true]
      have : (n + 1 + 1) * pen.gap_extension = (n + 1) * pen.gap_extension + pen.gap_extension := by
        ring
      omega
  · subst h
    have e : -((n : Int) + 1) - 1 = -(((n + 1 : Nat) : Int) + 1) := by push_cast; ring
    rw [e, gap_potential_neg, gap_potential_neg]
    simp only [reduceCtorEq, if_false]
    have : (n + 1 + 1) * pen.gap_extension = (n + 1) * pen.gap_extension + pen.gap_extension := by
      ring
    omega

/-- Extending a deletion: one diagonal down, at gap-extend cost. -/
theorem gap_potential_extend_del (pen : affine_penalties_t) (d : Int) :
    gap_potential pen component_t.D d
      ≤ pen.gap_extension + gap_potential pen component_t.D (d - 1) := by
  rcases int_sign_cases d with h | ⟨n, h⟩ | ⟨n, h⟩
  · subst h
    rw [gap_potential_zero]; exact Nat.zero_le _
  · subst h
    rw [gap_potential_pos]
    simp only [if_true]
    cases n with
    | zero =>
      have e : ((0 : Nat) : Int) + 1 - 1 = 0 := by simp
      rw [e, gap_potential_zero]
      simp
    | succ n =>
      have e : ((n + 1 : Nat) : Int) + 1 - 1 = (n : Int) + 1 := by push_cast; ring
      rw [e, gap_potential_pos]
      simp only [if_true]
      have : (n + 1 + 1) * pen.gap_extension = (n + 1) * pen.gap_extension + pen.gap_extension := by
        ring
      omega
  · subst h
    have e : -((n : Int) + 1) - 1 = -(((n + 1 : Nat) : Int) + 1) := by push_cast; ring
    rw [e, gap_potential_neg, gap_potential_neg]
    simp only [reduceCtorEq, if_false]
    have : (n + 1 + 1) * pen.gap_extension = (n + 1) * pen.gap_extension + pen.gap_extension := by
      ring
    omega

/-- Closing a gap never lowers the potential. -/
theorem gap_potential_close (pen : affine_penalties_t) (X : component_t) (d : Int) :
    gap_potential pen X d ≤ gap_potential pen component_t.M d := by
  rcases int_sign_cases d with h | ⟨n, h⟩ | ⟨n, h⟩
  · subst h
    rw [gap_potential_zero, gap_potential_zero]
  · subst h
    rw [gap_potential_pos, gap_potential_pos]
    simp only [reduceCtorEq, if_false]
    split_ifs <;> omega
  · subst h
    rw [gap_potential_neg, gap_potential_neg]
    simp only [reduceCtorEq, if_false]
    split_ifs <;> omega

/-! ## Lemmas on sound cells -/

/-- From a cell on the last row or the last column of the table, the whole
alignment costs at most the cost of the cell plus the gap that leads to the
corner. -/
theorem boundary_potential (P : affine_problem_t) (X : component_t) (i j s : Nat)
    (hi : i ≤ P.pattern_length) (hj : j ≤ P.text_length)
    (hb : i = P.pattern_length ∨ j = P.text_length)
    (h : (P.table i j).get X ≤ (s : ℕ∞)) :
    P.cost ≤ ((s + gap_potential P.penalties X
      (((j : Int) - (i : Int)) - ((P.text_length : Int) - (P.pattern_length : Int))) : Nat) : ℕ∞) := by
  have hm : (P.table i j).m ≤ (s : ℕ∞) := le_trans (table_m_le_get P X i j) h
  by_cases hij : i = P.pattern_length ∧ j = P.text_length
  · obtain ⟨rfl, rfl⟩ := hij
    have e : ((P.text_length : Int) - (P.pattern_length : Int))
        - ((P.text_length : Int) - (P.pattern_length : Int)) = 0 := by ring
    rw [e, gap_potential_zero, Nat.add_zero]
    exact hm
  rcases hb with hb | hb
  · -- last row: insertions remain
    obtain ⟨n, hn⟩ : ∃ n : Nat, P.text_length = j + (n + 1) :=
      ⟨P.text_length - j - 1, by omega⟩
    have e : ((j : Int) - (i : Int)) - ((P.text_length : Int) - (P.pattern_length : Int))
        = -((n : Int) + 1) := by rw [hn, hb]; push_cast; ring
    rw [e, gap_potential_neg]
    unfold affine_problem_t.cost
    rw [← hb]
    refine le_trans (table_m_le_i P i P.text_length) ?_
    rw [hn]
    cases X with
    | M => simpa using table_i_open_many P i j n s h
    | I => simpa using table_i_extend_many P i j (n + 1) s h
    | D => simpa using table_i_open_many P i j n s hm
  · -- last column: deletions remain
    obtain ⟨n, hn⟩ : ∃ n : Nat, P.pattern_length = i + (n + 1) :=
      ⟨P.pattern_length - i - 1, by omega⟩
    have e : ((j : Int) - (i : Int)) - ((P.text_length : Int) - (P.pattern_length : Int))
        = (n : Int) + 1 := by rw [hn, hb]; push_cast; ring
    rw [e, gap_potential_pos]
    unfold affine_problem_t.cost
    rw [← hb]
    refine le_trans (table_m_le_d P P.pattern_length j) ?_
    rw [hn]
    cases X with
    | M => simpa using table_d_open_many P i j n s h
    | I => simpa using table_d_open_many P i j n s hm
    | D => simpa using table_d_extend_many P i j (n + 1) s h

/-- Inside the table a sound cell bounds the reference cost. -/
theorem cell_sound_inside {P : affine_problem_t} {X : component_t} {s : Nat} {v h : Int}
    (hs : cell_sound P X s v h) (hv : v ≤ P.pattern_length) (hh : h ≤ P.text_length) :
    (P.table v.toNat h.toNat).get X ≤ (s : ℕ∞) := by
  rcases hs.2.2 with h1 | h1
  · exact h1.2.2
  · rcases h1.1 with h2 | h2 <;> omega

/-- On the border of the table and beyond, a sound cell bounds the cost of the
whole alignment through its gap potential. -/
theorem cell_sound_outside {P : affine_problem_t} {X : component_t} {s : Nat} {v h : Int}
    (hs : cell_sound P X s v h) (hb : (P.pattern_length : Int) ≤ v ∨ (P.text_length : Int) ≤ h) :
    P.cost ≤ ((s + gap_potential P.penalties X
      ((h - v) - ((P.text_length : Int) - (P.pattern_length : Int))) : Nat) : ℕ∞) := by
  obtain ⟨hv0, hh0, hs'⟩ := hs
  rcases hs' with h1 | h1
  · obtain ⟨hv, hh, hc⟩ := h1
    have := boundary_potential P X v.toNat h.toNat s (by omega) (by omega)
      (by omega) hc
    have ev : ((v.toNat : Nat) : Int) = v := Int.toNat_of_nonneg hv0
    have eh : ((h.toNat : Nat) : Int) = h := Int.toNat_of_nonneg hh0
    rw [ev, eh] at this
    exact this
  · exact h1.2

/-- A cell is sound once it is sound inside the table and beyond it. -/
theorem cell_sound_intro {P : affine_problem_t} {X : component_t} {s : Nat} {v h : Int}
    (hv0 : 0 ≤ v) (hh0 : 0 ≤ h)
    (hin : v ≤ P.pattern_length → h ≤ P.text_length →
      (P.table v.toNat h.toNat).get X ≤ (s : ℕ∞))
    (hout : (P.pattern_length < v ∨ P.text_length < h) →
      P.cost ≤ ((s + gap_potential P.penalties X
        ((h - v) - ((P.text_length : Int) - (P.pattern_length : Int))) : Nat) : ℕ∞)) :
    cell_sound P X s v h := by
  refine ⟨hv0, hh0, ?_⟩
  by_cases hb : v ≤ P.pattern_length ∧ h ≤ P.text_length
  · exact Or.inl ⟨hb.1, hb.2, hin hb.1 hb.2⟩
  · have hb' : (P.pattern_length : Int) < v ∨ (P.text_length : Int) < h := by
      by_contra hc
      push_neg at hc
      exact hb ⟨hc.1, hc.2⟩
    exact Or.inr ⟨hb', hout hb'⟩

/-- The cost bound of a potential step. -/
theorem cost_le_step {P : affine_problem_t} {s a b c : Nat}
    (h : P.cost ≤ ((s + a : Nat) : ℕ∞)) (hab : a ≤ c + b) :
    P.cost ≤ ((s + c + b : Nat) : ℕ∞) :=
  le_trans h (ENat.coe_le_coe.mpr (by omega))

/-- Opening an insertion from a sound match cell. -/
theorem cell_sound_open_ins {P : affine_problem_t} {s : Nat} {v h : Int}
    (hs : cell_sound P component_t.M s v h) :
    cell_sound P component_t.I (s + (P.penalties.gap_opening + P.penalties.gap_extension))
      v (h + 1) := by
  refine cell_sound_intro hs.1 (by have := hs.2.1; omega) ?_ ?_
  · intro hv hh
    have h1 := cell_sound_inside hs hv (by omega)
    have e : (h + 1).toNat = h.toNat + 1 := by have := hs.2.1; omega
    rw [e]
    exact le_trans (table_i_open P _ _) (enat_add_le_coe h1)
  · intro hb
    have h1 := cell_sound_outside hs (by omega)
    have e : h + 1 - v - ((P.text_length : Int) - (P.pattern_length : Int))
        = h - v - ((P.text_length : Int) - (P.pattern_length : Int)) + 1 := by ring
    rw [e]
    exact cost_le_step h1 (gap_potential_open_ins _ _)

/-- Extending an insertion from a sound insertion cell. -/
theorem cell_sound_extend_ins {P : affine_problem_t} {s : Nat} {v h : Int}
    (hs : cell_sound P component_t.I s v h) :
    cell_sound P component_t.I (s + P.penalties.gap_extension) v (h + 1) := by
  refine cell_sound_intro hs.1 (by have := hs.2.1; omega) ?_ ?_
  · intro hv hh
    have h1 := cell_sound_inside hs hv (by omega)
    have e : (h + 1).toNat = h.toNat + 1 := by have := hs.2.1; omega
    rw [e]
    exact le_trans (table_i_extend P _ _) (enat_add_le_coe h1)
  · intro hb
    have h1 := cell_sound_outside hs (by omega)
    have e : h + 1 - v - ((P.text_length : Int) - (P.pattern_length : Int))
        = h - v - ((P.text_length : Int) - (P.pattern_length : Int)) + 1 := by ring
    rw [e]
    exact cost_le_step h1 (gap_potential_extend_ins _ _)

/-- Opening a deletion from a sound match cell. -/
theorem cell_sound_open_del {P : affine_problem_t} {s : Nat} {v h : Int}
    (hs : cell_sound P component_t.M s v h) :
    cell_sound P component_t.D (s + (P.penalties.gap_opening + P.penalties.gap_extension))
      (v + 1) h := by
  refine cell_sound_intro (by have := hs.1; omega) hs.2.1 ?_ ?_
  · intro hv hh
    have h1 := cell_sound_inside hs (by omega) hh
    have e : (v + 1).toNat = v.toNat + 1 := by have := hs.1; omega
    rw [e]
    exact le_trans (table_d_open P _ _) (enat_add_le_coe h1)
  · intro hb
    have h1 := cell_sound_outside hs (by omega)
    have e : h - (v + 1) - ((P.text_length : Int) - (P.pattern_length : Int))
        = h - v - ((P.text_length : Int) - (P.pattern_length : Int)) - 1 := by ring
    rw [e]
    exact cost_le_step h1 (gap_potential_open_del _ _)

/-- Extending a deletion from a sound deletion cell. -/
theorem cell_sound_extend_del {P : affine_problem_t} {s : Nat} {v h : Int}
    (hs : cell_sound P component_t.D s v h) :
    cell_sound P component_t.D (s + P.penalties.gap_extension) (v + 1) h := by
  refine cell_sound_intro (by have := hs.1; omega) hs.2.1 ?_ ?_
  · intro hv hh
    have h1 := cell_sound_inside hs (by omega) hh
    have e : (v + 1).toNat = v.toNat + 1 := by have := hs.1; omega
    rw [e]
    exact le_trans (table_d_extend P _ _) (enat_add_le_coe h1)
  · intro hb
    have h1 := cell_sound_outside hs (by omega)
    have e : h - (v + 1) - ((P.text_length : Int) - (P.pattern_length : Int))
        = h - v - ((P.text_length : Int) - (P.pattern_length : Int)) - 1 := by ring
    rw [e]
    exact cost_le_step h1 (gap_potential_extend_del _ _)

/-- A substitution step from a sound match cell. -/
theorem cell_sound_mismatch {P : affine_problem_t} {s : Nat} {v h : Int}
    (hs : cell_sound P component_t.M s v h) :
    cell_sound P component_t.M (s + P.penalties.mismatch) (v + 1) (h + 1) := by
  refine cell_sound_intro (by have := hs.1; omega) (by have := hs.2.1; omega) ?_ ?_
  · intro hv hh
    have h1 := cell_sound_inside hs (by omega) (by omega)
    have e : (v + 1).toNat = v.toNat + 1 := by have := hs.1; omega
    have e' : (h + 1).toNat = h.toNat + 1 := by have := hs.2.1; omega
    rw [e, e']
    exact le_trans (table_m_step P _ _) (enat_add_le_coe h1)
  · intro hb
    have h1 := cell_sound_outside hs (by omega)
    have e : h + 1 - (v + 1) - ((P.text_length : Int) - (P.pattern_length : Int))
        = h - v - ((P.text_length : Int) - (P.pattern_length : Int)) := by ring
    rw [e]
    exact le_trans h1 (ENat.coe_le_coe.mpr (by omega))

/-- Closing a gap: a sound gap cell is a sound match cell of the same score. -/
theorem cell_sound_close {P : affine_problem_t} {X : component_t} {s : Nat} {v h : Int}
    (hs : cell_sound P X s v h) : cell_sound P component_t.M s v h := by
  refine cell_sound_intro hs.1 hs.2.1 ?_ ?_
  · intro hv hh
    exact le_trans (table_m_le_get P X _ _) (cell_sound_inside hs hv hh)
  · intro hb
    have h1 := cell_sound_outside hs (by omega)
    exact le_trans h1 (ENat.coe_le_coe.mpr
      (Nat.add_le_add_left (gap_potential_close _ _ _) _))

/-- A match inside the table from a sound match cell. -/
theorem cell_sound_match {P : affine_problem_t} {s : Nat} {v h : Int}
    (hs : cell_sound P component_t.M s v h)
    (hv : v < P.pattern_length) (hh : h < P.text_length)
    (hsym : P.pattern v = P.text h) :
    cell_sound P component_t.M s (v + 1) (h + 1) := by
  have hv0 := hs.1
  have hh0 := hs.2.1
  refine ⟨by omega, by omega, Or.inl ⟨by omega, by omega, ?_⟩⟩
  have h1 := cell_sound_inside hs (by omega) (by omega)
  have e : (v + 1).toNat = v.toNat + 1 := by omega
  have e' : (h + 1).toNat = h.toNat + 1 := by omega
  rw [e, e']
  refine le_trans (table_m_match P _ _ ?_) h1
  rw [Int.toNat_of_nonneg hv0, Int.toNat_of_nonneg hh0]
  exact hsym

/-- A sound cell stays sound at a larger score. -/
theorem cell_sound_mono {P : affine_problem_t} {X : component_t} {s s' : Nat} {v h : Int}
    (hs : cell_sound P X s v h) (hle : s ≤ s') : cell_sound P X s' v h := by
  obtain ⟨hv0, hh0, h1⟩ := hs
  refine ⟨hv0, hh0, ?_⟩
  rcases h1 with h1 | h1
  · exact Or.inl ⟨h1.1, h1.2.1, le_trans h1.2.2 (ENat.coe_le_coe.mpr hle)⟩
  · exact Or.inr ⟨h1.1, le_trans h1.2 (ENat.coe_le_coe.mpr (by omega))⟩

/-! ## Soundness of the computed wavefronts -/

theorem wavefront_offset_at_none (k : Int) : wavefront_offset_at none k = -1 := rfl

/-- A reachable offset comes from a non-null wavefront whose range holds the diagonal. -/
theorem wavefront_offset_at_reachable {w : Option wavefront_t} {k : Int}
    (h : 0 ≤ wavefront_offset_at w k) :
    ∃ m, w = some m ∧ m.lo ≤ k ∧ k ≤ m.hi ∧ wavefront_offset_at w k = m.offsets k := by
  cases w with
  | none => simp [wavefront_offset_at, OFFSET_NULL] at h
  | some m =>
    by_cases hr : m.lo ≤ k ∧ k ≤ m.hi
    · exact ⟨m, rfl, hr.1, hr.2, by simp [wavefront_offset_at, hr]⟩
    · simp [wavefront_offset_at, hr, OFFSET_NULL] at h

theorem wavefront_offset_at_some (m : wavefront_t) (k : Int) (hlo : m.lo ≤ k) (hhi : k ≤ m.hi) :
    wavefront_offset_at (some m) k = m.offsets k := by
  simp [wavefront_offset_at, hlo, hhi]

/-- A reachable offset of a wavefront is the value of its offsets array. -/
theorem wavefront_offset_at_eq_of_nonneg {m : wavefront_t} {k : Int}
    (h : 0 ≤ wavefront_offset_at (some m) k) :
    wavefront_offset_at (some m) k = m.offsets k := by
  obtain ⟨m', hm, _, _, he⟩ := wavefront_offset_at_reachable h
  cases hm
  exact he

theorem offset_shift_nonneg {a : Int} (h : 0 ≤ offset_shift a) :
    0 ≤ a ∧ offset_shift a = a + 1 := by
  unfold offset_shift at h ⊢
  split_ifs at h ⊢ with h1
  · simp [OFFSET_NULL] at h
  · exact ⟨by omega, rfl⟩

theorem offset_shift_of_nonneg {a : Int} (h : 0 ≤ a) : offset_shift a = a + 1 := by
  unfold offset_shift
  rw [if_neg (by omega)]

/-- The wavefront built on an offsets function is sound when the function is. -/
theorem wavefront_sound_of_offsets {P : affine_problem_t} {X : component_t} {t : Int}
    {f : Int → Int}
    (hf : ∀ k, 0 ≤ f k → 0 ≤ t ∧ cell_sound P X t.toNat (f k - k) (f k))
    (lo hi : Int) (pc pv : Int → Nat) :
    wavefront_sound P X t
      (some { lo := lo, hi := hi, offsets := f, bt_pcigar := pc, bt_prev := pv }) := by
  intro k hk
  have e := wavefront_offset_at_eq_of_nonneg hk
  rw [e] at hk ⊢
  exact hf k hk

theorem wavefront_sound_none (P : affine_problem_t) (X : component_t) (t : Int) :
    wavefront_sound P X t none := by
  intro k hk
  simp [wavefront_offset_at, OFFSET_NULL] at hk

/-- The insertion offsets computed from sound wavefronts are sound. -/
theorem affine_ins_sound {P : affine_problem_t} {t : Int} {m_gap i_ext : Option wavefront_t}
    (hm : wavefront_sound P component_t.M
      (t - (P.penalties.gap_opening + P.penalties.gap_extension : Nat)) m_gap)
    (hi : wavefront_sound P component_t.I (t - (P.penalties.gap_extension : Nat)) i_ext)
    (k : Int) (hk : 0 ≤ affine_ins m_gap i_ext k) :
    0 ≤ t ∧ cell_sound P component_t.I t.toNat
      (affine_ins m_gap i_ext k - k) (affine_ins m_gap i_ext k) := by
  unfold affine_ins at hk ⊢
  obtain ⟨h0, he⟩ := offset_shift_nonneg hk
  rw [he]
  rcases max_choice (wavefront_offset_at m_gap (k - 1)) (wavefront_offset_at i_ext (k - 1))
    with hc | hc
  · rw [hc] at h0 ⊢
    obtain ⟨ht, hs⟩ := hm (k - 1) h0
    have h1 := cell_sound_open_ins hs
    have e1 : (t - ((P.penalties.gap_opening + P.penalties.gap_extension : Nat) : Int)).toNat
        + (P.penalties.gap_opening + P.penalties.gap_extension) = t.toNat := by omega
    have e2 : wavefront_offset_at m_gap (k - 1) - (k - 1)
        = wavefront_offset_at m_gap (k - 1) + 1 - k := by ring
    rw [e1, e2] at h1
    exact ⟨by omega, h1⟩
  · rw [hc] at h0 ⊢
    obtain ⟨ht, hs⟩ := hi (k - 1) h0
    have h1 := cell_sound_extend_ins hs
    have e1 : (t - (P.penalties.gap_extension : Int)).toNat + P.penalties.gap_extension
        = t.toNat := by omega
    have e2 : wavefront_offset_at i_ext (k - 1) - (k - 1)
        = wavefront_offset_at i_ext (k - 1) + 1 - k := by ring
    rw [e1, e2] at h1
    exact ⟨by omega, h1⟩

/-- The deletion offsets computed from sound wavefronts are sound. -/
theorem affine_del_sound {P : affine_problem_t} {t : Int} {m_gap d_ext : Option wavefront_t}
    (hm : wavefront_sound P component_t.M
      (t - (P.penalties.gap_opening + P.penalties.gap_extension : Nat)) m_gap)
    (hd : wavefront_sound P component_t.D (t - (P.penalties.gap_extension : Nat)) d_ext)
    (k : Int) (hk : 0 ≤ affine_del m_gap d_ext k) :
    0 ≤ t ∧ cell_sound P component_t.D t.toNat
      (affine_del m_gap d_ext k - k) (affine_del m_gap d_ext k) := by
  unfold affine_del at hk ⊢
  rcases max_choice (wavefront_offset_at m_gap (k + 1)) (wavefront_offset_at d_ext (k + 1))
    with hc | hc
  · rw [hc] at hk ⊢
    obtain ⟨ht, hs⟩ := hm (k + 1) hk
    have h1 := cell_sound_open_del hs
    have e1 : (t - ((P.penalties.gap_opening + P.penalties.gap_extension : Nat) : Int)).toNat
        + (P.penalties.gap_opening + P.penalties.gap_extension) = t.toNat := by omega
    have e2 : wavefront_offset_at m_gap (k + 1) - (k + 1) + 1
        = wavefront_offset_at m_gap (k + 1) - k := by ring
    rw [e1, e2] at h1
    exact ⟨by omega, h1⟩
  · rw [hc] at hk ⊢
    obtain ⟨ht, hs⟩ := hd (k + 1) hk
    have h1 := cell_sound_extend_del hs
    have e1 : (t - (P.penalties.gap_extension : Int)).toNat + P.penalties.gap_extension
        = t.toNat := by omega
    have e2 : wavefront_offset_at d_ext (k + 1) - (k + 1) + 1
        = wavefront_offset_at d_ext (k + 1) - k := by ring
    rw [e1, e2] at h1
    exact ⟨by omega, h1⟩

/-- The match offsets computed from sound wavefronts are sound. -/
theorem affine_mat_sound {P : affine_problem_t} {t : Int}
    {m_misms m_gap i_ext d_ext : Option wavefront_t}
    (hx : wavefront_sound P component_t.M (t - (P.penalties.mismatch : Nat)) m_misms)
    (hm : wavefront_sound P component_t.M
      (t - (P.penalties.gap_opening + P.penalties.gap_extension : Nat)) m_gap)
    (hi : wavefront_sound P component_t.I (t - (P.penalties.gap_extension : Nat)) i_ext)
    (hd : wavefront_sound P component_t.D (t - (P.penalties.gap_extension : Nat)) d_ext)
    (k : Int) (hk : 0 ≤ affine_mat m_misms m_gap i_ext d_ext k) :
    0 ≤ t ∧ cell_sound P component_t.M t.toNat
      (affine_mat m_misms m_gap i_ext d_ext k - k) (affine_mat m_misms m_gap i_ext d_ext k) := by
  unfold affine_mat at hk ⊢
  rcases max_choice (offset_shift (wavefront_offset_at m_misms k))
    (max (affine_ins m_gap i_ext k) (affine_del m_gap d_ext k)) with hc | hc
  · rw [hc] at hk ⊢
    obtain ⟨h0, he⟩ := offset_shift_nonneg hk
    rw [he]
    obtain ⟨ht, hs⟩ := hx k h0
    have h1 := cell_sound_mismatch hs
    have e1 : (t - (P.penalties.mismatch : Int)).toNat + P.penalties.mismatch = t.toNat := by
      omega
    have e2 : wavefront_offset_at m_misms k - k + 1 = wavefront_offset_at m_misms k + 1 - k := by
      ring
    rw [e1, e2] at h1
    exact ⟨by omega, h1⟩
  · rw [hc] at hk ⊢
    rcases max_choice (affine_ins m_gap i_ext k) (affine_del m_gap d_ext k) with hc' | hc'
    · rw [hc'] at hk ⊢
      obtain ⟨ht, hs⟩ := affine_ins_sound hm hi k hk
      exact ⟨ht, cell_sound_close hs⟩
    · rw [hc'] at hk ⊢
      obtain ⟨ht, hs⟩ := affine_del_sound hm hd k hk
      exact ⟨ht, cell_sound_close hs⟩

/-- The wavefront set computed from sound wavefronts is sound. -/
theorem compute_set_sound {P : affine_problem_t} {t : Int}
    {m_misms m_gap i_ext d_ext : Option wavefront_t}
    (hx : wavefront_sound P component_t.M (t - (P.penalties.mismatch : Nat)) m_misms)
    (hm : wavefront_sound P component_t.M
      (t - (P.penalties.gap_opening + P.penalties.gap_extension : Nat)) m_gap)
    (hi : wavefront_sound P component_t.I (t - (P.penalties.gap_extension : Nat)) i_ext)
    (hd : wavefront_sound P component_t.D (t - (P.penalties.gap_extension : Nat)) d_ext) :
    wavefront_sound P component_t.M t
      (wavefront_compute_affine_set m_misms m_gap i_ext d_ext).mwavefront ∧
    wavefront_sound P component_t.I t
      (wavefront_compute_affine_set m_misms m_gap i_ext d_ext).i1wavefront ∧
    wavefront_sound P component_t.D t
      (wavefront_compute_affine_set m_misms m_gap i_ext d_ext).d1wavefront := by
  unfold wavefront_compute_affine_set
  cases compute_range [m_misms, m_gap, i_ext, d_ext] with
  | none => exact ⟨wavefront_sound_none _ _ _, wavefront_sound_none _ _ _,
      wavefront_sound_none _ _ _⟩
  | some r =>
    obtain ⟨lo, hi'⟩ := r
    simp only []
    refine ⟨wavefront_sound_of_offsets (affine_mat_sound hx hm hi hd) _ _ _ _, ?_, ?_⟩
    · split_ifs
      · exact wavefront_sound_of_offsets (affine_ins_sound hm hi) _ _ _ _
      · exact wavefront_sound_none _ _ _
    · split_ifs
      · exact wavefront_sound_of_offsets (affine_del_sound hm hd) _ _ _ _
      · exact wavefront_sound_none _ _ _

/-! ## The diagonal range of the computed wavefronts -/

theorem foldl_min_lo_le (others : List wavefront_t) :
    ∀ acc : Int, others.foldl (fun acc w => min acc w.lo) acc ≤ acc ∧
      ∀ w ∈ others, others.foldl (fun acc w => min acc w.lo) acc ≤ w.lo := by
  induction others with
  | nil => intro acc; simp
  | cons a rest ih =>
    intro acc
    simp only [List.foldl_cons, List.mem_cons, forall_eq_or_imp]
    obtain ⟨h1, h2⟩ := ih (min acc a.lo)
    exact ⟨le_trans h1 (min_le_left _ _), le_trans h1 (min_le_right _ _), h2⟩

theorem foldl_max_hi_ge (others : List wavefront_t) :
    ∀ acc : Int, acc ≤ others.foldl (fun acc w => max acc w.hi) acc ∧
      ∀ w ∈ others, w.hi ≤ others.foldl (fun acc w => max acc w.hi) acc := by
  induction others with
  | nil => intro acc; simp
  | cons a rest ih =>
    intro acc
    simp only [List.foldl_cons, List.mem_cons, forall_eq_or_imp]
    obtain ⟨h1, h2⟩ := ih (max acc a.hi)
    exact ⟨le_trans (le_max_left _ _) h1, le_trans (le_max_right _ _) h1, h2⟩

/-- The computed range covers the range of every contributor with a margin of one. -/
theorem compute_range_covers {cs : List (Option wavefront_t)} {w : wavefront_t}
    (hw : some w ∈ cs) :
    ∃ lo hi, compute_range cs = some (lo, hi) ∧ lo ≤ w.lo - 1 ∧ w.hi + 1 ≤ hi := by
  have hmem : w ∈ cs.reduceOption := List.reduceOption_mem_iff.mpr hw
  unfold compute_range
  cases hr : cs.reduceOption with
  | nil => rw [hr] at hmem; simp at hmem
  | cons first others =>
    rw [hr] at hmem
    refine ⟨_, _, rfl, ?_, ?_⟩
    · unfold min_lo
      rcases List.mem_cons.mp hmem with h | h
      · subst h
        have := (foldl_min_lo_le others w.lo).1
        omega
      · have := (foldl_min_lo_le others first.lo).2 w h
        omega
    · unfold max_hi
      rcases List.mem_cons.mp hmem with h | h
      · subst h
        have := (foldl_max_hi_ge others w.hi).1
        omega
      · have := (foldl_max_hi_ge others first.hi).2 w h
        omega

/-- On a diagonal next to the range of a contributor, the computed match wavefront
holds the match offset of the recurrence. -/
theorem compute_set_m_offset {m_misms m_gap i_ext d_ext : Option wavefront_t}
    {w : wavefront_t} {k : Int}
    (hw : some w ∈ [m_misms, m_gap, i_ext, d_ext]) (hlo : w.lo - 1 ≤ k) (hhi : k ≤ w.hi + 1) :
    wavefront_offset_at (wavefront_compute_affine_set m_misms m_gap i_ext d_ext).mwavefront k
      = affine_mat m_misms m_gap i_ext d_ext k := by
  obtain ⟨lo, hi, hr, h1, h2⟩ := compute_range_covers hw
  unfold wavefront_compute_affine_set
  rw [hr]
  simp only []
  rw [wavefront_offset_at_some _ _ (by simp only []; omega) (by simp only []; omega)]

/-- On a diagonal next to the range of a contributor of the insertion wavefront,
the computed insertion wavefront holds the insertion offset of the recurrence. -/
theorem compute_set_ins_offset {m_misms m_gap i_ext d_ext : Option wavefront_t}
    {w : wavefront_t} {k : Int}
    (hw : some w ∈ [m_gap, i_ext]) (hlo : w.lo - 1 ≤ k) (hhi : k ≤ w.hi + 1) :
    wavefront_offset_at (wavefront_compute_affine_set m_misms m_gap i_ext d_ext).i1wavefront k
      = affine_ins m_gap i_ext k := by
  have hw' : some w ∈ [m_misms, m_gap, i_ext, d_ext] := by
    simp only [List.mem_cons, List.mem_singleton, List.not_mem_nil, or_false] at hw ⊢
    tauto
  obtain ⟨lo, hi, hr, h1, h2⟩ := compute_range_covers hw'
  have hg : (m_gap.isSome || i_ext.isSome) = true := by
    simp only [List.mem_cons, List.mem_singleton, List.not_mem_nil, or_false] at hw
    rcases hw with h | h <;> simp [← h]
  unfold wavefront_compute_affine_set
  rw [hr]
  simp only [hg, if_true]
  rw [wavefront_offset_at_some _ _ (by simp only []; omega) (by simp only []; omega)]

/-- On a diagonal next to the range of a contributor of the deletion wavefront,
the computed deletion wavefront holds the deletion offset of the recurrence. -/
theorem compute_set_del_offset {m_misms m_gap i_ext d_ext : Option wavefront_t}
    {w : wavefront_t} {k : Int}
    (hw : some w ∈ [m_gap, d_ext]) (hlo : w.lo - 1 ≤ k) (hhi : k ≤ w.hi + 1) :
    wavefront_offset_at (wavefront_compute_affine_set m_misms m_gap i_ext d_ext).d1wavefront k
      = affine_del m_gap d_ext k := by
  have hw' : some w ∈ [m_misms, m_gap, i_ext, d_ext] := by
    simp only [List.mem_cons, List.mem_singleton, List.not_mem_nil, or_false] at hw ⊢
    tauto
  obtain ⟨lo, hi, hr, h1, h2⟩ := compute_range_covers hw'
  have hg : (m_gap.isSome || d_ext.isSome) = true := by
    simp only [List.mem_cons, List.mem_singleton, List.not_mem_nil, or_false] at hw
    rcases hw with h | h <;> simp [← h]
  unfold wavefront_compute_affine_set
  rw [hr]
  simp only [hg, if_true]
  rw [wavefront_offset_at_some _ _ (by simp only []; omega) (by simp only []; omega)]

/-! ## Completeness of the computed wavefronts -/

/-- The source score of a step of cost `c` into score `t`. -/
theorem source_score {t : Int} {m c : Nat} (ht : 0 ≤ t) (h : m + c = t.toNat) :
    0 ≤ t - (c : Int) ∧ (t - (c : Int)).toNat = m := by
  omega

/-- The insertion offsets of the recurrence reach every cell whose insertion cost
is the score, and a gap contributor lies next to its diagonal. -/
theorem affine_ins_complete {P : affine_problem_t} {t : Int}
    {m_gap i_ext : Option wavefront_t}
    (cm : wavefront_complete P component_t.M
      (t - (P.penalties.gap_opening + P.penalties.gap_extension : Nat)) m_gap)
    (ci : wavefront_complete P component_t.I (t - (P.penalties.gap_extension : Nat)) i_ext)
    (i j : Nat) (hi : i ≤ P.pattern_length) (hj : j ≤ P.text_length)
    (hc : (P.table i j).i = ((t.toNat : Nat) : ℕ∞)) (ht : 0 ≤ t) :
    (j : Int) ≤ affine_ins m_gap i_ext ((j : Int) - (i : Int)) ∧
    ∃ w, some w ∈ [m_gap, i_ext] ∧
      w.lo - 1 ≤ (j : Int) - (i : Int) ∧ (j : Int) - (i : Int) ≤ w.hi + 1 := by
  cases j with
  | zero =>
    rw [table_i_zero] at hc
    exact absurd hc (ENat.top_ne_coe _)
  | succ j =>
    rw [table_i_succ] at hc
    have ek : ((j + 1 : Nat) : Int) - (i : Int) - 1 = (j : Int) - (i : Int) := by
      push_cast; ring
    unfold affine_ins
    rw [ek]
    rcases min_choice ((P.table i j).m +
        ((P.penalties.gap_opening + P.penalties.gap_extension : Nat) : ℕ∞))
      ((P.table i j).i + (P.penalties.gap_extension : ℕ∞)) with h | h
    · rw [h] at hc
      obtain ⟨m, hm, hs⟩ := enat_add_eq_coe hc
      obtain ⟨h0, h1⟩ := source_score ht hs
      have hle := cm i j hi (by omega) (by rw [h1]; exact hm) h0
      obtain ⟨w, hw, hlo, hhi, _⟩ := wavefront_offset_at_reachable (le_trans (by omega) hle)
      have hmax := le_max_left (wavefront_offset_at m_gap ((j : Int) - (i : Int)))
        (wavefront_offset_at i_ext ((j : Int) - (i : Int)))
      constructor
      · rw [offset_shift_of_nonneg (by omega)]
        push_cast
        omega
      · refine ⟨w, ?_, by push_cast; omega, by push_cast; omega⟩
        rw [hw]; simp
    · rw [h] at hc
      obtain ⟨m, hm, hs⟩ := enat_add_eq_coe hc
      obtain ⟨h0, h1⟩ := source_score ht hs
      have hle := ci i j hi (by omega) (by rw [h1]; exact hm) h0
      obtain ⟨w, hw, hlo, hhi, _⟩ := wavefront_offset_at_reachable (le_trans (by omega) hle)
      have hmax := le_max_right (wavefront_offset_at m_gap ((j : Int) - (i : Int)))
        (wavefront_offset_at i_ext ((j : Int) - (i : Int)))
      constructor
      · rw [offset_shift_of_nonneg (by omega)]
        push_cast
        omega
      · refine ⟨w, ?_, by push_cast; omega, by push_cast; omega⟩
        rw [hw]; simp

/-- The deletion offsets of the recurrence reach every cell whose deletion cost is
the score, and a gap contributor lies next to its diagonal. -/
theorem affine_del_complete {P : affine_problem_t} {t : Int}
    {m_gap d_ext : Option wavefront_t}
    (cm : wavefront_complete P component_t.M
      (t - (P.penalties.gap_opening + P.penalties.gap_extension : Nat)) m_gap)
    (cd : wavefront_complete P component_t.D (t - (P.penalties.gap_extension : Nat)) d_ext)
    (i j : Nat) (hi : i ≤ P.pattern_length) (hj : j ≤ P.text_length)
    (hc : (P.table i j).d = ((t.toNat : Nat) : ℕ∞)) (ht : 0 ≤ t) :
    (j : Int) ≤ affine_del m_gap d_ext ((j : Int) - (i : Int)) ∧
    ∃ w, some w ∈ [m_gap, d_ext] ∧
      w.lo - 1 ≤ (j : Int) - (i : Int) ∧ (j : Int) - (i : Int) ≤ w.hi + 1 := by
  cases i with
  | zero =>
    rw [table_d_zero] at hc
    exact absurd hc (ENat.top_ne_coe _)
  | succ i =>
    rw [table_d_succ] at hc
    have ek : (j : Int) - ((i + 1 : Nat) : Int) + 1 = (j : Int) - (i : Int) := by
      push_cast; ring
    unfold affine_del
    rw [ek]
    rcases min_choice ((P.table i j).m +
        ((P.penalties.gap_opening + P.penalties.gap_extension : Nat) : ℕ∞))
      ((P.table i j).d + (P.penalties.gap_extension : ℕ∞)) with h | h
    · rw [h] at hc
      obtain ⟨m, hm, hs⟩ := enat_add_eq_coe hc
      obtain ⟨h0, h1⟩ := source_score ht hs
      have hle := cm i j (by omega) hj (by rw [h1]; exact hm) h0
      obtain ⟨w, hw, hlo, hhi, _⟩ := wavefront_offset_at_reachable (le_trans (by omega) hle)
      have hmax := le_max_left (wavefront_offset_at m_gap ((j : Int) - (i : Int)))
        (wavefront_offset_at d_ext ((j : Int) - (i : Int)))
      constructor
      · omega
      · refine ⟨w, ?_, by push_cast; omega, by push_cast; omega⟩
        rw [hw]; simp
    · rw [h] at hc
      obtain ⟨m, hm, hs⟩ := enat_add_eq_coe hc
      obtain ⟨h0, h1⟩ := source_score ht hs
      have hle := cd i j (by omega) hj (by rw [h1]; exact hm) h0
      obtain ⟨w, hw, hlo, hhi, _⟩ := wavefront_offset_at_reachable (le_trans (by omega) hle)
      have hmax := le_max_right (wavefront_offset_at m_gap ((j : Int) - (i : Int)))
        (wavefront_offset_at d_ext ((j : Int) - (i : Int)))
      constructor
      · omega
      · refine ⟨w, ?_, by push_cast; omega, by push_cast; omega⟩
        rw [hw]; simp

theorem mem_ins_contributors {m_misms m_gap i_ext d_ext : Option wavefront_t} {w : wavefront_t}
    (h : some w ∈ [m_gap, i_ext]) : some w ∈ [m_misms, m_gap, i_ext, d_ext] := by
  simp only [List.mem_cons, List.mem_singleton, List.not_mem_nil, or_false] at h ⊢
  tauto

theorem mem_del_contributors {m_misms m_gap i_ext d_ext : Option wavefront_t} {w : wavefront_t}
    (h : some w ∈ [m_gap, d_ext]) : some w ∈ [m_misms, m_gap, i_ext, d_ext] := by
  simp only [List.mem_cons, List.mem_singleton, List.not_mem_nil, or_false] at h ⊢
  tauto

/-- The match offsets of the recurrence reach every cell whose cost is the score
and that is not a match continuing a cell of that score; a contributor lies next
to its diagonal. -/
theorem affine_mat_complete_pre {P : affine_problem_t} {t : Int}
    {m_misms m_gap i_ext d_ext : Option wavefront_t}
    (cx : wavefront_complete P component_t.M (t - (P.penalties.mismatch : Nat)) m_misms)
    (cm : wavefront_complete P component_t.M
      (t - (P.penalties.gap_opening + P.penalties.gap_extension : Nat)) m_gap)
    (ci : wavefront_complete P component_t.I (t - (P.penalties.gap_extension : Nat)) i_ext)
    (cd : wavefront_complete P component_t.D (t - (P.penalties.gap_extension : Nat)) d_ext)
    (ht : 0 < t)
    (i j : Nat) (hi : i ≤ P.pattern_length) (hj : j ≤ P.text_length)
    (hc : (P.table i j).m = ((t.toNat : Nat) : ℕ∞))
    (hnm : ∀ i' j' : Nat, i = i' + 1 → j = j' + 1 → P.pattern i' = P.text j' →
      (P.table i' j').m ≠ ((t.toNat : Nat) : ℕ∞)) :
    (j : Int) ≤ affine_mat m_misms m_gap i_ext d_ext ((j : Int) - (i : Int)) ∧
    ∃ w, some w ∈ [m_misms, m_gap, i_ext, d_ext] ∧
      w.lo - 1 ≤ (j : Int) - (i : Int) ∧ (j : Int) - (i : Int) ≤ w.hi + 1 := by
  have hins : ∀ k, affine_ins m_gap i_ext k ≤ affine_mat m_misms m_gap i_ext d_ext k :=
    fun k => le_trans (le_max_left _ _) (le_max_right _ _)
  have hdel : ∀ k, affine_del m_gap d_ext k ≤ affine_mat m_misms m_gap i_ext d_ext k :=
    fun k => le_trans (le_max_right _ _) (le_max_right _ _)
  have via_i : (P.table i j).i = ((t.toNat : Nat) : ℕ∞) →
      (j : Int) ≤ affine_mat m_misms m_gap i_ext d_ext ((j : Int) - (i : Int)) ∧
      ∃ w, some w ∈ [m_misms, m_gap, i_ext, d_ext] ∧
        w.lo - 1 ≤ (j : Int) - (i : Int) ∧ (j : Int) - (i : Int) ≤ w.hi + 1 := by
    intro h
    obtain ⟨h1, w, hw, hlo, hhi⟩ :=
      affine_ins_complete cm ci i j hi hj h (le_of_lt ht)
    exact ⟨le_trans h1 (hins _), w, mem_ins_contributors hw, hlo, hhi⟩
  have via_d : (P.table i j).d = ((t.toNat : Nat) : ℕ∞) →
      (j : Int) ≤ affine_mat m_misms m_gap i_ext d_ext ((j : Int) - (i : Int)) ∧
      ∃ w, some w ∈ [m_misms, m_gap, i_ext, d_ext] ∧
        w.lo - 1 ≤ (j : Int) - (i : Int) ∧ (j : Int) - (i : Int) ≤ w.hi + 1 := by
    intro h
    obtain ⟨h1, w, hw, hlo, hhi⟩ :=
      affine_del_complete cm cd i j hi hj h (le_of_lt ht)
    exact ⟨le_trans h1 (hdel _), w, mem_del_contributors hw, hlo, hhi⟩
  cases i with
  | zero =>
    cases j with
    | zero =>
      rw [table_m_zero_zero] at hc
      have : (0 : Nat) = t.toNat := ENat.coe_inj.mp (by simpa using hc)
      omega
    | succ j =>
      rw [table_m_zero_succ] at hc
      exact via_i hc
  | succ i =>
    cases j with
    | zero =>
      rw [table_m_succ_zero] at hc
      exact via_d hc
    | succ j =>
      have hc' := hc
      rw [table_m_succ_succ] at hc'
      rcases min_choice ((P.table i j).m +
          ((if P.pattern i = P.text j then 0 else P.penalties.mismatch : Nat) : ℕ∞))
        (min (P.table (i + 1) (j + 1)).i (P.table (i + 1) (j + 1)).d) with h | h
      · rw [h] at hc'
        by_cases hsym : P.pattern i = P.text j
        · rw [if_pos hsym] at hc'
          exact absurd (by simpa using hc') (hnm i j rfl rfl hsym)
        · rw [if_neg hsym] at hc'
          obtain ⟨m, hm, hs⟩ := enat_add_eq_coe hc'
          obtain ⟨h0, h1⟩ := source_score (le_of_lt ht) hs
          have hle := cx i j (by omega) (by omega) (by rw [h1]; exact hm) h0
          have ek : ((j + 1 : Nat) : Int) - ((i + 1 : Nat) : Int) = (j : Int) - (i : Int) := by
            push_cast; ring
          rw [ek]
          obtain ⟨w, hw, hlo, hhi, _⟩ := wavefront_offset_at_reachable (le_trans (by omega) hle)
          constructor
          · unfold affine_mat
            refine le_trans ?_ (le_max_left _ _)
            rw [offset_shift_of_nonneg (by omega)]
            push_cast
            omega
          · refine ⟨w, ?_, by omega, by omega⟩
            rw [hw]; simp
      · rw [h] at hc'
        rcases min_choice (P.table (i + 1) (j + 1)).i (P.table (i + 1) (j + 1)).d with h' | h'
        · rw [h'] at hc'
          exact via_i hc'
        · rw [h'] at hc'
          exact via_d hc'

/-- The wavefront set computed from complete wavefronts is complete, the match
wavefront up to the matches its extension will add. -/
theorem compute_set_complete {P : affine_problem_t} {t : Int}
    {m_misms m_gap i_ext d_ext : Option wavefront_t}
    (cx : wavefront_complete P component_t.M (t - (P.penalties.mismatch : Nat)) m_misms)
    (cm : wavefront_complete P component_t.M
      (t - (P.penalties.gap_opening + P.penalties.gap_extension : Nat)) m_gap)
    (ci : wavefront_complete P component_t.I (t - (P.penalties.gap_extension : Nat)) i_ext)
    (cd : wavefront_complete P component_t.D (t - (P.penalties.gap_extension : Nat)) d_ext)
    (ht : 0 < t) :
    wavefront_complete_pre P t
      (wavefront_compute_affine_set m_misms m_gap i_ext d_ext).mwavefront ∧
    wavefront_complete P component_t.I t
      (wavefront_compute_affine_set m_misms m_gap i_ext d_ext).i1wavefront ∧
    wavefront_complete P component_t.D t
      (wavefront_compute_affine_set m_misms m_gap i_ext d_ext).d1wavefront := by
  refine ⟨?_, ?_, ?_⟩
  · intro i j hi hj hc _ hnm
    obtain ⟨h1, w, hw, hlo, hhi⟩ := affine_mat_complete_pre cx cm ci cd ht i j hi hj hc hnm
    rw [compute_set_m_offset hw hlo hhi]
    exact h1
  · intro i j hi hj hc ht'
    obtain ⟨h1, w, hw, hlo, hhi⟩ :=
      affine_ins_complete cm ci i j hi hj hc ht'
    rw [compute_set_ins_offset hw hlo hhi]
    exact h1
  · intro i j hi hj hc ht'
    obtain ⟨h1, w, hw, hlo, hhi⟩ :=
      affine_del_complete cm cd i j hi hj hc ht'
    rw [compute_set_del_offset hw hlo hhi]
    exact h1

/-! ## Soundness and completeness of the extended match wavefront -/

/-- An unreachable offset is not extended. -/
theorem extend_offset_neg (pattern : Int → Char) (pl : Int) (text : Int → Char) (tl : Int)
    (k : Int) (fuel : Nat) (offset : Int) (h : offset < 0) :
    extend_offset pattern pl text tl k fuel offset = offset := by
  cases fuel with
  | zero => rfl
  | succ fuel =>
    rw [extend_offset, if_neg]
    intro hc
    omega

/-- With fuel for the rest of the text, the extension stops where no further
symbol matches. -/
theorem extend_offset_maximal (pattern : Int → Char) (pl : Int) (text : Int → Char) (tl : Int)
    (k : Int) : ∀ (fuel : Nat) (offset : Int), (tl - offset).toNat ≤ fuel →
      ¬ (0 ≤ extend_offset pattern pl text tl k fuel offset - k ∧
          extend_offset pattern pl text tl k fuel offset - k < pl ∧
          0 ≤ extend_offset pattern pl text tl k fuel offset ∧
          extend_offset pattern pl text tl k fuel offset < tl ∧
          pattern (extend_offset pattern pl text tl k fuel offset - k)
            = text (extend_offset pattern pl text tl k fuel offset)) := by
  intro fuel
  induction fuel with
  | zero =>
    intro offset hf hc
    simp only [extend_offset] at hc
    omega
  | succ fuel ih =>
    intro offset hf
    rw [extend_offset]
    split_ifs with hcond
    · exact ih (offset + 1) (by omega)
    · exact hcond

/-- The extension of a sound match cell is a sound match cell. -/
theorem extend_offset_sound {P : affine_problem_t} {s : Nat} (k : Int) :
    ∀ (fuel : Nat) (offset : Int), cell_sound P component_t.M s (offset - k) offset →
      cell_sound P component_t.M s
        (extend_offset P.pattern P.pattern_length P.text P.text_length k fuel offset - k)
        (extend_offset P.pattern P.pattern_length P.text P.text_length k fuel offset) := by
  intro fuel
  induction fuel with
  | zero => intro offset hs; exact hs
  | succ fuel ih =>
    intro offset hs
    rw [extend_offset]
    split_ifs with hcond
    · apply ih
      have h1 := cell_sound_match hs hcond.2.1 hcond.2.2.2.1 hcond.2.2.2.2
      have e : offset - k + 1 = offset + 1 - k := by ring
      rw [e] at h1
      exact h1
    · exact hs

/-- The offset of an extended wavefront on a reachable diagonal. -/
theorem wavefront_offset_at_extend (pattern : Int → Char) (pl : Int) (text : Int → Char)
    (tl : Int) (w : Option wavefront_t) (k : Int) (h : 0 ≤ wavefront_offset_at w k) :
    wavefront_offset_at (w.map (wavefront_extend_wavefront pattern pl text tl)) k
      = extend_offset pattern pl text tl k (tl - wavefront_offset_at w k).toNat
          (wavefront_offset_at w k) := by
  obtain ⟨m, hm, hlo, hhi, he⟩ := wavefront_offset_at_reachable h
  subst hm
  rw [he]
  simp [wavefront_offset_at, wavefront_extend_wavefront, hlo, hhi]

/-- A diagonal reachable after the extension was reachable before. -/
theorem wavefront_offset_at_extend_nonneg (pattern : Int → Char) (pl : Int)
    (text : Int → Char) (tl : Int) (w : Option wavefront_t) (k : Int)
    (h : 0 ≤ wavefront_offset_at (w.map (wavefront_extend_wavefront pattern pl text tl)) k) :
    0 ≤ wavefront_offset_at w k := by
  cases w with
  | none => exact h
  | some m =>
    by_cases hr : m.lo ≤ k ∧ k ≤ m.hi
    · simp only [Option.map_some', wavefront_offset_at, wavefront_extend_wavefront, hr,
        and_self, if_true] at h ⊢
      by_contra hneg
      rw [extend_offset_neg _ _ _ _ _ _ _ (by omega)] at h
      exact hneg h
    · simp [wavefront_offset_at, wavefront_extend_wavefront, hr, OFFSET_NULL] at h

/-- The extension keeps a match wavefront sound. -/
theorem extend_sound {P : affine_problem_t} {t : Int} {w : Option wavefront_t}
    (hs : wavefront_sound P component_t.M t w) :
    wavefront_sound P component_t.M t
      (w.map (wavefront_extend_wavefront P.pattern P.pattern_length P.text P.text_length)) := by
  intro k hk
  have h0 := wavefront_offset_at_extend_nonneg _ _ _ _ w k hk
  obtain ⟨ht, hc⟩ := hs k h0
  rw [wavefront_offset_at_extend _ _ _ _ w k h0]
  exact ⟨ht, extend_offset_sound k _ _ hc⟩

/-- The extension completes a match wavefront: after it the wavefront has reached
every cell whose cost is the score. -/
theorem extend_complete {P : affine_problem_t} {t : Int} {w : Option wavefront_t}
    (hp : wavefront_complete_pre P t w) :
    wavefront_complete P component_t.M t
      (w.map (wavefront_extend_wavefront P.pattern P.pattern_length P.text P.text_length)) := by
  intro i
  induction i with
  | zero =>
    intro j hi hj hc ht
    have h1 := hp 0 j hi hj hc ht (by intro i' j' h; omega)
    have h0 : 0 ≤ wavefront_offset_at w ((j : Int) - ((0 : Nat) : Int)) := le_trans (by omega) h1
    rw [wavefront_offset_at_extend _ _ _ _ w _ h0]
    exact le_trans h1 (extend_offset_ge _ _ _ _ _ _ _)
  | succ i ih =>
    intro j hi hj hc ht
    by_cases hvia : ∃ j' : Nat, j = j' + 1 ∧ P.pattern i = P.text j' ∧
        (P.table i j').m = ((t.toNat : Nat) : ℕ∞)
    · obtain ⟨j', rfl, hsym, hc'⟩ := hvia
      have h1 := ih j' (by omega) (by omega) hc' ht
      have ek : ((j' + 1 : Nat) : Int) - ((i + 1 : Nat) : Int) = (j' : Int) - (i : Int) := by
        push_cast; ring
      rw [ek]
      by_contra hlt
      have hr : wavefront_offset_at (w.map (wavefront_extend_wavefront P.pattern
          P.pattern_length P.text P.text_length)) ((j' : Int) - (i : Int)) = j' := by
        push_cast at hlt
        omega
      have h0 := wavefront_offset_at_extend_nonneg _ _ _ _ w _ (by rw [hr]; omega)
      rw [wavefront_offset_at_extend _ _ _ _ w _ h0] at hr
      have hmax := extend_offset_maximal P.pattern P.pattern_length P.text P.text_length
        ((j' : Int) - (i : Int))
        ((P.text_length : Int) - wavefront_offset_at w ((j' : Int) - (i : Int))).toNat
        (wavefront_offset_at w ((j' : Int) - (i : Int))) (le_refl _)
      rw [hr] at hmax
      apply hmax
      have e : (j' : Int) - ((j' : Int) - (i : Int)) = i := by ring
      rw [e]
      exact ⟨by omega, by omega, by omega, by omega, hsym⟩
    · have h1 := hp (i + 1) j hi hj hc ht (by
        intro i' j' hi' hj' hsym hc'
        have : i' = i := by omega
        subst this
        exact hvia ⟨j', hj', hsym, hc'⟩)
      have h0 : 0 ≤ wavefront_offset_at w ((j : Int) - ((i + 1 : Nat) : Int)) :=
        le_trans (by omega) h1
      rw [wavefront_offset_at_extend _ _ _ _ w _ h0]
      exact le_trans h1 (extend_offset_ge _ _ _ _ _ _ _)

/-! ## The history of wavefronts along the loop -/

/-- Two live scores never share a slot. -/
theorem score_slot_ne {σ β : Type} (a : wavefront_aligner_t σ β) (t1 t2 : Nat)
    (hne : t1 ≠ t2)
    (hclose : a.memory_modular = true →
      (t1 : Int) < (t2 : Int) + a.max_score_scope ∧ (t2 : Int) < (t1 : Int) + a.max_score_scope) :
    score_slot a t1 ≠ score_slot a t2 := by
  unfold score_slot
  cases hm : a.memory_modular with
  | false =>
    simp only [Bool.false_eq_true, if_false]
    exact_mod_cast hne
  | true =>
    simp only [if_true]
    obtain ⟨h1, h2⟩ := hclose hm
    have hW : 0 < a.max_score_scope := by omega
    rw [Int.tmod_eq_emod (by omega) (le_of_lt hW), Int.tmod_eq_emod (by omega) (le_of_lt hW)]
    intro heq
    have hdvd : a.max_score_scope ∣ (t1 : Int) - (t2 : Int) :=
      Int.dvd_of_emod_eq_zero (Int.emod_eq_emod_iff_emod_sub_eq_zero.mp heq)
    have habs : |(t1 : Int) - (t2 : Int)| < a.max_score_scope := by
      rw [abs_lt]; constructor <;> omega
    have := Int.eq_zero_of_abs_lt_dvd hdvd habs
    omega

/-- The slot of a score only depends on the retention policy and the scope. -/
theorem score_slot_congr {σ β : Type} {a b : wavefront_aligner_t σ β}
    (h1 : a.memory_modular = b.memory_modular) (h2 : a.max_score_scope = b.max_score_scope)
    (t : Int) : score_slot a t = score_slot b t := by
  unfold score_slot
  rw [h1, h2]

/-- The extend operator of the contract maps the match wavefront of the slot. -/
theorem extend_spec_mwavefronts {σ β : Type} (a : wavefront_aligner_t σ β)
    (pattern : Int → Char) (pl : Int) (text : Int → Char) (tl : Int) (score : Int) :
    (wavefront_extend_spec a pattern pl text tl score).mwavefronts
      = Function.update a.mwavefronts (score_slot a score)
          ((a.mwavefronts (score_slot a score)).map
            (wavefront_extend_wavefront pattern pl text tl)) := by
  unfold wavefront_extend_spec
  cases h : a.mwavefronts (score_slot a score) with
  | none =>
    simp only [Option.map_none']
    rw [← h, Function.update_eq_self]
  | some m => rfl

theorem extend_spec_gaps {σ β : Type} (a : wavefront_aligner_t σ β)
    (pattern : Int → Char) (pl : Int) (text : Int → Char) (tl : Int) (score : Int) :
    (wavefront_extend_spec a pattern pl text tl score).i1wavefronts = a.i1wavefronts ∧
    (wavefront_extend_spec a pattern pl text tl score).d1wavefronts = a.d1wavefronts ∧
    (wavefront_extend_spec a pattern pl text tl score).distance_metric = a.distance_metric := by
  unfold wavefront_extend_spec
  cases a.mwavefronts (score_slot a score) <;> exact ⟨rfl, rfl, rfl⟩

/-- The set of another live score is untouched by the extend. -/
theorem extend_spec_retained_set_ne {σ β : Type} (a : wavefront_aligner_t σ β)
    (pattern : Int → Char) (pl : Int) (text : Int → Char) (tl : Int) (s t : Int)
    (hne : score_slot a t ≠ score_slot a s) :
    retained_set (wavefront_extend_spec a pattern pl text tl s) t = retained_set a t := by
  have hc := extend_spec_config a pattern pl text tl s
  have hslot := score_slot_congr hc.2.1 hc.2.2.1 t
  unfold retained_set
  rw [hslot, extend_spec_mwavefronts, (extend_spec_gaps a pattern pl text tl s).1,
    (extend_spec_gaps a pattern pl text tl s).2.1, Function.update_noteq hne]

/-- The set of the extended score: its match wavefront is extended. -/
theorem extend_spec_retained_set_eq {σ β : Type} (a : wavefront_aligner_t σ β)
    (pattern : Int → Char) (pl : Int) (text : Int → Char) (tl : Int) (s : Int) :
    retained_set (wavefront_extend_spec a pattern pl text tl s) s
      = { mwavefront := (retained_set a s).mwavefront.map
            (wavefront_extend_wavefront pattern pl text tl)
          i1wavefront := (retained_set a s).i1wavefront
          d1wavefront := (retained_set a s).d1wavefront } := by
  have hc := extend_spec_config a pattern pl text tl s
  have hslot := score_slot_congr hc.2.1 hc.2.2.1 s
  unfold retained_set
  rw [hslot, extend_spec_mwavefronts, (extend_spec_gaps a pattern pl text tl s).1,
    (extend_spec_gaps a pattern pl text tl s).2.1, Function.update_same]

theorem retained_congr {σ β : Type} {a b : wavefront_aligner_t σ β}
    (h1 : a.memory_modular = b.memory_modular) (h2 : a.max_score_scope = b.max_score_scope)
    (s t : Nat) : retained a s t ↔ retained b s t := by
  unfold retained
  rw [h1, h2]

/-- The extend of score `s` turns a computed history into an extended one. -/
theorem history_extended_of_computed {σ β : Type} (P : affine_problem_t)
    (a : wavefront_aligner_t σ β) (s : Nat) (h : history_computed P a s) :
    history_extended P
      (wavefront_extend_spec a P.pattern P.pattern_length P.text P.text_length s) s := by
  have hc := extend_spec_config a P.pattern P.pattern_length P.text P.text_length s
  intro t ht
  rw [retained_congr hc.2.1 hc.2.2.1] at ht
  by_cases hts : t = s
  · subst hts
    rw [extend_spec_retained_set_eq]
    obtain ⟨_, hsound, hpre⟩ := h
    exact ⟨⟨extend_sound hsound.1, hsound.2.1, hsound.2.2⟩,
      ⟨extend_complete hpre.1, hpre.2.1, hpre.2.2⟩⟩
  · have hlt : t < s := lt_of_le_of_ne ht.1 hts
    rw [extend_spec_retained_set_ne]
    · exact h.1 t hlt ht
    · apply score_slot_ne a t s hts
      intro hm
      have := ht.2 hm
      constructor <;> omega

theorem compute_spec_config {σ β : Type} (pen : affine_penalties_t)
    (a : wavefront_aligner_t σ β) (pattern : Int → Char) (pl : Int) (text : Int → Char)
    (tl : Int) (score : Int) :
    (wavefront_compute_affine_spec pen a pattern pl text tl score).alignment_scope
      = a.alignment_scope ∧
    (wavefront_compute_affine_spec pen a pattern pl text tl score).memory_modular
      = a.memory_modular ∧
    (wavefront_compute_affine_spec pen a pattern pl text tl score).max_score_scope
      = a.max_score_scope ∧
    (wavefront_compute_affine_spec pen a pattern pl text tl score).bt_piggyback
      = a.bt_piggyback ∧
    (wavefront_compute_affine_spec pen a pattern pl text tl score).cigar = a.cigar ∧
    (wavefront_compute_affine_spec pen a pattern pl text tl score).distance_metric
      = a.distance_metric :=
  ⟨rfl, rfl, rfl, rfl, rfl, rfl⟩

/-- The set of another live score is untouched by the compute. -/
theorem compute_spec_retained_set_ne {σ β : Type} (pen : affine_penalties_t)
    (a : wavefront_aligner_t σ β) (pattern : Int → Char) (pl : Int) (text : Int → Char)
    (tl : Int) (s t : Int) (hne : score_slot a t ≠ score_slot a s) :
    retained_set (wavefront_compute_affine_spec pen a pattern pl text tl s) t
      = retained_set a t := by
  have hslot : score_slot (wavefront_compute_affine_spec pen a pattern pl text tl s) t
      = score_slot a t := score_slot_congr rfl rfl t
  unfold retained_set
  rw [hslot]
  simp only [wavefront_compute_affine_spec, Function.update_noteq hne]

/-- The set of the computed score is the set of the recurrence. -/
theorem compute_spec_retained_set_eq {σ β : Type} (pen : affine_penalties_t)
    (a : wavefront_aligner_t σ β) (pattern : Int → Char) (pl : Int) (text : Int → Char)
    (tl : Int) (s : Int) :
    retained_set (wavefront_compute_affine_spec pen a pattern pl text tl s) s
      = wavefront_compute_affine_set
          (history_at a a.mwavefronts (s - (pen.mismatch : Nat)))
          (history_at a a.mwavefronts (s - (pen.gap_opening + pen.gap_extension : Nat)))
          (history_at a a.i1wavefronts (s - (pen.gap_extension : Nat)))
          (history_at a a.d1wavefronts (s - (pen.gap_extension : Nat))) := by
  have hslot : score_slot (wavefront_compute_affine_spec pen a pattern pl text tl s) s
      = score_slot a s := score_slot_congr rfl rfl s
  unfold retained_set
  rw [hslot]
  simp only [wavefront_compute_affine_spec, Function.update_same, Nat.cast_add]

/-- The wavefronts a compute reads are sound and complete: they belong to a live
score, or to a negative score and are null. -/
theorem history_at_extended {σ β : Type} (P : affine_problem_t)
    (a : wavefront_aligner_t σ β) (s : Nat) (h : history_extended P a s)
    (hW : scope_covers P.penalties a) (c : Nat) (hc0 : 0 < c)
    (hc : c ≤ max P.penalties.mismatch (P.penalties.gap_opening + P.penalties.gap_extension)) :
    set_sound P ((s : Int) + 1 - (c : Int))
      { mwavefront := history_at a a.mwavefronts ((s : Int) + 1 - (c : Int))
        i1wavefront := history_at a a.i1wavefronts ((s : Int) + 1 - (c : Int))
        d1wavefront := history_at a a.d1wavefronts ((s : Int) + 1 - (c : Int)) } ∧
    set_complete P ((s : Int) + 1 - (c : Int))
      { mwavefront := history_at a a.mwavefronts ((s : Int) + 1 - (c : Int))
        i1wavefront := history_at a a.i1wavefronts ((s : Int) + 1 - (c : Int))
        d1wavefront := history_at a a.d1wavefronts ((s : Int) + 1 - (c : Int)) } := by
  by_cases hneg : (s : Int) + 1 - (c : Int) < 0
  · simp only [history_at, if_pos hneg]
    refine ⟨⟨wavefront_sound_none _ _ _, wavefront_sound_none _ _ _, wavefront_sound_none _ _ _⟩,
      ⟨?_, ?_, ?_⟩⟩ <;>
    · intro i j _ _ _ h0
      omega
  · obtain ⟨n, hn⟩ : ∃ n : Nat, (s : Int) + 1 - (c : Int) = (n : Int) :=
      ⟨((s : Int) + 1 - (c : Int)).toNat, by omega⟩
    have hret : retained a s n := by
      refine ⟨by omega, ?_⟩
      intro hm
      have := hW hm
      have hc' : (c : Int) ≤ ((max P.penalties.mismatch
          (P.penalties.gap_opening + P.penalties.gap_extension) : Nat) : Int) := by
        exact_mod_cast hc
      omega
    simp only [history_at, if_neg hneg]
    rw [hn]
    exact h n hret

/-- The compute of score `s + 1` turns an extended history into a computed one. -/
theorem history_computed_succ {σ β : Type} (P : affine_problem_t)
    (a : wavefront_aligner_t σ β) (s : Nat) (h : history_extended P a s)
    (hW : scope_covers P.penalties a)
    (hx : 0 < P.penalties.mismatch) (he : 0 < P.penalties.gap_extension)
    (pattern : Int → Char) (pl : Int) (text : Int → Char) (tl : Int) :
    history_computed P
      (wavefront_compute_affine_spec P.penalties a pattern pl text tl ((s : Int) + 1))
      (s + 1) := by
  have ecast : ((s + 1 : Nat) : Int) = (s : Int) + 1 := by push_cast; ring
  refine ⟨?_, ?_⟩
  · intro t hlt ht
    have ht' : retained a (s + 1) t := ht
    rw [← ecast, compute_spec_retained_set_ne]
    · apply h t
      refine ⟨by omega, ?_⟩
      intro hm
      have := ht'.2 hm
      omega
    · apply score_slot_ne a t (s + 1) (by omega)
      intro hm
      have := ht'.2 hm
      constructor <;> omega
  · rw [ecast, compute_spec_retained_set_eq]
    have hmax1 : P.penalties.mismatch
        ≤ max P.penalties.mismatch (P.penalties.gap_opening + P.penalties.gap_extension) :=
      le_max_left _ _
    have hmax2 : P.penalties.gap_opening + P.penalties.gap_extension
        ≤ max P.penalties.mismatch (P.penalties.gap_opening + P.penalties.gap_extension) :=
      le_max_right _ _
    obtain ⟨sx, cx⟩ := history_at_extended P a s h hW P.penalties.mismatch hx hmax1
    obtain ⟨sm, cm⟩ := history_at_extended P a s h hW
      (P.penalties.gap_opening + P.penalties.gap_extension) (by omega) hmax2
    obtain ⟨se, ce⟩ := history_at_extended P a s h hW P.penalties.gap_extension he (by omega)
    exact ⟨compute_set_sound sx.1 sm.1 se.2.1 se.2.2,
      compute_set_complete cx.1 cm.1 ce.2.1 ce.2.2 (by omega)⟩

/-- With a positive gap-extend penalty no insertion costs 0. -/
theorem table_i_ne_zero (P : affine_problem_t) (he : 0 < P.penalties.gap_extension)
    (i j : Nat) : (P.table i j).i ≠ ((0 : Nat) : ℕ∞) := by
  cases j with
  | zero => rw [table_i_zero]; exact ENat.top_ne_coe _
  | succ j =>
    rw [table_i_succ]
    intro h
    rcases min_choice ((P.table i j).m +
        ((P.penalties.gap_opening + P.penalties.gap_extension : Nat) : ℕ∞))
      ((P.table i j).i + (P.penalties.gap_extension : ℕ∞)) with h' | h'
    · rw [h'] at h
      obtain ⟨m, _, hs⟩ := enat_add_eq_coe h
      omega
    · rw [h'] at h
      obtain ⟨m, _, hs⟩ := enat_add_eq_coe h
      omega

/-- With a positive gap-extend penalty no deletion costs 0. -/
theorem table_d_ne_zero (P : affine_problem_t) (he : 0 < P.penalties.gap_extension)
    (i j : Nat) : (P.table i j).d ≠ ((0 : Nat) : ℕ∞) := by
  cases i with
  | zero => rw [table_d_zero]; exact ENat.top_ne_coe _
  | succ i =>
    rw [table_d_succ]
    intro h
    rcases min_choice ((P.table i j).m +
        ((P.penalties.gap_opening + P.penalties.gap_extension : Nat) : ℕ∞))
      ((P.table i j).d + (P.penalties.gap_extension : ℕ∞)) with h' | h'
    · rw [h'] at h
      obtain ⟨m, _, hs⟩ := enat_add_eq_coe h
      omega
    · rw [h'] at h
      obtain ⟨m, _, hs⟩ := enat_add_eq_coe h
      omega

/-- With positive penalties, a cell of cost 0 other than the origin is a match
continuing a cell of cost 0. -/
theorem table_m_zero_origin (P : affine_problem_t)
    (hx : 0 < P.penalties.mismatch) (he : 0 < P.penalties.gap_extension)
    (i j : Nat) (hc : (P.table i j).m = ((0 : Nat) : ℕ∞))
    (hnm : ∀ i' j' : Nat, i = i' + 1 → j = j' + 1 → P.pattern i' = P.text j' →
      (P.table i' j').m ≠ ((0 : Nat) : ℕ∞)) :
    i = 0 ∧ j = 0 := by
  cases i with
  | zero =>
    cases j with
    | zero => exact ⟨rfl, rfl⟩
    | succ j =>
      rw [table_m_zero_succ] at hc
      exact absurd hc (table_i_ne_zero P he _ _)
  | succ i =>
    cases j with
    | zero =>
      rw [table_m_succ_zero] at hc
      exact absurd hc (table_d_ne_zero P he _ _)
    | succ j =>
      rw [table_m_succ_succ] at hc
      rcases min_choice ((P.table i j).m +
          ((if P.pattern i = P.text j then 0 else P.penalties.mismatch : Nat) : ℕ∞))
        (min (P.table (i + 1) (j + 1)).i (P.table (i + 1) (j + 1)).d) with h | h
      · rw [h] at hc
        by_cases hsym : P.pattern i = P.text j
        · rw [if_pos hsym] at hc
          exact absurd (by simpa using hc) (hnm i j rfl rfl hsym)
        · rw [if_neg hsym] at hc
          obtain ⟨m, _, hs⟩ := enat_add_eq_coe hc
          omega
      · rw [h] at hc
        rcases min_choice (P.table (i + 1) (j + 1)).i (P.table (i + 1) (j + 1)).d with h' | h'
        · rw [h'] at hc
          exact absurd hc (table_i_ne_zero P he _ _)
        · rw [h'] at hc
          exact absurd hc (table_d_ne_zero P he _ _)

/-- For the gap-affine metric the initial conditions null the score-0 gap wavefronts. -/
theorem initialize_gaps_null {σ β : Type} (K : kernels_t σ β) (w : world_t σ β)
    (hd : w.aligner.distance_metric = distance_metric_t.gap_affine) :
    ( wavefront_align_global_initialize K w).aligner.i1wavefronts 0 = none ∧
    ( wavefront_align_global_initialize K w).aligner.d1wavefronts 0 = none ∧
    ( wavefront_align_global_initialize K w).aligner.distance_metric
      = w.aligner.distance_metric := by
  unfold wavefront_align_global_initialize
  simp [hd]

/-- The history the initial conditions leave is a computed history of score 0. -/
theorem history_computed_initialize {σ β : Type} (P : affine_problem_t)
    (K : kernels_t σ β) (w : world_t σ β)
    (hd : w.aligner.distance_metric = distance_metric_t.gap_affine)
    (hx : 0 < P.penalties.mismatch) (he : 0 < P.penalties.gap_extension) :
    history_computed P ( wavefront_align_global_initialize K w).aligner 0 := by
  obtain ⟨m0, hm0, hlo, hhi, hoff⟩ := initialize_mwavefront_zero K w
  obtain ⟨hi0, hd0, _⟩ := initialize_gaps_null K w hd
  have hset : retained_set ( wavefront_align_global_initialize K w).aligner ((0 : Nat) : Int)
      = { mwavefront := some m0, i1wavefront := none, d1wavefront := none } := by
    unfold retained_set
    rw [Nat.cast_zero, score_slot_zero, hm0, hi0, hd0]
  refine ⟨fun t ht => absurd ht (Nat.not_lt_zero t), ?_, ?_⟩
  · rw [hset]
    refine ⟨?_, wavefront_sound_none _ _ _, wavefront_sound_none _ _ _⟩
    intro k hk
    obtain ⟨m, hm, hklo, hkhi, hke⟩ := wavefront_offset_at_reachable hk
    cases hm
    have hk0 : k = 0 := by omega
    subst hk0
    rw [hke, hoff]
    refine ⟨by simp, by simp, by simp, Or.inl ⟨by simp, by simp, ?_⟩⟩
    show (P.table 0 0).m ≤ _
    rw [table_m_zero_zero]
    simp
  · rw [hset]
    refine ⟨?_, ?_, ?_⟩
    · intro i j _ _ hc _ hnm
      simp only [Nat.cast_zero, Int.toNat_zero] at hc hnm
      obtain ⟨rfl, rfl⟩ := table_m_zero_origin P hx he i j (by simpa using hc)
        (by simpa using hnm)
      rw [wavefront_offset_at_some _ _ (by simp [hlo]) (by simp [hhi])]
      simp [hoff]
    · intro i j _ _ hc _
      simp only [Nat.cast_zero, Int.toNat_zero] at hc
      exact absurd hc (table_i_ne_zero P he i j)
    · intro i j _ _ hc _
      simp only [Nat.cast_zero, Int.toNat_zero] at hc
      exact absurd hc (table_d_ne_zero P he i j)

/-- On an extended history, a successful termination check of score `s` bounds the
cost of the alignment by `s`. -/
theorem cost_le_of_check {σ β : Type} (P : affine_problem_t) (K : kernels_t σ β)
    (w : world_t σ β) (sequences : strings_padded_t) (s : Nat)
    (h : history_extended P w.aligner s)
    (hW : w.aligner.memory_modular = true → 0 < w.aligner.max_score_scope)
    (hc : (wavefront_align_global_terminate K w sequences
      P.pattern_length P.text_length s).1 = true) :
    P.cost ≤ (s : ℕ∞) := by
  obtain ⟨m, hm, hlo, hhi, hoff⟩ := (terminate_fst_iff K w sequences _ _ _).mp hc
  have hret : retained w.aligner s s := ⟨le_refl _, fun hmm => by have := hW hmm; omega⟩
  have hs := (h s hret).1.1
  have he : wavefront_offset_at (retained_set w.aligner s).mwavefront
      ((P.text_length : Int) - (P.pattern_length : Int))
      = m.offsets ((P.text_length : Int) - (P.pattern_length : Int)) := by
    unfold retained_set
    simp only []
    rw [hm, wavefront_offset_at_some _ _ hlo hhi]
  obtain ⟨_, hcell⟩ := hs ((P.text_length : Int) - (P.pattern_length : Int))
    (by rw [he]; omega)
  rw [he] at hcell
  have hout := cell_sound_outside hcell (Or.inr hoff)
  have e : m.offsets ((P.text_length : Int) - (P.pattern_length : Int))
        - (m.offsets ((P.text_length : Int) - (P.pattern_length : Int))
            - ((P.text_length : Int) - (P.pattern_length : Int)))
        - ((P.text_length : Int) - (P.pattern_length : Int)) = 0 := by ring
  rw [e, gap_potential_zero] at hout
  simpa using hout

/-- On an extended history, the termination check of the score that equals the
cost of the alignment succeeds. -/
theorem check_of_cost_eq {σ β : Type} (P : affine_problem_t) (K : kernels_t σ β)
    (w : world_t σ β) (sequences : strings_padded_t) (s : Nat)
    (h : history_extended P w.aligner s)
    (hW : w.aligner.memory_modular = true → 0 < w.aligner.max_score_scope)
    (hc : P.cost = (s : ℕ∞)) :
    (wavefront_align_global_terminate K w sequences
      P.pattern_length P.text_length s).1 = true := by
  have hret : retained w.aligner s s := ⟨le_refl _, fun hmm => by have := hW hmm; omega⟩
  have hcomp := (h s hret).2.1
  have hle := hcomp P.pattern_length P.text_length (le_refl _) (le_refl _)
    (by simpa using hc) (by omega)
  obtain ⟨m, hm, hlo, hhi, he⟩ := wavefront_offset_at_reachable (le_trans (by omega) hle)
  rw [terminate_fst_iff]
  refine ⟨m, hm, hlo, hhi, ?_⟩
  rw [he] at hle
  exact hle

theorem scope_covers_congr {σ β : Type} {pen : affine_penalties_t}
    {a b : wavefront_aligner_t σ β} (h : same_config a b) (hW : scope_covers pen b) :
    scope_covers pen a := by
  unfold scope_covers at hW ⊢
  rw [h.1, h.2.1]
  exact hW

theorem scope_covers_pos {σ β : Type} {pen : affine_penalties_t}
    {a : wavefront_aligner_t σ β} (hW : scope_covers pen a) :
    a.memory_modular = true → 0 < a.max_score_scope := by
  intro hm
  have := hW hm
  omega

/-- The extend of the contract keeps the configuration. -/
theorem same_config_extend {σ β : Type} (a : wavefront_aligner_t σ β)
    (pattern : Int → Char) (pl : Int) (text : Int → Char) (tl : Int) (score : Int) :
    same_config (wavefront_extend_spec a pattern pl text tl score) a := by
  have h := extend_spec_config a pattern pl text tl score
  exact ⟨h.2.1, h.2.2.1, h.1, (extend_spec_gaps a pattern pl text tl score).2.2⟩

theorem same_config_trans {σ β : Type} {a b c : wavefront_aligner_t σ β}
    (h1 : same_config a b) (h2 : same_config b c) : same_config a c :=
  ⟨h1.1.trans h2.1, h1.2.1.trans h2.2.1, h1.2.2.1.trans h2.2.2.1, h1.2.2.2.trans h2.2.2.2⟩

/-- As long as the checks fail, the loop keeps the history computed and the
configuration unchanged. -/
theorem loop_world_history {σ β : Type} (pen : affine_penalties_t) (K : kernels_t σ β)
    (sequences : strings_padded_t) (pl tl : Nat) (a0 : wavefront_aligner_t σ β)
    (hx : 0 < pen.mismatch) (he : 0 < pen.gap_extension) (hW : scope_covers pen a0) :
    ∀ (n : Nat) (w : world_t σ β) (s : Nat),
      history_computed (problem_of pen sequences pl tl) w.aligner s →
      same_config w.aligner a0 →
      (∀ t, t < n → (loop_check (with_spec_affine pen K) sequences pl tl
        distance_metric_t.gap_affine t w s).1 = false) →
      history_computed (problem_of pen sequences pl tl)
        (loop_world (with_spec_affine pen K) sequences pl tl
          distance_metric_t.gap_affine n w s).aligner (s + n) ∧
      same_config (loop_world (with_spec_affine pen K) sequences pl tl
        distance_metric_t.gap_affine n w s).aligner a0 := by
  intro n
  induction n with
  | zero =>
    intro w s h hc _
    exact ⟨h, hc⟩
  | succ n ih =>
    intro w s h hc hfail
    have h0 := hfail 0 (Nat.succ_pos _)
    rw [loop_check_zero] at h0
    have hframe := terminate_false_world _ _ sequences pl tl s h0
    have hext : history_extended (problem_of pen sequences pl tl)
        (after_extend (with_spec_affine pen K) sequences pl tl w s).aligner s :=
      history_extended_of_computed (problem_of pen sequences pl tl) w.aligner s h
    have hcext : same_config
        (after_extend (with_spec_affine pen K) sequences pl tl w s).aligner a0 :=
      same_config_trans (same_config_extend w.aligner _ _ _ _ _) hc
    have hcomp := history_computed_succ (problem_of pen sequences pl tl)
      (after_extend (with_spec_affine pen K) sequences pl tl w s).aligner s hext
      (scope_covers_congr hcext hW) hx he sequences.pattern_padded pl sequences.text_padded tl
    have ecast : (s : Int) + 1 = ((s + 1 : Nat) : Int) := by push_cast; ring
    rw [loop_world, hframe, ecast]
    have hres := ih
      (after_compute (with_spec_affine pen K) sequences pl tl distance_metric_t.gap_affine
        (after_extend (with_spec_affine pen K) sequences pl tl w s) ((s + 1 : Nat) : Int))
      (s + 1)
      (by rw [← ecast]; exact hcomp)
      (by rw [← ecast]; exact same_config_trans ⟨rfl, rfl, rfl, rfl⟩ hcext)
      (by
        intro t ht
        have := hfail (t + 1) (by omega)
        rw [loop_check_succ, hframe, ecast] at this
        exact this)
    have e : s + 1 + n = s + (n + 1) := by ring
    rw [e] at hres
    exact hres

/-- The initial conditions keep the configuration. -/
theorem same_config_initialize {σ β : Type} (K : kernels_t σ β) (w : world_t σ β)
    (hd : w.aligner.distance_metric = distance_metric_t.gap_affine) :
    same_config ( wavefront_align_global_initialize K w).aligner w.aligner := by
  have h := initialize_config K w
  exact ⟨h.2.1, h.2.2.1, h.1, (initialize_gaps_null K w hd).2.2⟩

/-- In an invocation with the operators of the contracts, as long as the checks
below score `n` fail, the check of score `n` runs on an extended history. -/
theorem extended_world_history {σ β : Type} (pen : affine_penalties_t) (K : kernels_t σ β)
    (w : world_t σ β) (sequences : strings_padded_t) (pl tl : Nat)
    (hx : 0 < pen.mismatch) (he : 0 < pen.gap_extension)
    (hd : w.aligner.distance_metric = distance_metric_t.gap_affine)
    (hW : scope_covers pen w.aligner) (n : Nat)
    (hfail : ∀ t, t < n →
      (check_at (with_spec_affine pen K) sequences pl tl w t).1 = false) :
    history_extended (problem_of pen sequences pl tl)
      (extended_world (with_spec_affine pen K) sequences pl tl w n).aligner n ∧
    same_config (extended_world (with_spec_affine pen K) sequences pl tl w n).aligner
      w.aligner := by
  have hinit := history_computed_initialize (problem_of pen sequences pl tl)
    (with_spec_affine pen K) w hd hx he
  have hcfg := same_config_initialize (with_spec_affine pen K) w hd
  have hloop := loop_world_history pen K sequences pl tl w.aligner hx he hW n
    ( wavefront_align_global_initialize (with_spec_affine pen K) w) 0 hinit hcfg
    (by
      intro t ht
      have := hfail t ht
      rw [check_at_eq_loop_check, hd] at this
      simpa using this)
  rw [zero_add, Nat.cast_zero] at hloop
  unfold extended_world
  rw [hd]
  exact ⟨history_extended_of_computed (problem_of pen sequences pl tl) _ n hloop.1,
    same_config_trans (same_config_extend _ _ _ _ _ _) hloop.2⟩

/-- The minimum cost of a problem is a natural number. -/
theorem cost_finite (P : affine_problem_t) : ∃ c : Nat, P.cost = (c : ℕ∞) :=
  ⟨P.cost.toNat, (ENat.coe_toNat (table_m_ne_top P _ _)).symm⟩

/-- In an invocation with the operators of the contracts, the checks of the scores
below the cost of the alignment fail and the check of the cost succeeds. -/
theorem check_at_cost {σ β : Type} (pen : affine_penalties_t) (K : kernels_t σ β)
    (w : world_t σ β) (sequences : strings_padded_t) (pl tl : Nat)
    (hx : 0 < pen.mismatch) (he : 0 < pen.gap_extension)
    (hd : w.aligner.distance_metric = distance_metric_t.gap_affine)
    (hW : scope_covers pen w.aligner) (c : Nat)
    (hc : (problem_of pen sequences pl tl).cost = (c : ℕ∞)) :
    (∀ t, t < c → (check_at (with_spec_affine pen K) sequences pl tl w t).1 = false) ∧
    (check_at (with_spec_affine pen K) sequences pl tl w c).1 = true := by
  have hpos : ∀ n, (∀ t, t < n →
        (check_at (with_spec_affine pen K) sequences pl tl w t).1 = false) →
      (extended_world (with_spec_affine pen K) sequences pl tl w n).aligner.memory_modular = true →
      0 < (extended_world (with_spec_affine pen K) sequences pl tl w n).aligner.max_score_scope :=
    fun n hn => scope_covers_pos (scope_covers_congr
      (extended_world_history pen K w sequences pl tl hx he hd hW n hn).2 hW)
  have hfail : ∀ t, t < c →
      (check_at (with_spec_affine pen K) sequences pl tl w t).1 = false := by
    intro t
    induction t using Nat.strong_induction_on with
    | _ t ih =>
      intro ht
      have hprev : ∀ u, u < t →
          (check_at (with_spec_affine pen K) sequences pl tl w u).1 = false :=
        fun u hu => ih u hu (by omega)
      have hh := extended_world_history pen K w sequences pl tl hx he hd hW t hprev
      by_contra hne
      have htrue : (check_at (with_spec_affine pen K) sequences pl tl w t).1 = true := by
        simpa using hne
      have hle := cost_le_of_check (problem_of pen sequences pl tl) (with_spec_affine pen K)
        (extended_world (with_spec_affine pen K) sequences pl tl w t) sequences t hh.1
        (hpos t hprev) htrue
      rw [hc] at hle
      have := ENat.coe_le_coe.mp hle
      omega
  refine ⟨hfail, ?_⟩
  have hh := extended_world_history pen K w sequences pl tl hx he hd hW c hfail
  exact check_of_cost_eq (problem_of pen sequences pl tl) (with_spec_affine pen K)
    (extended_world (with_spec_affine pen K) sequences pl tl w c) sequences c hh.1
    (hpos c hfail) hc

/-! ## Lemmas on the two-piece reference table -/

theorem piece_false (pen : affine2p_penalties_t) :
    (pen.piece false).gap_opening = pen.gap_opening1 ∧
    (pen.piece false).gap_extension = pen.gap_extension1 := ⟨rfl, rfl⟩

theorem piece_true (pen : affine2p_penalties_t) :
    (pen.piece true).gap_opening = pen.gap_opening2 ∧
    (pen.piece true).gap_extension = pen.gap_extension2 := ⟨rfl, rfl⟩

theorem table2p_ins_zero (P : affine2p_problem_t) (p : Bool) (i : Nat) :
    (P.table i 0).ins p = ⊤ := by
  cases p <;> cases i <;> rfl

theorem table2p_del_zero (P : affine2p_problem_t) (p : Bool) (j : Nat) :
    (P.table 0 j).del p = ⊤ := by
  cases p <;> cases j <;> rfl

theorem table2p_m_zero_zero (P : affine2p_problem_t) : (P.table 0 0).m = 0 := rfl

theorem table2p_ins_succ (P : affine2p_problem_t) (p : Bool) (i j : Nat) :
    (P.table i (j + 1)).ins p
      = min ((P.table i j).m +
            (((P.penalties.piece p).gap_opening + (P.penalties.piece p).gap_extension : Nat) : ℕ∞))
          ((P.table i j).ins p + ((P.penalties.piece p).gap_extension : ℕ∞)) := by
  cases p <;> cases i <;> rfl

theorem table2p_del_succ (P : affine2p_problem_t) (p : Bool) (i j : Nat) :
    (P.table (i + 1) j).del p
      = min ((P.table i j).m +
            (((P.penalties.piece p).gap_opening + (P.penalties.piece p).gap_extension : Nat) : ℕ∞))
          ((P.table i j).del p + ((P.penalties.piece p).gap_extension : ℕ∞)) := by
  cases p <;> cases j <;> rfl

theorem table2p_m_zero_succ (P : affine2p_problem_t) (j : Nat) :
    (P.table 0 (j + 1)).m = min ((P.table 0 (j + 1)).ins false) ((P.table 0 (j + 1)).ins true) :=
  rfl

theorem table2p_m_succ_zero (P : affine2p_problem_t) (i : Nat) :
    (P.table (i + 1) 0).m = min ((P.table (i + 1) 0).del false) ((P.table (i + 1) 0).del true) :=
  rfl

theorem table2p_m_succ_succ (P : affine2p_problem_t) (i j : Nat) :
    (P.table (i + 1) (j + 1)).m
      = min ((P.table i j).m +
            ((if P.pattern i = P.text j then 0 else P.penalties.mismatch : Nat) : ℕ∞))
          (min (min ((P.table (i + 1) (j + 1)).ins false) ((P.table (i + 1) (j + 1)).ins true))
            (min ((P.table (i + 1) (j + 1)).del false) ((P.table (i + 1) (j + 1)).del true))) :=
  rfl

theorem table2p_m_le_ins (P : affine2p_problem_t) (p : Bool) (i j : Nat) :
    (P.table i j).m ≤ (P.table i j).ins p := by
  cases j with
  | zero => rw [table2p_ins_zero]; exact le_top
  | succ j =>
    cases i with
    | zero =>
      rw [table2p_m_zero_succ]
      cases p
      · exact min_le_left _ _
      · exact min_le_right _ _
    | succ i =>
      rw [table2p_m_succ_succ]
      refine le_trans (min_le_right _ _) (le_trans (min_le_left _ _) ?_)
      cases p
      · exact min_le_left _ _
      · exact min_le_right _ _

theorem table2p_m_le_del (P : affine2p_problem_t) (p : Bool) (i j : Nat) :
    (P.table i j).m ≤ (P.table i j).del p := by
  cases i with
  | zero => rw [table2p_del_zero]; exact le_top
  | succ i =>
    cases j with
    | zero =>
      rw [table2p_m_succ_zero]
      cases p
      · exact min_le_left _ _
      · exact min_le_right _ _
    | succ j =>
      rw [table2p_m_succ_succ]
      refine le_trans (min_le_right _ _) (le_trans (min_le_right _ _) ?_)
      cases p
      · exact min_le_left _ _
      · exact min_le_right _ _

theorem table2p_m_le_get (P : affine2p_problem_t) (X : component2p_t) (i j : Nat) :
    (P.table i j).m ≤ (P.table i j).get X := by
  cases X with
  | M => exact le_refl _
  | I p => exact table2p_m_le_ins P p i j
  | D p => exact table2p_m_le_del P p i j

/-- The ways a cell of the two-piece table gets its cost: the origin, a closed
insertion, a closed deletion, or a substitution or match step. -/
theorem table2p_m_cases (P : affine2p_problem_t) (i j s : Nat)
    (h : (P.table i j).m = (s : ℕ∞)) :
    (i = 0 ∧ j = 0 ∧ s = 0) ∨ (∃ p, (P.table i j).ins p = (s : ℕ∞)) ∨
    (∃ p, (P.table i j).del p = (s : ℕ∞)) ∨
    (∃ i' j', i = i' + 1 ∧ j = j' + 1 ∧
      (P.table i' j').m +
        ((if P.pattern i' = P.text j' then 0 else P.penalties.mismatch : Nat) : ℕ∞)
        = (s : ℕ∞)) := by
  have hins : ∀ a : ℕ∞, min ((P.table i j).ins false) ((P.table i j).ins true) = a →
      ∃ p, (P.table i j).ins p = a := by
    intro a ha
    rcases min_choice ((P.table i j).ins false) ((P.table i j).ins true) with h' | h'
    · exact ⟨false, by rw [← ha, h']⟩
    · exact ⟨true, by rw [← ha, h']⟩
  have hdel : ∀ a : ℕ∞, min ((P.table i j).del false) ((P.table i j).del true) = a →
      ∃ p, (P.table i j).del p = a := by
    intro a ha
    rcases min_choice ((P.table i j).del false) ((P.table i j).del true) with h' | h'
    · exact ⟨false, by rw [← ha, h']⟩
    · exact ⟨true, by rw [← ha, h']⟩
  cases i with
  | zero =>
    cases j with
    | zero =>
      left
      rw [table2p_m_zero_zero] at h
      exact ⟨rfl, rfl, (ENat.coe_inj.mp (by simpa using h)).symm⟩
    | succ j =>
      right; left
      rw [table2p_m_zero_succ] at h
      exact hins _ h
  | succ i =>
    cases j with
    | zero =>
      right; right; left
      rw [table2p_m_succ_zero] at h
      exact hdel _ h
    | succ j =>
      rw [table2p_m_succ_succ] at h
      rcases min_choice ((P.table i j).m +
          ((if P.pattern i = P.text j then 0 else P.penalties.mismatch : Nat) : ℕ∞))
        (min (min ((P.table (i + 1) (j + 1)).ins false) ((P.table (i + 1) (j + 1)).ins true))
          (min ((P.table (i + 1) (j + 1)).del false) ((P.table (i + 1) (j + 1)).del true)))
        with h' | h'
      · right; right; right
        rw [h'] at h
        exact ⟨i, j, rfl, rfl, h⟩
      · rw [h'] at h
        rcases min_choice
          (min ((P.table (i + 1) (j + 1)).ins false) ((P.table (i + 1) (j + 1)).ins true))
          (min ((P.table (i + 1) (j + 1)).del false) ((P.table (i + 1) (j + 1)).del true))
          with h'' | h''
        · right; left
          rw [h''] at h
          exact hins _ h
        · right; right; left
          rw [h''] at h
          exact hdel _ h

/-- One more inserted symbol on a gap profile, from any component. -/
theorem table2p_ins_step (P : affine2p_problem_t) (X : component2p_t) (p : Bool) (i j : Nat) :
    (P.table i (j + 1)).ins p
      ≤ (P.table i j).get X + ((gap_step P.penalties X (component2p_t.I p) p : Nat) : ℕ∞) := by
  rw [table2p_ins_succ]
  unfold gap_step
  by_cases hX : X = component2p_t.I p
  · subst hX
    rw [if_pos rfl, Nat.zero_add]
    exact min_le_right _ _
  · rw [if_neg hX]
    exact le_trans (min_le_left _ _) (add_le_add_right (table2p_m_le_get P X i j) _)

/-- One more deleted symbol on a gap profile, from any component. -/
theorem table2p_del_step (P : affine2p_problem_t) (X : component2p_t) (p : Bool) (i j : Nat) :
    (P.table (i + 1) j).del p
      ≤ (P.table i j).get X + ((gap_step P.penalties X (component2p_t.D p) p : Nat) : ℕ∞) := by
  rw [table2p_del_succ]
  unfold gap_step
  by_cases hX : X = component2p_t.D p
  · subst hX
    rw [if_pos rfl, Nat.zero_add]
    exact min_le_right _ _
  · rw [if_neg hX]
    exact le_trans (min_le_left _ _) (add_le_add_right (table2p_m_le_get P X i j) _)

theorem table2p_m_step (P : affine2p_problem_t) (i j : Nat) :
    (P.table (i + 1) (j + 1)).m ≤ (P.table i j).m + (P.penalties.mismatch : ℕ∞) := by
  rw [table2p_m_succ_succ]
  refine le_trans (min_le_left _ _) (add_le_add_left ?_ _)
  split_ifs
  · exact bot_le
  · exact le_refl _

theorem table2p_m_match (P : affine2p_problem_t) (i j : Nat) (h : P.pattern i = P.text j) :
    (P.table (i + 1) (j + 1)).m ≤ (P.table i j).m := by
  rw [table2p_m_succ_succ, if_pos h]
  refine le_trans (min_le_left _ _) ?_
  simp

theorem table2p_m_ne_top (P : affine2p_problem_t) (i j : Nat) : (P.table i j).m ≠ ⊤ := by
  induction i generalizing j with
  | zero =>
    induction j with
    | zero => rw [table2p_m_zero_zero]; exact ENat.zero_ne_top
    | succ j ih =>
      intro h
      have h1 := le_trans (table2p_m_le_ins P false 0 (j + 1))
        (table2p_ins_step P component2p_t.M false 0 j)
      rw [h, top_le_iff] at h1
      exact WithTop.add_ne_top.mpr ⟨ih, ENat.coe_ne_top _⟩ h1
  | succ i ih =>
    intro h
    have h1 := le_trans (table2p_m_le_del P false (i + 1) j)
      (table2p_del_step P component2p_t.M false i j)
    rw [h, top_le_iff] at h1
    exact WithTop.add_ne_top.mpr ⟨ih j, ENat.coe_ne_top _⟩ h1

/-! ## Lemmas on the two-piece gap potential -/

theorem del_potential_succ_le (pen : affine2p_penalties_t) (X : component2p_t) (p : Bool)
    (n : Nat) :
    del_potential pen X (n + 1)
      ≤ gap_step pen X (component2p_t.D p) p + del_potential pen (component2p_t.D p) n := by
  rw [del_potential]
  cases p
  · exact min_le_left _ _
  · exact min_le_right _ _

theorem ins_potential_succ_le (pen : affine2p_penalties_t) (X : component2p_t) (p : Bool)
    (n : Nat) :
    ins_potential pen X (n + 1)
      ≤ gap_step pen X (component2p_t.I p) p + ins_potential pen (component2p_t.I p) n := by
  rw [ins_potential]
  cases p
  · exact min_le_left _ _
  · exact min_le_right _ _

theorem del_potential_succ_choice (pen : affine2p_penalties_t) (X : component2p_t) (n : Nat) :
    ∃ p, del_potential pen X (n + 1)
      = gap_step pen X (component2p_t.D p) p + del_potential pen (component2p_t.D p) n := by
  rw [del_potential]
  rcases min_choice
    (gap_step pen X (component2p_t.D false) false + del_potential pen (component2p_t.D false) n)
    (gap_step pen X (component2p_t.D true) true + del_potential pen (component2p_t.D true) n)
    with h | h
  · exact ⟨false, h⟩
  · exact ⟨true, h⟩

theorem ins_potential_succ_choice (pen : affine2p_penalties_t) (X : component2p_t) (n : Nat) :
    ∃ p, ins_potential pen X (n + 1)
      = gap_step pen X (component2p_t.I p) p + ins_potential pen (component2p_t.I p) n := by
  rw [ins_potential]
  rcases min_choice
    (gap_step pen X (component2p_t.I false) false + ins_potential pen (component2p_t.I false) n)
    (gap_step pen X (component2p_t.I true) true + ins_potential pen (component2p_t.I true) n)
    with h | h
  · exact ⟨false, h⟩
  · exact ⟨true, h⟩

/-- A gap step costs no more from a component than from the match component. -/
theorem gap_step_le_match (pen : affine2p_penalties_t) (X target : component2p_t) (p : Bool)
    (hM : target ≠ component2p_t.M) :
    gap_step pen X target p ≤ gap_step pen component2p_t.M target p := by
  unfold gap_step
  rw [if_neg (Ne.symm hM)]
  split_ifs <;> omega

/-- A gap step from a component that is not the target gap is a gap opening. -/
theorem gap_step_of_ne (pen : affine2p_penalties_t) (X target : component2p_t) (p : Bool)
    (h : X ≠ target) :
    gap_step pen X target p = (pen.piece p).gap_opening + (pen.piece p).gap_extension := by
  unfold gap_step
  rw [if_neg h]

theorem gap_step_self (pen : affine2p_penalties_t) (X : component2p_t) (p : Bool) :
    gap_step pen X X p = (pen.piece p).gap_extension := by
  unfold gap_step
  rw [if_pos rfl, Nat.zero_add]

/-- Closing a gap never lowers the deletion potential. -/
theorem del_potential_le_match (pen : affine2p_penalties_t) (X : component2p_t) (n : Nat) :
    del_potential pen X n ≤ del_potential pen component2p_t.M n := by
  cases n with
  | zero => simp [del_potential]
  | succ n =>
    obtain ⟨p, hp⟩ := del_potential_succ_choice pen component2p_t.M n
    rw [hp]
    exact le_trans (del_potential_succ_le pen X p n)
      (Nat.add_le_add_right (gap_step_le_match pen X _ p (by simp)) _)

theorem ins_potential_le_match (pen : affine2p_penalties_t) (X : component2p_t) (n : Nat) :
    ins_potential pen X n ≤ ins_potential pen component2p_t.M n := by
  cases n with
  | zero => simp [ins_potential]
  | succ n =>
    obtain ⟨p, hp⟩ := ins_potential_succ_choice pen component2p_t.M n
    rw [hp]
    exact le_trans (ins_potential_succ_le pen X p n)
      (Nat.add_le_add_right (gap_step_le_match pen X _ p (by simp)) _)

/-- From a component that is not a deletion, the deletion potential is that of the
match component. -/
theorem del_potential_of_not_del (pen : affine2p_penalties_t) (X : component2p_t) (n : Nat)
    (hX : ∀ p, X ≠ component2p_t.D p) :
    del_potential pen X n = del_potential pen component2p_t.M n := by
  cases n with
  | zero => simp [del_potential]
  | succ n =>
    rw [del_potential, del_potential, gap_step_of_ne pen X _ false (hX false),
      gap_step_of_ne pen X _ true (hX true),
      gap_step_of_ne pen component2p_t.M _ false (by simp),
      gap_step_of_ne pen component2p_t.M _ true (by simp)]

theorem ins_potential_of_not_ins (pen : affine2p_penalties_t) (X : component2p_t) (n : Nat)
    (hX : ∀ p, X ≠ component2p_t.I p) :
    ins_potential pen X n = ins_potential pen component2p_t.M n := by
  cases n with
  | zero => simp [ins_potential]
  | succ n =>
    rw [ins_potential, ins_potential, gap_step_of_ne pen X _ false (hX false),
      gap_step_of_ne pen X _ true (hX true),
      gap_step_of_ne pen component2p_t.M _ false (by simp),
      gap_step_of_ne pen component2p_t.M _ true (by simp)]

/-- One more symbol to delete never lowers the deletion potential. -/
theorem del_potential_mono (pen : affine2p_penalties_t) :
    ∀ (n : Nat) (X : component2p_t), del_potential pen X n ≤ del_potential pen X (n + 1) := by
  intro n
  induction n with
  | zero => intro X; simp [del_potential]
  | succ n ih =>
    intro X
    obtain ⟨p, hp⟩ := del_potential_succ_choice pen X (n + 1)
    rw [hp]
    exact le_trans (del_potential_succ_le pen X p n) (Nat.add_le_add_left (ih _) _)

theorem ins_potential_mono (pen : affine2p_penalties_t) :
    ∀ (n : Nat) (X : component2p_t), ins_potential pen X n ≤ ins_potential pen X (n + 1) := by
  intro n
  induction n with
  | zero => intro X; simp [ins_potential]
  | succ n ih =>
    intro X
    obtain ⟨p, hp⟩ := ins_potential_succ_choice pen X (n + 1)
    rw [hp]
    exact le_trans (ins_potential_succ_le pen X p n) (Nat.add_le_add_left (ih _) _)

theorem gap_potential2p_zero (pen : affine2p_penalties_t) (X : component2p_t) :
    gap_potential2p pen X 0 = 0 := by
  simp [gap_potential2p]

theorem gap_potential2p_pos (pen : affine2p_penalties_t) (X : component2p_t) (n : Nat) :
    gap_potential2p pen X ((n : Int) + 1) = del_potential pen X (n + 1) := by
  have h : (0 : Int) < (n : Int) + 1 := by omega
  have e : ((n : Int) + 1).toNat = n + 1 := by omega
  simp only [gap_potential2p, if_pos h, e]

theorem gap_potential2p_neg (pen : affine2p_penalties_t) (X : component2p_t) (n : Nat) :
    gap_potential2p pen X (-((n : Int) + 1)) = ins_potential pen X (n + 1) := by
  have h : ¬ (0 : Int) < -((n : Int) + 1) := by omega
  have h' : -((n : Int) + 1) < 0 := by omega
  have e : (- -((n : Int) + 1)).toNat = n + 1 := by omega
  simp only [gap_potential2p, if_neg h, if_pos h', e]

/-- The potential on the side of deletions, with 0 deletions included. -/
theorem gap_potential2p_nonneg (pen : affine2p_penalties_t) (X : component2p_t) (n : Nat) :
    gap_potential2p pen X (n : Int) = del_potential pen X n := by
  cases n with
  | zero => simp [gap_potential2p, del_potential]
  | succ n =>
    have e : ((n + 1 : Nat) : Int) = (n : Int) + 1 := by push_cast; ring
    rw [e, gap_potential2p_pos]

/-- The potential on the side of insertions, with 0 insertions included. -/
theorem gap_potential2p_nonpos (pen : affine2p_penalties_t) (X : component2p_t) (n : Nat) :
    gap_potential2p pen X (-(n : Int)) = ins_potential pen X n := by
  cases n with
  | zero => simp [gap_potential2p, ins_potential]
  | succ n =>
    have e : -((n + 1 : Nat) : Int) = -((n : Int) + 1) := by push_cast; ring
    rw [e, gap_potential2p_neg]

/-- An insertion step on a gap profile: one diagonal up. -/
theorem gap_potential2p_ins (pen : affine2p_penalties_t) (X : component2p_t) (p : Bool)
    (hX : X = component2p_t.M ∨ X = component2p_t.I p) (d : Int) :
    gap_potential2p pen X d
      ≤ gap_step pen X (component2p_t.I p) p
        + gap_potential2p pen (component2p_t.I p) (d + 1) := by
  rcases int_sign_cases d with h | ⟨n, h⟩ | ⟨n, h⟩
  · subst h
    rw [gap_potential2p_zero]; exact Nat.zero_le _
  · subst h
    have e : (n : Int) + 1 + 1 = ((n + 1 : Nat) : Int) + 1 := by push_cast; ring
    rw [e, gap_potential2p_pos, gap_potential2p_pos,
      del_potential_of_not_del pen X _ (by rcases hX with h | h <;> simp [h]),
      del_potential_of_not_del pen (component2p_t.I p) _ (by simp)]
    exact le_trans (del_potential_mono pen _ _) (Nat.le_add_left _ _)
  · subst h
    have e : -((n : Int) + 1) + 1 = -(n : Int) := by ring
    rw [e, gap_potential2p_neg, gap_potential2p_nonpos]
    exact ins_potential_succ_le pen X p n

/-- A deletion step on a gap profile: one diagonal down. -/
theorem gap_potential2p_del (pen : affine2p_penalties_t) (X : component2p_t) (p : Bool)
    (hX : X = component2p_t.M ∨ X = component2p_t.D p) (d : Int) :
    gap_potential2p pen X d
      ≤ gap_step pen X (component2p_t.D p) p
        + gap_potential2p pen (component2p_t.D p) (d - 1) := by
  rcases int_sign_cases d with h | ⟨n, h⟩ | ⟨n, h⟩
  · subst h
    rw [gap_potential2p_zero]; exact Nat.zero_le _
  · subst h
    have e : (n : Int) + 1 - 1 = (n : Int) := by ring
    rw [e, gap_potential2p_pos, gap_potential2p_nonneg]
    exact del_potential_succ_le pen X p n
  · subst h
    have e : -((n : Int) + 1) - 1 = -(((n + 1 : Nat) : Int) + 1) := by push_cast; ring
    rw [e, gap_potential2p_neg, gap_potential2p_neg,
      ins_potential_of_not_ins pen X _ (by rcases hX with h | h <;> simp [h]),
      ins_potential_of_not_ins pen (component2p_t.D p) _ (by simp)]
    exact le_trans (ins_potential_mono pen _ _) (Nat.le_add_left _ _)

/-- Closing a gap never lowers the potential. -/
theorem gap_potential2p_close (pen : affine2p_penalties_t) (X : component2p_t) (d : Int) :
    gap_potential2p pen X d ≤ gap_potential2p pen component2p_t.M d := by
  rcases int_sign_cases d with h | ⟨n, h⟩ | ⟨n, h⟩
  · subst h
    rw [gap_potential2p_zero, gap_potential2p_zero]
  · subst h
    rw [gap_potential2p_pos, gap_potential2p_pos]
    exact del_potential_le_match pen X _
  · subst h
    rw [gap_potential2p_neg, gap_potential2p_neg]
    exact ins_potential_le_match pen X _

/-! ## Lemmas on sound cells of the two-piece model -/

/-- Deleting `n` more symbols from a cell costs at most its deletion potential. -/
theorem table2p_del_many (P : affine2p_problem_t) :
    ∀ (n : Nat) (X : component2p_t) (i j s : Nat), (P.table i j).get X ≤ (s : ℕ∞) →
      (P.table (i + n) j).m ≤ ((s + del_potential P.penalties X n : Nat) : ℕ∞) := by
  intro n
  induction n with
  | zero =>
    intro X i j s h
    simpa [del_potential] using le_trans (table2p_m_le_get P X i j) h
  | succ n ih =>
    intro X i j s h
    obtain ⟨p, hp⟩ := del_potential_succ_choice P.penalties X n
    rw [hp]
    have h1 := le_trans (table2p_del_step P X p i j) (enat_add_le_coe h)
    have h2 := ih (component2p_t.D p) (i + 1) j _ h1
    have e1 : i + 1 + n = i + (n + 1) := by ring
    have e2 : s + gap_step P.penalties X (component2p_t.D p) p
          + del_potential P.penalties (component2p_t.D p) n
        = s + (gap_step P.penalties X (component2p_t.D p) p
          + del_potential P.penalties (component2p_t.D p) n) := by ring
    rw [e1, e2] at h2
    exact h2

/-- Inserting `n` more symbols from a cell costs at most its insertion potential. -/
theorem table2p_ins_many (P : affine2p_problem_t) :
    ∀ (n : Nat) (X : component2p_t) (i j s : Nat), (P.table i j).get X ≤ (s : ℕ∞) →
      (P.table i (j + n)).m ≤ ((s + ins_potential P.penalties X n : Nat) : ℕ∞) := by
  intro n
  induction n with
  | zero =>
    intro X i j s h
    simpa [ins_potential] using le_trans (table2p_m_le_get P X i j) h
  | succ n ih =>
    intro X i j s h
    obtain ⟨p, hp⟩ := ins_potential_succ_choice P.penalties X n
    rw [hp]
    have h1 := le_trans (table2p_ins_step P X p i j) (enat_add_le_coe h)
    have h2 := ih (component2p_t.I p) i (j + 1) _ h1
    have e1 : j + 1 + n = j + (n + 1) := by ring
    have e2 : s + gap_step P.penalties X (component2p_t.I p) p
          + ins_potential P.penalties (component2p_t.I p) n
        = s + (gap_step P.penalties X (component2p_t.I p) p
          + ins_potential P.penalties (component2p_t.I p) n) := by ring
    rw [e1, e2] at h2
    exact h2

/-- From a cell on the last row or the last column of the two-piece table, the
whole alignment costs at most the cost of the cell plus its gap potential. -/
theorem boundary_potential2p (P : affine2p_problem_t) (X : component2p_t) (i j s : Nat)
    (hi : i ≤ P.pattern_length) (hj : j ≤ P.text_length)
    (hb : i = P.pattern_length ∨ j = P.text_length)
    (h : (P.table i j).get X ≤ (s : ℕ∞)) :
    P.cost ≤ ((s + gap_potential2p P.penalties X
      (((j : Int) - (i : Int)) - ((P.text_length : Int) - (P.pattern_length : Int))) : Nat) : ℕ∞) := by
  rcases hb with hb | hb
  · -- last row: insertions remain
    obtain ⟨n, hn⟩ : ∃ n : Nat, P.text_length = j + n := ⟨P.text_length - j, by omega⟩
    have e : ((j : Int) - (i : Int)) - ((P.text_length : Int) - (P.pattern_length : Int))
        = -(n : Int) := by rw [hn, hb]; push_cast; ring
    rw [e, gap_potential2p_nonpos]
    unfold affine2p_problem_t.cost
    rw [← hb, hn]
    exact table2p_ins_many P n X i j s h
  · -- last column: deletions remain
    obtain ⟨n, hn⟩ : ∃ n : Nat, P.pattern_length = i + n := ⟨P.pattern_length - i, by omega⟩
    have e : ((j : Int) - (i : Int)) - ((P.text_length : Int) - (P.pattern_length : Int))
        = (n : Int) := by rw [hn, hb]; push_cast; ring
    rw [e, gap_potential2p_nonneg]
    unfold affine2p_problem_t.cost
    rw [← hb, hn]
    exact table2p_del_many P n X i j s h

theorem cell_sound2p_inside {P : affine2p_problem_t} {X : component2p_t} {s : Nat} {v h : Int}
    (hs : cell_sound2p P X s v h) (hv : v ≤ P.pattern_length) (hh : h ≤ P.text_length) :
    (P.table v.toNat h.toNat).get X ≤ (s : ℕ∞) := by
  rcases hs.2.2 with h1 | h1
  · exact h1.2.2
  · rcases h1.1 with h2 | h2 <;> omega

theorem cell_sound2p_outside {P : affine2p_problem_t} {X : component2p_t} {s : Nat} {v h : Int}
    (hs : cell_sound2p P X s v h)
    (hb : (P.pattern_length : Int) ≤ v ∨ (P.text_length : Int) ≤ h) :
    P.cost ≤ ((s + gap_potential2p P.penalties X
      ((h - v) - ((P.text_length : Int) - (P.pattern_length : Int))) : Nat) : ℕ∞) := by
  obtain ⟨hv0, hh0, hs'⟩ := hs
  rcases hs' with h1 | h1
  · obtain ⟨hv, hh, hc⟩ := h1
    have := boundary_potential2p P X v.toNat h.toNat s (by omega) (by omega) (by omega) hc
    have ev : ((v.toNat : Nat) : Int) = v := Int.toNat_of_nonneg hv0
    have eh : ((h.toNat : Nat) : Int) = h := Int.toNat_of_nonneg hh0
    rw [ev, eh] at this
    exact this
  · exact h1.2

theorem cell_sound2p_intro {P : affine2p_problem_t} {X : component2p_t} {s : Nat} {v h : Int}
    (hv0 : 0 ≤ v) (hh0 : 0 ≤ h)
    (hin : v ≤ P.pattern_length → h ≤ P.text_length →
      (P.table v.toNat h.toNat).get X ≤ (s : ℕ∞))
    (hout : (P.pattern_length < v ∨ P.text_length < h) →
      P.cost ≤ ((s + gap_potential2p P.penalties X
        ((h - v) - ((P.text_length : Int) - (P.pattern_length : Int))) : Nat) : ℕ∞)) :
    cell_sound2p P X s v h := by
  refine ⟨hv0, hh0, ?_⟩
  by_cases hb : v ≤ P.pattern_length ∧ h ≤ P.text_length
  · exact Or.inl ⟨hb.1, hb.2, hin hb.1 hb.2⟩
  · have hb' : (P.pattern_length : Int) < v ∨ (P.text_length : Int) < h := by
      by_contra hc
      push_neg at hc
      exact hb ⟨hc.1, hc.2⟩
    exact Or.inr ⟨hb', hout hb'⟩

/-- The cost bound of a potential step in the two-piece model. -/
theorem cost2p_le_step {P : affine2p_problem_t} {s a b c : Nat}
    (h : P.cost ≤ ((s + a : Nat) : ℕ∞)) (hab : a ≤ c + b) :
    P.cost ≤ ((s + c + b : Nat) : ℕ∞) :=
  le_trans h (ENat.coe_le_coe.mpr (by omega))

/-- An insertion step on a gap profile from a sound match or insertion cell. -/
theorem cell_sound2p_ins {P : affine2p_problem_t} {X : component2p_t} {p : Bool}
    (hX : X = component2p_t.M ∨ X = component2p_t.I p) {s : Nat} {v h : Int}
    (hs : cell_sound2p P X s v h) :
    cell_sound2p P (component2p_t.I p)
      (s + gap_step P.penalties X (component2p_t.I p) p) v (h + 1) := by
  refine cell_sound2p_intro hs.1 (by have := hs.2.1; omega) ?_ ?_
  · intro hv hh
    have h1 := cell_sound2p_inside hs hv (by omega)
    have e : (h + 1).toNat = h.toNat + 1 := by have := hs.2.1; omega
    rw [e]
    exact le_trans (table2p_ins_step P X p _ _) (enat_add_le_coe h1)
  · intro hb
    have h1 := cell_sound2p_outside hs (by omega)
    have e : h + 1 - v - ((P.text_length : Int) - (P.pattern_length : Int))
        = h - v - ((P.text_length : Int) - (P.pattern_length : Int)) + 1 := by ring
    rw [e]
    exact cost2p_le_step h1 (gap_potential2p_ins _ X p hX _)

/-- A deletion step on a gap profile from a sound match or deletion cell. -/
theorem cell_sound2p_del {P : affine2p_problem_t} {X : component2p_t} {p : Bool}
    (hX : X = component2p_t.M ∨ X = component2p_t.D p) {s : Nat} {v h : Int}
    (hs : cell_sound2p P X s v h) :
    cell_sound2p P (component2p_t.D p)
      (s + gap_step P.penalties X (component2p_t.D p) p) (v + 1) h := by
  refine cell_sound2p_intro (by have := hs.1; omega) hs.2.1 ?_ ?_
  · intro hv hh
    have h1 := cell_sound2p_inside hs (by omega) hh
    have e : (v + 1).toNat = v.toNat + 1 := by have := hs.1; omega
    rw [e]
    exact le_trans (table2p_del_step P X p _ _) (enat_add_le_coe h1)
  · intro hb
    have h1 := cell_sound2p_outside hs (by omega)
    have e : h - (v + 1) - ((P.text_length : Int) - (P.pattern_length : Int))
        = h - v - ((P.text_length : Int) - (P.pattern_length : Int)) - 1 := by ring
    rw [e]
    exact cost2p_le_step h1 (gap_potential2p_del _ X p hX _)

/-- A substitution step from a sound match cell of the two-piece model. -/
theorem cell_sound2p_mismatch {P : affine2p_problem_t} {s : Nat} {v h : Int}
    (hs : cell_sound2p P component2p_t.M s v h) :
    cell_sound2p P component2p_t.M (s + P.penalties.mismatch) (v + 1) (h + 1) := by
  refine cell_sound2p_intro (by have := hs.1; omega) (by have := hs.2.1; omega) ?_ ?_
  · intro hv hh
    have h1 := cell_sound2p_inside hs (by omega) (by omega)
    have e : (v + 1).toNat = v.toNat + 1 := by have := hs.1; omega
    have e' : (h + 1).toNat = h.toNat + 1 := by have := hs.2.1; omega
    rw [e, e']
    exact le_trans (table2p_m_step P _ _) (enat_add_le_coe h1)
  · intro hb
    have h1 := cell_sound2p_outside hs (by omega)
    have e : h + 1 - (v + 1) - ((P.text_length : Int) - (P.pattern_length : Int))
        = h - v - ((P.text_length : Int) - (P.pattern_length : Int)) := by ring
    rw [e]
    exact le_trans h1 (ENat.coe_le_coe.mpr (by omega))

/-- Closing a gap in the two-piece model. -/
theorem cell_sound2p_close {P : affine2p_problem_t} {X : component2p_t} {s : Nat} {v h : Int}
    (hs : cell_sound2p P X s v h) : cell_sound2p P component2p_t.M s v h := by
  refine cell_sound2p_intro hs.1 hs.2.1 ?_ ?_
  · intro hv hh
    exact le_trans (table2p_m_le_get P X _ _) (cell_sound2p_inside hs hv hh)
  · intro hb
    have h1 := cell_sound2p_outside hs (by omega)
    exact le_trans h1 (ENat.coe_le_coe.mpr
      (Nat.add_le_add_left (gap_potential2p_close _ _ _) _))

/-- A match inside the table from a sound match cell of the two-piece model. -/
theorem cell_sound2p_match {P : affine2p_problem_t} {s : Nat} {v h : Int}
    (hs : cell_sound2p P component2p_t.M s v h)
    (hv : v < P.pattern_length) (hh : h < P.text_length)
    (hsym : P.pattern v = P.text h) :
    cell_sound2p P component2p_t.M s (v + 1) (h + 1) := by
  have hv0 := hs.1
  have hh0 := hs.2.1
  refine ⟨by omega, by omega, Or.inl ⟨by omega, by omega, ?_⟩⟩
  have h1 := cell_sound2p_inside hs (by omega) (by omega)
  have e : (v + 1).toNat = v.toNat + 1 := by omega
  have e' : (h + 1).toNat = h.toNat + 1 := by omega
  rw [e, e']
  refine le_trans (table2p_m_match P _ _ ?_) h1
  rw [Int.toNat_of_nonneg hv0, Int.toNat_of_nonneg hh0]
  exact hsym

/-! ## Soundness of the computed two-piece wavefronts -/

theorem wavefront_sound2p_of_offsets {P : affine2p_problem_t} {X : component2p_t} {t : Int}
    {f : Int → Int}
    (hf : ∀ k, 0 ≤ f k → 0 ≤ t ∧ cell_sound2p P X t.toNat (f k - k) (f k))
    (lo hi : Int) (pc pv : Int → Nat) :
    wavefront_sound2p P X t
      (some { lo := lo, hi := hi, offsets := f, bt_pcigar := pc, bt_prev := pv }) := by
  intro k hk
  have e := wavefront_offset_at_eq_of_nonneg hk
  rw [e] at hk ⊢
  exact hf k hk

theorem wavefront_sound2p_none (P : affine2p_problem_t) (X : component2p_t) (t : Int) :
    wavefront_sound2p P X t none := by
  intro k hk
  simp [wavefront_offset_at, OFFSET_NULL] at hk

/-- The insertion offsets of a gap profile computed from sound wavefronts are sound. -/
theorem affine_ins_sound2p {P : affine2p_problem_t} (p : Bool) {t : Int}
    {m_gap i_ext : Option wavefront_t}
    (hm : wavefront_sound2p P component2p_t.M
      (t - (((P.penalties.piece p).gap_opening + (P.penalties.piece p).gap_extension : Nat) : Int))
      m_gap)
    (hi : wavefront_sound2p P (component2p_t.I p)
      (t - ((P.penalties.piece p).gap_extension : Int)) i_ext)
    (k : Int) (hk : 0 ≤ affine_ins m_gap i_ext k) :
    0 ≤ t ∧ cell_sound2p P (component2p_t.I p) t.toNat
      (affine_ins m_gap i_ext k - k) (affine_ins m_gap i_ext k) := by
  unfold affine_ins at hk ⊢
  obtain ⟨h0, he⟩ := offset_shift_nonneg hk
  rw [he]
  rcases max_choice (wavefront_offset_at m_gap (k - 1)) (wavefront_offset_at i_ext (k - 1))
    with hc | hc
  · rw [hc] at h0 ⊢
    obtain ⟨ht, hs⟩ := hm (k - 1) h0
    have h1 := cell_sound2p_ins (p := p) (Or.inl rfl) hs
    rw [gap_step_of_ne _ _ _ _ (by simp)] at h1
    have e1 : (t - (((P.penalties.piece p).gap_opening
          + (P.penalties.piece p).gap_extension : Nat) : Int)).toNat
        + ((P.penalties.piece p).gap_opening + (P.penalties.piece p).gap_extension)
        = t.toNat := by omega
    have e2 : wavefront_offset_at m_gap (k - 1) - (k - 1)
        = wavefront_offset_at m_gap (k - 1) + 1 - k := by ring
    rw [e1, e2] at h1
    exact ⟨by omega, h1⟩
  · rw [hc] at h0 ⊢
    obtain ⟨ht, hs⟩ := hi (k - 1) h0
    have h1 := cell_sound2p_ins (p := p) (Or.inr rfl) hs
    rw [gap_step_self] at h1
    have e1 : (t - ((P.penalties.piece p).gap_extension : Int)).toNat
        + (P.penalties.piece p).gap_extension = t.toNat := by omega
    have e2 : wavefront_offset_at i_ext (k - 1) - (k - 1)
        = wavefront_offset_at i_ext (k - 1) + 1 - k := by ring
    rw [e1, e2] at h1
    exact ⟨by omega, h1⟩

/-- The deletion offsets of a gap profile computed from sound wavefronts are sound. -/
theorem affine_del_sound2p {P : affine2p_problem_t} (p : Bool) {t : Int}
    {m_gap d_ext : Option wavefront_t}
    (hm : wavefront_sound2p P component2p_t.M
      (t - (((P.penalties.piece p).gap_opening + (P.penalties.piece p).gap_extension : Nat) : Int))
      m_gap)
    (hd : wavefront_sound2p P (component2p_t.D p)
      (t - ((P.penalties.piece p).gap_extension : Int)) d_ext)
    (k : Int) (hk : 0 ≤ affine_del m_gap d_ext k) :
    0 ≤ t ∧ cell_sound2p P (component2p_t.D p) t.toNat
      (affine_del m_gap d_ext k - k) (affine_del m_gap d_ext k) := by
  unfold affine_del at hk ⊢
  rcases max_choice (wavefront_offset_at m_gap (k + 1)) (wavefront_offset_at d_ext (k + 1))
    with hc | hc
  · rw [hc] at hk ⊢
    obtain ⟨ht, hs⟩ := hm (k + 1) hk
    have h1 := cell_sound2p_del (p := p) (Or.inl rfl) hs
    rw [gap_step_of_ne _ _ _ _ (by simp)] at h1
    have e1 : (t - (((P.penalties.piece p).gap_opening
          + (P.penalties.piece p).gap_extension : Nat) : Int)).toNat
        + ((P.penalties.piece p).gap_opening + (P.penalties.piece p).gap_extension)
        = t.toNat := by omega
    have e2 : wavefront_offset_at m_gap (k + 1) - (k + 1) + 1
        = wavefront_offset_at m_gap (k + 1) - k := by ring
    rw [e1, e2] at h1
    exact ⟨by omega, h1⟩
  · rw [hc] at hk ⊢
    obtain ⟨ht, hs⟩ := hd (k + 1) hk
    have h1 := cell_sound2p_del (p := p) (Or.inr rfl) hs
    rw [gap_step_self] at h1
    have e1 : (t - ((P.penalties.piece p).gap_extension : Int)).toNat
        + (P.penalties.piece p).gap_extension = t.toNat := by omega
    have e2 : wavefront_offset_at d_ext (k + 1) - (k + 1) + 1
        = wavefront_offset_at d_ext (k + 1) - k := by ring
    rw [e1, e2] at h1
    exact ⟨by omega, h1⟩

/-- The two-piece match offsets computed from sound wavefronts are sound. -/
theorem affine2p_mat_sound {P : affine2p_problem_t} {t : Int}
    {m_misms m_gap1 m_gap2 i1_ext i2_ext d1_ext d2_ext : Option wavefront_t}
    (hx : wavefront_sound2p P component2p_t.M (t - (P.penalties.mismatch : Nat)) m_misms)
    (hi1 : ∀ k, 0 ≤ affine_ins m_gap1 i1_ext k →
      0 ≤ t ∧ cell_sound2p P (component2p_t.I false) t.toNat
        (affine_ins m_gap1 i1_ext k - k) (affine_ins m_gap1 i1_ext k))
    (hi2 : ∀ k, 0 ≤ affine_ins m_gap2 i2_ext k →
      0 ≤ t ∧ cell_sound2p P (component2p_t.I true) t.toNat
        (affine_ins m_gap2 i2_ext k - k) (affine_ins m_gap2 i2_ext k))
    (hd1 : ∀ k, 0 ≤ affine_del m_gap1 d1_ext k →
      0 ≤ t ∧ cell_sound2p P (component2p_t.D false) t.toNat
        (affine_del m_gap1 d1_ext k - k) (affine_del m_gap1 d1_ext k))
    (hd2 : ∀ k, 0 ≤ affine_del m_gap2 d2_ext k →
      0 ≤ t ∧ cell_sound2p P (component2p_t.D true) t.toNat
        (affine_del m_gap2 d2_ext k - k) (affine_del m_gap2 d2_ext k))
    (k : Int) (hk : 0 ≤ affine2p_mat m_misms m_gap1 m_gap2 i1_ext i2_ext d1_ext d2_ext k) :
    0 ≤ t ∧ cell_sound2p P component2p_t.M t.toNat
      (affine2p_mat m_misms m_gap1 m_gap2 i1_ext i2_ext d1_ext d2_ext k - k)
      (affine2p_mat m_misms m_gap1 m_gap2 i1_ext i2_ext d1_ext d2_ext k) := by
  unfold affine2p_mat at hk ⊢
  rcases max_choice (offset_shift (wavefront_offset_at m_misms k))
    (max (max (affine_ins m_gap1 i1_ext k) (affine_ins m_gap2 i2_ext k))
      (max (affine_del m_gap1 d1_ext k) (affine_del m_gap2 d2_ext k))) with hc | hc
  · rw [hc] at hk ⊢
    obtain ⟨h0, he⟩ := offset_shift_nonneg hk
    rw [he]
    obtain ⟨ht, hs⟩ := hx k h0
    have h1 := cell_sound2p_mismatch hs
    have e1 : (t - (P.penalties.mismatch : Int)).toNat + P.penalties.mismatch = t.toNat := by
      omega
    have e2 : wavefront_offset_at m_misms k - k + 1 = wavefront_offset_at m_misms k + 1 - k := by
      ring
    rw [e1, e2] at h1
    exact ⟨by omega, h1⟩
  · rw [hc] at hk ⊢
    rcases max_choice (max (affine_ins m_gap1 i1_ext k) (affine_ins m_gap2 i2_ext k))
      (max (affine_del m_gap1 d1_ext k) (affine_del m_gap2 d2_ext k)) with hc' | hc'
    · rw [hc'] at hk ⊢
      rcases max_choice (affine_ins m_gap1 i1_ext k) (affine_ins m_gap2 i2_ext k) with h' | h'
      · rw [h'] at hk ⊢
        obtain ⟨ht, hs⟩ := hi1 k hk
        exact ⟨ht, cell_sound2p_close hs⟩
      · rw [h'] at hk ⊢
        obtain ⟨ht, hs⟩ := hi2 k hk
        exact ⟨ht, cell_sound2p_close hs⟩
    · rw [hc'] at hk ⊢
      rcases max_choice (affine_del m_gap1 d1_ext k) (affine_del m_gap2 d2_ext k) with h' | h'
      · rw [h'] at hk ⊢
        obtain ⟨ht, hs⟩ := hd1 k hk
        exact ⟨ht, cell_sound2p_close hs⟩
      · rw [h'] at hk ⊢
        obtain ⟨ht, hs⟩ := hd2 k hk
        exact ⟨ht, cell_sound2p_close hs⟩

/-- The two-piece wavefront set computed from sound wavefronts is sound. -/
theorem compute2p_set_sound {P : affine2p_problem_t} {t : Int}
    {m_misms m_gap1 m_gap2 i1_ext i2_ext d1_ext d2_ext : Option wavefront_t}
    (hx : wavefront_sound2p P component2p_t.M (t - (P.penalties.mismatch : Nat)) m_misms)
    (hm1 : wavefront_sound2p P component2p_t.M
      (t - ((P.penalties.gap_opening1 + P.penalties.gap_extension1 : Nat) : Int)) m_gap1)
    (hm2 : wavefront_sound2p P component2p_t.M
      (t - ((P.penalties.gap_opening2 + P.penalties.gap_extension2 : Nat) : Int)) m_gap2)
    (hi1 : wavefront_sound2p P (component2p_t.I false)
      (t - (P.penalties.gap_extension1 : Int)) i1_ext)
    (hi2 : wavefront_sound2p P (component2p_t.I true)
      (t - (P.penalties.gap_extension2 : Int)) i2_ext)
    (hd1 : wavefront_sound2p P (component2p_t.D false)
      (t - (P.penalties.gap_extension1 : Int)) d1_ext)
    (hd2 : wavefront_sound2p P (component2p_t.D true)
      (t - (P.penalties.gap_extension2 : Int)) d2_ext) :
    set2p_sound P t
      (wavefront_compute_affine2p_set m_misms m_gap1 m_gap2 i1_ext i2_ext d1_ext d2_ext) := by
  have si1 := affine_ins_sound2p (P := P) false hm1 hi1
  have si2 := affine_ins_sound2p (P := P) true hm2 hi2
  have sd1 := affine_del_sound2p (P := P) false hm1 hd1
  have sd2 := affine_del_sound2p (P := P) true hm2 hd2
  intro X
  unfold wavefront_compute_affine2p_set
  cases compute_range [m_misms, m_gap1, m_gap2, i1_ext, i2_ext, d1_ext, d2_ext] with
  | none =>
    cases X with
    | M => exact wavefront_sound2p_none _ _ _
    | I p => cases p <;> exact wavefront_sound2p_none _ _ _
    | D p => cases p <;> exact wavefront_sound2p_none _ _ _
  | some r =>
    obtain ⟨lo, hi'⟩ := r
    cases X with
    | M =>
      exact wavefront_sound2p_of_offsets (affine2p_mat_sound hx si1 si2 sd1 sd2) _ _ _ _
    | I p =>
      cases p
      · simp only [wavefront_set2p_t.get, Bool.false_eq_true, if_false]
        split_ifs
        · exact wavefront_sound2p_of_offsets si1 _ _ _ _
        · exact wavefront_sound2p_none _ _ _
      · simp only [wavefront_set2p_t.get, if_true]
        split_ifs
        · exact wavefront_sound2p_of_offsets si2 _ _ _ _
        · exact wavefront_sound2p_none _ _ _
    | D p =>
      cases p
      · simp only [wavefront_set2p_t.get, Bool.false_eq_true, if_false]
        split_ifs
        · exact wavefront_sound2p_of_offsets sd1 _ _ _ _
        · exact wavefront_sound2p_none _ _ _
      · simp only [wavefront_set2p_t.get, if_true]
        split_ifs
        · exact wavefront_sound2p_of_offsets sd2 _ _ _ _
        · exact wavefront_sound2p_none _ _ _

/-! ## Completeness of the computed two-piece wavefronts -/

/-- The insertion offsets of a gap profile reach every cell whose insertion cost on
that profile is the score, and a contributor lies next to its diagonal. -/
theorem affine_ins_complete2p {P : affine2p_problem_t} (p : Bool) {t : Int}
    {m_gap i_ext : Option wavefront_t}
    (cm : wavefront_complete2p P component2p_t.M
      (t - (((P.penalties.piece p).gap_opening + (P.penalties.piece p).gap_extension : Nat) : Int))
      m_gap)
    (ci : wavefront_complete2p P (component2p_t.I p)
      (t - ((P.penalties.piece p).gap_extension : Int)) i_ext)
    (i j : Nat) (hi : i ≤ P.pattern_length) (hj : j ≤ P.text_length)
    (hc : (P.table i j).ins p = ((t.toNat : Nat) : ℕ∞)) (ht : 0 ≤ t) :
    (j : Int) ≤ affine_ins m_gap i_ext ((j : Int) - (i : Int)) ∧
    ∃ w, some w ∈ [m_gap, i_ext] ∧
      w.lo - 1 ≤ (j : Int) - (i : Int) ∧ (j : Int) - (i : Int) ≤ w.hi + 1 := by
  cases j with
  | zero =>
    rw [table2p_ins_zero] at hc
    exact absurd hc (ENat.top_ne_coe _)
  | succ j =>
    rw [table2p_ins_succ] at hc
    have ek : ((j + 1 : Nat) : Int) - (i : Int) - 1 = (j : Int) - (i : Int) := by
      push_cast; ring
    unfold affine_ins
    rw [ek]
    rcases min_choice ((P.table i j).m +
        (((P.penalties.piece p).gap_opening + (P.penalties.piece p).gap_extension : Nat) : ℕ∞))
      ((P.table i j).ins p + ((P.penalties.piece p).gap_extension : ℕ∞)) with h | h
    · rw [h] at hc
      obtain ⟨m, hm, hs⟩ := enat_add_eq_coe hc
      obtain ⟨h0, h1⟩ := source_score ht hs
      have hle := cm i j hi (by omega) (by rw [h1]; exact hm) h0
      obtain ⟨w, hw, hlo, hhi, _⟩ := wavefront_offset_at_reachable (le_trans (by omega) hle)
      have hmax := le_max_left (wavefront_offset_at m_gap ((j : Int) - (i : Int)))
        (wavefront_offset_at i_ext ((j : Int) - (i : Int)))
      constructor
      · rw [offset_shift_of_nonneg (by omega)]
        push_cast
        omega
      · refine ⟨w, ?_, by push_cast; omega, by push_cast; omega⟩
        rw [hw]; simp
    · rw [h] at hc
      obtain ⟨m, hm, hs⟩ := enat_add_eq_coe hc
      obtain ⟨h0, h1⟩ := source_score ht hs
      have hle := ci i j hi (by omega) (by rw [h1]; exact hm) h0
      obtain ⟨w, hw, hlo, hhi, _⟩ := wavefront_offset_at_reachable (le_trans (by omega) hle)
      have hmax := le_max_right (wavefront_offset_at m_gap ((j : Int) - (i : Int)))
        (wavefront_offset_at i_ext ((j : Int) - (i : Int)))
      constructor
      · rw [offset_shift_of_nonneg (by omega)]
        push_cast
        omega
      · refine ⟨w, ?_, by push_cast; omega, by push_cast; omega⟩
        rw [hw]; simp

/-- The deletion offsets of a gap profile reach every cell whose deletion cost on
that profile is the score, and a contributor lies next to its diagonal. -/
theorem affine_del_complete2p {P : affine2p_problem_t} (p : Bool) {t : Int}
    {m_gap d_ext : Option wavefront_t}
    (cm : wavefront_complete2p P component2p_t.M
      (t - (((P.penalties.piece p).gap_opening + (P.penalties.piece p).gap_extension : Nat) : Int))
      m_gap)
    (cd : wavefront_complete2p P (component2p_t.D p)
      (t - ((P.penalties.piece p).gap_extension : Int)) d_ext)
    (i j : Nat) (hi : i ≤ P.pattern_length) (hj : j ≤ P.text_length)
    (hc : (P.table i j).del p = ((t.toNat : Nat) : ℕ∞)) (ht : 0 ≤ t) :
    (j : Int) ≤ affine_del m_gap d_ext ((j : Int) - (i : Int)) ∧
    ∃ w, some w ∈ [m_gap, d_ext] ∧
      w.lo - 1 ≤ (j : Int) - (i : Int) ∧ (j : Int) - (i : Int) ≤ w.hi + 1 := by
  cases i with
  | zero =>
    rw [table2p_del_zero] at hc
    exact absurd hc (ENat.top_ne_coe _)
  | succ i =>
    rw [table2p_del_succ] at hc
    have ek : (j : Int) - ((i + 1 : Nat) : Int) + 1 = (j : Int) - (i : Int) := by
      push_cast; ring
    unfold affine_del
    rw [ek]
    rcases min_choice ((P.table i j).m +
        (((P.penalties.piece p).gap_opening + (P.penalties.piece p).gap_extension : Nat) : ℕ∞))
      ((P.table i j).del p + ((P.penalties.piece p).gap_extension : ℕ∞)) with h | h
    · rw [h] at hc
      obtain ⟨m, hm, hs⟩ := enat_add_eq_coe hc
      obtain ⟨h0, h1⟩ := source_score ht hs
      have hle := cm i j (by omega) hj (by rw [h1]; exact hm) h0
      obtain ⟨w, hw, hlo, hhi, _⟩ := wavefront_offset_at_reachable (le_trans (by omega) hle)
      have hmax := le_max_left (wavefront_offset_at m_gap ((j : Int) - (i : Int)))
        (wavefront_offset_at d_ext ((j : Int) - (i : Int)))
      constructor
      · omega
      · refine ⟨w, ?_, by push_cast; omega, by push_cast; omega⟩
        rw [hw]; simp
    · rw [h] at hc
      obtain ⟨m, hm, hs⟩ := enat_add_eq_coe hc
      obtain ⟨h0, h1⟩ := source_score ht hs
      have hle := cd i j (by omega) hj (by rw [h1]; exact hm) h0
      obtain ⟨w, hw, hlo, hhi, _⟩ := wavefront_offset_at_reachable (le_trans (by omega) hle)
      have hmax := le_max_right (wavefront_offset_at m_gap ((j : Int) - (i : Int)))
        (wavefront_offset_at d_ext ((j : Int) - (i : Int)))
      constructor
      · omega
      · refine ⟨w, ?_, by push_cast; omega, by push_cast; omega⟩
        rw [hw]; simp

/-- Membership in the seven contributors of a two-piece set. -/
theorem mem_contributors2p {m_misms m_gap1 m_gap2 i1_ext i2_ext d1_ext d2_ext c :
    Option wavefront_t}
    (h : c = m_misms ∨ c = m_gap1 ∨ c = m_gap2 ∨ c = i1_ext ∨ c = i2_ext ∨ c = d1_ext ∨
      c = d2_ext) :
    c ∈ [m_misms, m_gap1, m_gap2, i1_ext, i2_ext, d1_ext, d2_ext] := by
  simp only [List.mem_cons, List.mem_singleton, List.not_mem_nil, or_false]
  exact h

theorem mem_pair {a b c : Option wavefront_t} (h : c ∈ [a, b]) : c = a ∨ c = b := by
  simpa using h

/-- On a diagonal next to the range of a contributor, the computed two-piece match
wavefront holds the match offset of the recurrence. -/
theorem compute2p_set_m_offset
    {m_misms m_gap1 m_gap2 i1_ext i2_ext d1_ext d2_ext : Option wavefront_t}
    {w : wavefront_t} {k : Int}
    (hw : some w ∈ [m_misms, m_gap1, m_gap2, i1_ext, i2_ext, d1_ext, d2_ext])
    (hlo : w.lo - 1 ≤ k) (hhi : k ≤ w.hi + 1) :
    wavefront_offset_at
      (wavefront_compute_affine2p_set m_misms m_gap1 m_gap2 i1_ext i2_ext d1_ext d2_ext).mwavefront
      k = affine2p_mat m_misms m_gap1 m_gap2 i1_ext i2_ext d1_ext d2_ext k := by
  obtain ⟨lo, hi, hr, h1, h2⟩ := compute_range_covers hw
  unfold wavefront_compute_affine2p_set
  rw [hr]
  simp only []
  rw [wavefront_offset_at_some _ _ (by simp only []; omega) (by simp only []; omega)]

/-- The gap wavefronts of a computed two-piece set hold the gap offsets of the
recurrence next to the range of their contributors. -/
theorem compute2p_set_gap_offset
    {m_misms m_gap1 m_gap2 i1_ext i2_ext d1_ext d2_ext : Option wavefront_t}
    {w : wavefront_t} {k : Int} (hlo : w.lo - 1 ≤ k) (hhi : k ≤ w.hi + 1) :
    (some w ∈ [m_gap1, i1_ext] →
      wavefront_offset_at
        (wavefront_compute_affine2p_set m_misms m_gap1 m_gap2 i1_ext i2_ext d1_ext
          d2_ext).i1wavefront k = affine_ins m_gap1 i1_ext k) ∧
    (some w ∈ [m_gap2, i2_ext] →
      wavefront_offset_at
        (wavefront_compute_affine2p_set m_misms m_gap1 m_gap2 i1_ext i2_ext d1_ext
          d2_ext).i2wavefront k = affine_ins m_gap2 i2_ext k) ∧
    (some w ∈ [m_gap1, d1_ext] →
      wavefront_offset_at
        (wavefront_compute_affine2p_set m_misms m_gap1 m_gap2 i1_ext i2_ext d1_ext
          d2_ext).d1wavefront k = affine_del m_gap1 d1_ext k) ∧
    (some w ∈ [m_gap2, d2_ext] →
      wavefront_offset_at
        (wavefront_compute_affine2p_set m_misms m_gap1 m_gap2 i1_ext i2_ext d1_ext
          d2_ext).d2wavefront k = affine_del m_gap2 d2_ext k) := by
  have key : ∀ a b : Option wavefront_t, some w ∈ [a, b] →
      (a = m_gap1 ∨ a = m_gap2) →
      (b = i1_ext ∨ b = i2_ext ∨ b = d1_ext ∨ b = d2_ext) →
      (∃ lo hi, compute_range [m_misms, m_gap1, m_gap2, i1_ext, i2_ext, d1_ext, d2_ext]
          = some (lo, hi) ∧ lo ≤ w.lo - 1 ∧ w.hi + 1 ≤ hi) ∧
        (a.isSome || b.isSome) = true := by
    intro a b hab ha hb
    have hw' : some w ∈ [m_misms, m_gap1, m_gap2, i1_ext, i2_ext, d1_ext, d2_ext] := by
      apply mem_contributors2p
      rcases mem_pair hab with h | h
      · rcases ha with ha | ha
        · right; left; rw [h, ha]
        · right; right; left; rw [h, ha]
      · rcases hb with hb | hb | hb | hb
        · right; right; right; left; rw [h, hb]
        · right; right; right; right; left; rw [h, hb]
        · right; right; right; right; right; left; rw [h, hb]
        · right; right; right; right; right; right; rw [h, hb]
    refine ⟨compute_range_covers hw', ?_⟩
    rcases mem_pair hab with h | h <;> simp [← h]
  refine ⟨?_, ?_, ?_, ?_⟩
  · intro hw
    obtain ⟨⟨lo, hi, hr, h1, h2⟩, hg⟩ := key _ _ hw (Or.inl rfl) (Or.inl rfl)
    unfold wavefront_compute_affine2p_set
    rw [hr]
    simp only [hg, if_true]
    rw [wavefront_offset_at_some _ _ (by simp only []; omega) (by simp only []; omega)]
  · intro hw
    obtain ⟨⟨lo, hi, hr, h1, h2⟩, hg⟩ := key _ _ hw (Or.inr rfl) (Or.inr (Or.inl rfl))
    unfold wavefront_compute_affine2p_set
    rw [hr]
    simp only [hg, if_true]
    rw [wavefront_offset_at_some _ _ (by simp only []; omega) (by simp only []; omega)]
  · intro hw
    obtain ⟨⟨lo, hi, hr, h1, h2⟩, hg⟩ := key _ _ hw (Or.inl rfl) (Or.inr (Or.inr (Or.inl rfl)))
    unfold wavefront_compute_affine2p_set
    rw [hr]
    simp only [hg, if_true]
    rw [wavefront_offset_at_some _ _ (by simp only []; omega) (by simp only []; omega)]
  · intro hw
    obtain ⟨⟨lo, hi, hr, h1, h2⟩, hg⟩ := key _ _ hw (Or.inr rfl) (Or.inr (Or.inr (Or.inr rfl)))
    unfold wavefront_compute_affine2p_set
    rw [hr]
    simp only [hg, if_true]
    rw [wavefront_offset_at_some _ _ (by simp only []; omega) (by simp only []; omega)]

/-- The two-piece match offsets of the recurrence reach every cell whose cost is the
score and that is not a match continuing a cell of that score; a contributor lies
next to its diagonal. -/
theorem affine2p_mat_complete_pre {P : affine2p_problem_t} {t : Int}
    {m_misms m_gap1 m_gap2 i1_ext i2_ext d1_ext d2_ext : Option wavefront_t}
    (cx : wavefront_complete2p P component2p_t.M (t - (P.penalties.mismatch : Nat)) m_misms)
    (cm1 : wavefront_complete2p P component2p_t.M
      (t - ((P.penalties.gap_opening1 + P.penalties.gap_extension1 : Nat) : Int)) m_gap1)
    (cm2 : wavefront_complete2p P component2p_t.M
      (t - ((P.penalties.gap_opening2 + P.penalties.gap_extension2 : Nat) : Int)) m_gap2)
    (ci1 : wavefront_complete2p P (component2p_t.I false)
      (t - (P.penalties.gap_extension1 : Int)) i1_ext)
    (ci2 : wavefront_complete2p P (component2p_t.I true)
      (t - (P.penalties.gap_extension2 : Int)) i2_ext)
    (cd1 : wavefront_complete2p P (component2p_t.D false)
      (t - (P.penalties.gap_extension1 : Int)) d1_ext)
    (cd2 : wavefront_complete2p P (component2p_t.D true)
      (t - (P.penalties.gap_extension2 : Int)) d2_ext)
    (ht : 0 < t)
    (i j : Nat) (hi : i ≤ P.pattern_length) (hj : j ≤ P.text_length)
    (hc : (P.table i j).m = ((t.toNat : Nat) : ℕ∞))
    (hnm : ∀ i' j' : Nat, i = i' + 1 → j = j' + 1 → P.pattern i' = P.text j' →
      (P.table i' j').m ≠ ((t.toNat : Nat) : ℕ∞)) :
    (j : Int) ≤ affine2p_mat m_misms m_gap1 m_gap2 i1_ext i2_ext d1_ext d2_ext
      ((j : Int) - (i : Int)) ∧
    ∃ w, some w ∈ [m_misms, m_gap1, m_gap2, i1_ext, i2_ext, d1_ext, d2_ext] ∧
      w.lo - 1 ≤ (j : Int) - (i : Int) ∧ (j : Int) - (i : Int) ≤ w.hi + 1 := by
  have hi1 : ∀ k, affine_ins m_gap1 i1_ext k
      ≤ affine2p_mat m_misms m_gap1 m_gap2 i1_ext i2_ext d1_ext d2_ext k :=
    fun k => le_trans (le_max_left _ _) (le_trans (le_max_left _ _) (le_max_right _ _))
  have hi2 : ∀ k, affine_ins m_gap2 i2_ext k
      ≤ affine2p_mat m_misms m_gap1 m_gap2 i1_ext i2_ext d1_ext d2_ext k :=
    fun k => le_trans (le_max_right _ _) (le_trans (le_max_left _ _) (le_max_right _ _))
  have hd1 : ∀ k, affine_del m_gap1 d1_ext k
      ≤ affine2p_mat m_misms m_gap1 m_gap2 i1_ext i2_ext d1_ext d2_ext k :=
    fun k => le_trans (le_max_left _ _) (le_trans (le_max_right _ _) (le_max_right _ _))
  have hd2 : ∀ k, affine_del m_gap2 d2_ext k
      ≤ affine2p_mat m_misms m_gap1 m_gap2 i1_ext i2_ext d1_ext d2_ext k :=
    fun k => le_trans (le_max_right _ _) (le_trans (le_max_right _ _) (le_max_right _ _))
  rcases table2p_m_cases P i j _ hc with h | ⟨p, h⟩ | ⟨p, h⟩ | ⟨i', j', rfl, rfl, h⟩
  · omega
  · cases p
    · obtain ⟨h1, w, hw, hlo, hhi⟩ :=
        affine_ins_complete2p false cm1 ci1 i j hi hj h (le_of_lt ht)
      refine ⟨le_trans h1 (hi1 _), w, mem_contributors2p ?_, hlo, hhi⟩
      rcases mem_pair hw with h' | h' <;> simp [h']
    · obtain ⟨h1, w, hw, hlo, hhi⟩ :=
        affine_ins_complete2p true cm2 ci2 i j hi hj h (le_of_lt ht)
      refine ⟨le_trans h1 (hi2 _), w, mem_contributors2p ?_, hlo, hhi⟩
      rcases mem_pair hw with h' | h' <;> simp [h']
  · cases p
    · obtain ⟨h1, w, hw, hlo, hhi⟩ :=
        affine_del_complete2p false cm1 cd1 i j hi hj h (le_of_lt ht)
      refine ⟨le_trans h1 (hd1 _), w, mem_contributors2p ?_, hlo, hhi⟩
      rcases mem_pair hw with h' | h' <;> simp [h']
    · obtain ⟨h1, w, hw, hlo, hhi⟩ :=
        affine_del_complete2p true cm2 cd2 i j hi hj h (le_of_lt ht)
      refine ⟨le_trans h1 (hd2 _), w, mem_contributors2p ?_, hlo, hhi⟩
      rcases mem_pair hw with h' | h' <;> simp [h']
  · by_cases hsym : P.pattern i' = P.text j'
    · rw [if_pos hsym] at h
      exact absurd (by simpa using h) (hnm i' j' rfl rfl hsym)
    · rw [if_neg hsym] at h
      obtain ⟨m, hm, hs⟩ := enat_add_eq_coe h
      obtain ⟨h0, h1⟩ := source_score (le_of_lt ht) hs
      have hle := cx i' j' (by omega) (by omega) (by rw [h1]; exact hm) h0
      have ek : ((j' + 1 : Nat) : Int) - ((i' + 1 : Nat) : Int) = (j' : Int) - (i' : Int) := by
        push_cast; ring
      rw [ek]
      obtain ⟨w, hw, hlo, hhi, _⟩ := wavefront_offset_at_reachable (le_trans (by omega) hle)
      constructor
      · unfold affine2p_mat
        refine le_trans ?_ (le_max_left _ _)
        rw [offset_shift_of_nonneg (by omega)]
        push_cast
        omega
      · refine ⟨w, mem_contributors2p (Or.inl hw.symm), by omega, by omega⟩

/-- The two-piece wavefront set computed from complete wavefronts is complete, the
match wavefront up to the matches its extension will add. -/
theorem compute2p_set_complete {P : affine2p_problem_t} {t : Int}
    {m_misms m_gap1 m_gap2 i1_ext i2_ext d1_ext d2_ext : Option wavefront_t}
    (cx : wavefront_complete2p P component2p_t.M (t - (P.penalties.mismatch : Nat)) m_misms)
    (cm1 : wavefront_complete2p P component2p_t.M
      (t - ((P.penalties.gap_opening1 + P.penalties.gap_extension1 : Nat) : Int)) m_gap1)
    (cm2 : wavefront_complete2p P component2p_t.M
      (t - ((P.penalties.gap_opening2 + P.penalties.gap_extension2 : Nat) : Int)) m_gap2)
    (ci1 : wavefront_complete2p P (component2p_t.I false)
      (t - (P.penalties.gap_extension1 : Int)) i1_ext)
    (ci2 : wavefront_complete2p P (component2p_t.I true)
      (t - (P.penalties.gap_extension2 : Int)) i2_ext)
    (cd1 : wavefront_complete2p P (component2p_t.D false)
      (t - (P.penalties.gap_extension1 : Int)) d1_ext)
    (cd2 : wavefront_complete2p P (component2p_t.D true)
      (t - (P.penalties.gap_extension2 : Int)) d2_ext)
    (ht : 0 < t) :
    set2p_complete_pre P t
      (wavefront_compute_affine2p_set m_misms m_gap1 m_gap2 i1_ext i2_ext d1_ext d2_ext) := by
  refine ⟨?_, ?_⟩
  · intro i j hi hj hc _ hnm
    obtain ⟨h1, w, hw, hlo, hhi⟩ :=
      affine2p_mat_complete_pre cx cm1 cm2 ci1 ci2 cd1 cd2 ht i j hi hj hc hnm
    rw [compute2p_set_m_offset hw hlo hhi]
    exact h1
  · intro p
    cases p
    · constructor
      · intro i j hi hj hc ht'
        obtain ⟨h1, w, hw, hlo, hhi⟩ :=
          affine_ins_complete2p false cm1 ci1 i j hi hj hc ht'
        show _ ≤ wavefront_offset_at (wavefront_compute_affine2p_set m_misms m_gap1 m_gap2
          i1_ext i2_ext d1_ext d2_ext).i1wavefront _
        rw [(compute2p_set_gap_offset hlo hhi).1 hw]
        exact h1
      · intro i j hi hj hc ht'
        obtain ⟨h1, w, hw, hlo, hhi⟩ :=
          affine_del_complete2p false cm1 cd1 i j hi hj hc ht'
        show _ ≤ wavefront_offset_at (wavefront_compute_affine2p_set m_misms m_gap1 m_gap2
          i1_ext i2_ext d1_ext d2_ext).d1wavefront _
        rw [(compute2p_set_gap_offset hlo hhi).2.2.1 hw]
        exact h1
    · constructor
      · intro i j hi hj hc ht'
        obtain ⟨h1, w, hw, hlo, hhi⟩ :=
          affine_ins_complete2p true cm2 ci2 i j hi hj hc ht'
        show _ ≤ wavefront_offset_at (wavefront_compute_affine2p_set m_misms m_gap1 m_gap2
          i1_ext i2_ext d1_ext d2_ext).i2wavefront _
        rw [(compute2p_set_gap_offset hlo hhi).2.1 hw]
        exact h1
      · intro i j hi hj hc ht'
        obtain ⟨h1, w, hw, hlo, hhi⟩ :=
          affine_del_complete2p true cm2 cd2 i j hi hj hc ht'
        show _ ≤ wavefront_offset_at (wavefront_compute_affine2p_set m_misms m_gap1 m_gap2
          i1_ext i2_ext d1_ext d2_ext).d2wavefront _
        rw [(compute2p_set_gap_offset hlo hhi).2.2.2 hw]
        exact h1

/-! ## Soundness and completeness of the extended two-piece match wavefront -/

/-- The extension of a sound match cell of the two-piece model is sound. -/
theorem extend_offset_sound2p {P : affine2p_problem_t} {s : Nat} (k : Int) :
    ∀ (fuel : Nat) (offset : Int), cell_sound2p P component2p_t.M s (offset - k) offset →
      cell_sound2p P component2p_t.M s
        (extend_offset P.pattern P.pattern_length P.text P.text_length k fuel offset - k)
        (extend_offset P.pattern P.pattern_length P.text P.text_length k fuel offset) := by
  intro fuel
  induction fuel with
  | zero => intro offset hs; exact hs
  | succ fuel ih =>
    intro offset hs
    rw [extend_offset]
    split_ifs with hcond
    · apply ih
      have h1 := cell_sound2p_match hs hcond.2.1 hcond.2.2.2.1 hcond.2.2.2.2
      have e : offset - k + 1 = offset + 1 - k := by ring
      rw [e] at h1
      exact h1
    · exact hs

/-- The extension keeps a two-piece match wavefront sound. -/
theorem extend_sound2p {P : affine2p_problem_t} {t : Int} {w : Option wavefront_t}
    (hs : wavefront_sound2p P component2p_t.M t w) :
    wavefront_sound2p P component2p_t.M t
      (w.map (wavefront_extend_wavefront P.pattern P.pattern_length P.text P.text_length)) := by
  intro k hk
  have h0 := wavefront_offset_at_extend_nonneg _ _ _ _ w k hk
  obtain ⟨ht, hc⟩ := hs k h0
  rw [wavefront_offset_at_extend _ _ _ _ w k h0]
  exact ⟨ht, extend_offset_sound2p k _ _ hc⟩

/-- The extension completes a two-piece match wavefront. -/
theorem extend_complete2p {P : affine2p_problem_t} {t : Int} {w : Option wavefront_t}
    (hp : wavefront_complete2p_pre P t w) :
    wavefront_complete2p P component2p_t.M t
      (w.map (wavefront_extend_wavefront P.pattern P.pattern_length P.text P.text_length)) := by
  intro i
  induction i with
  | zero =>
    intro j hi hj hc ht
    have h1 := hp 0 j hi hj hc ht (by intro i' j' h; omega)
    have h0 : 0 ≤ wavefront_offset_at w ((j : Int) - ((0 : Nat) : Int)) := le_trans (by omega) h1
    rw [wavefront_offset_at_extend _ _ _ _ w _ h0]
    exact le_trans h1 (extend_offset_ge _ _ _ _ _ _ _)
  | succ i ih =>
    intro j hi hj hc ht
    by_cases hvia : ∃ j' : Nat, j = j' + 1 ∧ P.pattern i = P.text j' ∧
        (P.table i j').m = ((t.toNat : Nat) : ℕ∞)
    · obtain ⟨j', rfl, hsym, hc'⟩ := hvia
      have h1 := ih j' (by omega) (by omega) hc' ht
      have ek : ((j' + 1 : Nat) : Int) - ((i + 1 : Nat) : Int) = (j' : Int) - (i : Int) := by
        push_cast; ring
      rw [ek]
      by_contra hlt
      have hr : wavefront_offset_at (w.map (wavefront_extend_wavefront P.pattern
          P.pattern_length P.text P.text_length)) ((j' : Int) - (i : Int)) = j' := by
        push_cast at hlt
        omega
      have h0 := wavefront_offset_at_extend_nonneg _ _ _ _ w _ (by rw [hr]; omega)
      rw [wavefront_offset_at_extend _ _ _ _ w _ h0] at hr
      have hmax := extend_offset_maximal P.pattern P.pattern_length P.text P.text_length
        ((j' : Int) - (i : Int))
        ((P.text_length : Int) - wavefront_offset_at w ((j' : Int) - (i : Int))).toNat
        (wavefront_offset_at w ((j' : Int) - (i : Int))) (le_refl _)
      rw [hr] at hmax
      apply hmax
      have e : (j' : Int) - ((j' : Int) - (i : Int)) = i := by ring
      rw [e]
      exact ⟨by omega, by omega, by omega, by omega, hsym⟩
    · have h1 := hp (i + 1) j hi hj hc ht (by
        intro i' j' hi' hj' hsym hc'
        have : i' = i := by omega
        subst this
        exact hvia ⟨j', hj', hsym, hc'⟩)
      have h0 : 0 ≤ wavefront_offset_at w ((j : Int) - ((i + 1 : Nat) : Int)) :=
        le_trans (by omega) h1
      rw [wavefront_offset_at_extend _ _ _ _ w _ h0]
      exact le_trans h1 (extend_offset_ge _ _ _ _ _ _ _)

/-! ## The two-piece history of wavefronts along the loop -/

theorem extend_spec_gaps2 {σ β : Type} (a : wavefront_aligner_t σ β)
    (pattern : Int → Char) (pl : Int) (text : Int → Char) (tl : Int) (score : Int) :
    (wavefront_extend_spec a pattern pl text tl score).i2wavefronts = a.i2wavefronts ∧
    (wavefront_extend_spec a pattern pl text tl score).d2wavefronts = a.d2wavefronts := by
  unfold wavefront_extend_spec
  cases a.mwavefronts (score_slot a score) <;> exact ⟨rfl, rfl⟩

/-- The two-piece set of another live score is untouched by the extend. -/
theorem extend_spec_retained_set2p_ne {σ β : Type} (a : wavefront_aligner_t σ β)
    (pattern : Int → Char) (pl : Int) (text : Int → Char) (tl : Int) (s t : Int)
    (hne : score_slot a t ≠ score_slot a s) :
    retained_set2p (wavefront_extend_spec a pattern pl text tl s) t = retained_set2p a t := by
  have hc := extend_spec_config a pattern pl text tl s
  have hslot := score_slot_congr hc.2.1 hc.2.2.1 t
  unfold retained_set2p
  rw [hslot, extend_spec_mwavefronts, (extend_spec_gaps a pattern pl text tl s).1,
    (extend_spec_gaps a pattern pl text tl s).2.1, (extend_spec_gaps2 a pattern pl text tl s).1,
    (extend_spec_gaps2 a pattern pl text tl s).2, Function.update_noteq hne]

/-- The two-piece set of the extended score: its match wavefront is extended. -/
theorem extend_spec_retained_set2p_eq {σ β : Type} (a : wavefront_aligner_t σ β)
    (pattern : Int → Char) (pl : Int) (text : Int → Char) (tl : Int) (s : Int) :
    retained_set2p (wavefront_extend_spec a pattern pl text tl s) s
      = { mwavefront := (retained_set2p a s).mwavefront.map
            (wavefront_extend_wavefront pattern pl text tl)
          i1wavefront := (retained_set2p a s).i1wavefront
          d1wavefront := (retained_set2p a s).d1wavefront
          i2wavefront := (retained_set2p a s).i2wavefront
          d2wavefront := (retained_set2p a s).d2wavefront } := by
  have hc := extend_spec_config a pattern pl text tl s
  have hslot := score_slot_congr hc.2.1 hc.2.2.1 s
  unfold retained_set2p
  rw [hslot, extend_spec_mwavefronts, (extend_spec_gaps a pattern pl text tl s).1,
    (extend_spec_gaps a pattern pl text tl s).2.1, (extend_spec_gaps2 a pattern pl text tl s).1,
    (extend_spec_gaps2 a pattern pl text tl s).2, Function.update_same]

/-- The extend of score `s` turns a computed two-piece history into an extended one. -/
theorem history2p_extended_of_computed {σ β : Type} (P : affine2p_problem_t)
    (a : wavefront_aligner_t σ β) (s : Nat) (h : history2p_computed P a s) :
    history2p_extended P
      (wavefront_extend_spec a P.pattern P.pattern_length P.text P.text_length s) s := by
  have hc := extend_spec_config a P.pattern P.pattern_length P.text P.text_length s
  intro t ht
  rw [retained_congr hc.2.1 hc.2.2.1] at ht
  by_cases hts : t = s
  · subst hts
    rw [extend_spec_retained_set2p_eq]
    obtain ⟨_, hsound, hpre⟩ := h
    constructor
    · intro X
      cases X with
      | M => exact extend_sound2p (hsound component2p_t.M)
      | I p => exact hsound (component2p_t.I p)
      | D p => exact hsound (component2p_t.D p)
    · intro X
      cases X with
      | M => exact extend_complete2p hpre.1
      | I p => exact (hpre.2 p).1
      | D p => exact (hpre.2 p).2
  · have hlt : t < s := lt_of_le_of_ne ht.1 hts
    rw [extend_spec_retained_set2p_ne]
    · exact h.1 t hlt ht
    · apply score_slot_ne a t s hts
      intro hm
      have := ht.2 hm
      constructor <;> omega

/-- The two-piece set of another live score is untouched by the compute. -/
theorem compute2p_spec_retained_set_ne {σ β : Type} (pen : affine2p_penalties_t)
    (a : wavefront_aligner_t σ β) (pattern : Int → Char) (pl : Int) (text : Int → Char)
    (tl : Int) (s t : Int) (hne : score_slot a t ≠ score_slot a s) :
    retained_set2p (wavefront_compute_affine2p_spec pen a pattern pl text tl s) t
      = retained_set2p a t := by
  have hslot : score_slot (wavefront_compute_affine2p_spec pen a pattern pl text tl s) t
      = score_slot a t := score_slot_congr rfl rfl t
  unfold retained_set2p
  rw [hslot]
  simp only [wavefront_compute_affine2p_spec, Function.update_noteq hne]

/-- The two-piece set of the computed score is the set of the recurrence. -/
theorem compute2p_spec_retained_set_eq {σ β : Type} (pen : affine2p_penalties_t)
    (a : wavefront_aligner_t σ β) (pattern : Int → Char) (pl : Int) (text : Int → Char)
    (tl : Int) (s : Int) :
    retained_set2p (wavefront_compute_affine2p_spec pen a pattern pl text tl s) s
      = wavefront_compute_affine2p_set
          (history_at a a.mwavefronts (s - (pen.mismatch : Nat)))
          (history_at a a.mwavefronts (s - (pen.gap_opening1 + pen.gap_extension1 : Nat)))
          (history_at a a.mwavefronts (s - (pen.gap_opening2 + pen.gap_extension2 : Nat)))
          (history_at a a.i1wavefronts (s - (pen.gap_extension1 : Nat)))
          (history_at a a.i2wavefronts (s - (pen.gap_extension2 : Nat)))
          (history_at a a.d1wavefronts (s - (pen.gap_extension1 : Nat)))
          (history_at a a.d2wavefronts (s - (pen.gap_extension2 : Nat))) := by
  have hslot : score_slot (wavefront_compute_affine2p_spec pen a pattern pl text tl s) s
      = score_slot a s := score_slot_congr rfl rfl s
  unfold retained_set2p
  rw [hslot]
  simp only [wavefront_compute_affine2p_spec, Function.update_same, Nat.cast_add]

/-- The wavefronts a two-piece compute reads are sound and complete. -/
theorem history2p_at_extended {σ β : Type} (P : affine2p_problem_t)
    (a : wavefront_aligner_t σ β) (s : Nat) (h : history2p_extended P a s)
    (hW : scope2p_covers P.penalties a) (c : Nat) (hc0 : 0 < c)
    (hc : c ≤ max P.penalties.mismatch
      (max (P.penalties.gap_opening1 + P.penalties.gap_extension1)
        (P.penalties.gap_opening2 + P.penalties.gap_extension2))) :
    set2p_sound P ((s : Int) + 1 - (c : Int))
      { mwavefront := history_at a a.mwavefronts ((s : Int) + 1 - (c : Int))
        i1wavefront := history_at a a.i1wavefronts ((s : Int) + 1 - (c : Int))
        d1wavefront := history_at a a.d1wavefronts ((s : Int) + 1 - (c : Int))
        i2wavefront := history_at a a.i2wavefronts ((s : Int) + 1 - (c : Int))
        d2wavefront := history_at a a.d2wavefronts ((s : Int) + 1 - (c : Int)) } ∧
    set2p_complete P ((s : Int) + 1 - (c : Int))
      { mwavefront := history_at a a.mwavefronts ((s : Int) + 1 - (c : Int))
        i1wavefront := history_at a a.i1wavefronts ((s : Int) + 1 - (c : Int))
        d1wavefront := history_at a a.d1wavefronts ((s : Int) + 1 - (c : Int))
        i2wavefront := history_at a a.i2wavefronts ((s : Int) + 1 - (c : Int))
        d2wavefront := history_at a a.d2wavefronts ((s : Int) + 1 - (c : Int)) } := by
  by_cases hneg : (s : Int) + 1 - (c : Int) < 0
  · simp only [history_at, if_pos hneg]
    constructor
    · intro X
      cases X with
      | M => exact wavefront_sound2p_none _ _ _
      | I p => cases p <;> exact wavefront_sound2p_none _ _ _
      | D p => cases p <;> exact wavefront_sound2p_none _ _ _
    · intro X i j _ _ _ h0
      omega
  · obtain ⟨n, hn⟩ : ∃ n : Nat, (s : Int) + 1 - (c : Int) = (n : Int) :=
      ⟨((s : Int) + 1 - (c : Int)).toNat, by omega⟩
    have hret : retained a s n := by
      refine ⟨by omega, ?_⟩
      intro hm
      have := hW hm
      have hc' : (c : Int) ≤ ((max P.penalties.mismatch
          (max (P.penalties.gap_opening1 + P.penalties.gap_extension1)
            (P.penalties.gap_opening2 + P.penalties.gap_extension2)) : Nat) : Int) := by
        exact_mod_cast hc
      omega
    simp only [history_at, if_neg hneg]
    rw [hn]
    exact h n hret

/-- The two-piece compute of score `s + 1` turns an extended history into a
computed one. -/
theorem history2p_computed_succ {σ β : Type} (P : affine2p_problem_t)
    (a : wavefront_aligner_t σ β) (s : Nat) (h : history2p_extended P a s)
    (hW : scope2p_covers P.penalties a)
    (hx : 0 < P.penalties.mismatch) (he1 : 0 < P.penalties.gap_extension1)
    (he2 : 0 < P.penalties.gap_extension2)
    (pattern : Int → Char) (pl : Int) (text : Int → Char) (tl : Int) :
    history2p_computed P
      (wavefront_compute_affine2p_spec P.penalties a pattern pl text tl ((s : Int) + 1))
      (s + 1) := by
  have ecast : ((s + 1 : Nat) : Int) = (s : Int) + 1 := by push_cast; ring
  refine ⟨?_, ?_⟩
  · intro t hlt ht
    have ht' : retained a (s + 1) t := ht
    rw [← ecast, compute2p_spec_retained_set_ne]
    · apply h t
      refine ⟨by omega, ?_⟩
      intro hm
      have := ht'.2 hm
      omega
    · apply score_slot_ne a t (s + 1) (by omega)
      intro hm
      have := ht'.2 hm
      constructor <;> omega
  · rw [ecast, compute2p_spec_retained_set_eq]
    have hmax1 : P.penalties.mismatch ≤ max P.penalties.mismatch
        (max (P.penalties.gap_opening1 + P.penalties.gap_extension1)
          (P.penalties.gap_opening2 + P.penalties.gap_extension2)) := le_max_left _ _
    have hmax2 : P.penalties.gap_opening1 + P.penalties.gap_extension1
        ≤ max P.penalties.mismatch
          (max (P.penalties.gap_opening1 + P.penalties.gap_extension1)
            (P.penalties.gap_opening2 + P.penalties.gap_extension2)) :=
      le_trans (le_max_left _ _) (le_max_right _ _)
    have hmax3 : P.penalties.gap_opening2 + P.penalties.gap_extension2
        ≤ max P.penalties.mismatch
          (max (P.penalties.gap_opening1 + P.penalties.gap_extension1)
            (P.penalties.gap_opening2 + P.penalties.gap_extension2)) :=
      le_trans (le_max_right _ _) (le_max_right _ _)
    obtain ⟨sx, cx⟩ := history2p_at_extended P a s h hW P.penalties.mismatch hx hmax1
    obtain ⟨sm1, cm1⟩ := history2p_at_extended P a s h hW
      (P.penalties.gap_opening1 + P.penalties.gap_extension1) (by omega) hmax2
    obtain ⟨sm2, cm2⟩ := history2p_at_extended P a s h hW
      (P.penalties.gap_opening2 + P.penalties.gap_extension2) (by omega) hmax3
    obtain ⟨se1, ce1⟩ := history2p_at_extended P a s h hW P.penalties.gap_extension1 he1
      (by omega)
    obtain ⟨se2, ce2⟩ := history2p_at_extended P a s h hW P.penalties.gap_extension2 he2
      (by omega)
    exact ⟨compute2p_set_sound (sx component2p_t.M) (sm1 component2p_t.M)
        (sm2 component2p_t.M) (se1 (component2p_t.I false)) (se2 (component2p_t.I true))
        (se1 (component2p_t.D false)) (se2 (component2p_t.D true)),
      compute2p_set_complete (cx component2p_t.M) (cm1 component2p_t.M)
        (cm2 component2p_t.M) (ce1 (component2p_t.I false)) (ce2 (component2p_t.I true))
        (ce1 (component2p_t.D false)) (ce2 (component2p_t.D true)) (by omega)⟩


/-- With positive gap-extend penalties no two-piece insertion costs 0. -/
theorem table2p_ins_ne_zero (P : affine2p_problem_t)
    (he1 : 0 < P.penalties.gap_extension1) (he2 : 0 < P.penalties.gap_extension2)
    (p : Bool) (i j : Nat) : (P.table i j).ins p ≠ ((0 : Nat) : ℕ∞) := by
  have hp : 0 < (P.penalties.piece p).gap_extension := by
    cases p
    · exact he1
    · exact he2
  cases j with
  | zero => rw [table2p_ins_zero]; exact ENat.top_ne_coe _
  | succ j =>
    rw [table2p_ins_succ]
    intro h
    rcases min_choice ((P.table i j).m +
        (((P.penalties.piece p).gap_opening + (P.penalties.piece p).gap_extension : Nat) : ℕ∞))
      ((P.table i j).ins p + ((P.penalties.piece p).gap_extension : ℕ∞)) with h' | h'
    · rw [h'] at h
      obtain ⟨m, _, hs⟩ := enat_add_eq_coe h
      omega
    · rw [h'] at h
      obtain ⟨m, _, hs⟩ := enat_add_eq_coe h
      omega

/-- With positive gap-extend penalties no two-piece deletion costs 0. -/
theorem table2p_del_ne_zero (P : affine2p_problem_t)
    (he1 : 0 < P.penalties.gap_extension1) (he2 : 0 < P.penalties.gap_extension2)
    (p : Bool) (i j : Nat) : (P.table i j).del p ≠ ((0 : Nat) : ℕ∞) := by
  have hp : 0 < (P.penalties.piece p).gap_extension := by
    cases p
    · exact he1
    · exact he2
  cases i with
  | zero => rw [table2p_del_zero]; exact ENat.top_ne_coe _
  | succ i =>
    rw [table2p_del_succ]
    intro h
    rcases min_choice ((P.table i j).m +
        (((P.penalties.piece p).gap_opening + (P.penalties.piece p).gap_extension : Nat) : ℕ∞))
      ((P.table i j).del p + ((P.penalties.piece p).gap_extension : ℕ∞)) with h' | h'
    · rw [h'] at h
      obtain ⟨m, _, hs⟩ := enat_add_eq_coe h
      omega
    · rw [h'] at h
      obtain ⟨m, _, hs⟩ := enat_add_eq_coe h
      omega

/-- With positive penalties, a two-piece cell of cost 0 other than the origin is a
match continuing a cell of cost 0. -/
theorem table2p_m_zero_origin (P : affine2p_problem_t)
    (hx : 0 < P.penalties.mismatch)
    (he1 : 0 < P.penalties.gap_extension1) (he2 : 0 < P.penalties.gap_extension2)
    (i j : Nat) (hc : (P.table i j).m = ((0 : Nat) : ℕ∞))
    (hnm : ∀ i' j' : Nat, i = i' + 1 → j = j' + 1 → P.pattern i' = P.text j' →
      (P.table i' j').m ≠ ((0 : Nat) : ℕ∞)) :
    i = 0 ∧ j = 0 := by
  rcases table2p_m_cases P i j 0 hc with h | ⟨p, h⟩ | ⟨p, h⟩ | ⟨i', j', hi, hj, h⟩
  · exact ⟨h.1, h.2.1⟩
  · exact absurd h (table2p_ins_ne_zero P he1 he2 p i j)
  · exact absurd h (table2p_del_ne_zero P he1 he2 p i j)
  · by_cases hsym : P.pattern i' = P.text j'
    · rw [if_pos hsym] at h
      exact absurd (by simpa using h) (hnm i' j' hi hj hsym)
    · rw [if_neg hsym] at h
      obtain ⟨m, _, hs⟩ := enat_add_eq_coe h
      omega

/-- For the two-piece metric the initial conditions null the score-0 gap wavefronts
of both profiles. -/
theorem initialize_gaps2p_null {σ β : Type} (K : kernels_t σ β) (w : world_t σ β)
    (hd : w.aligner.distance_metric = distance_metric_t.gap_affine_2p) :
    ( wavefront_align_global_initialize K w).aligner.i1wavefronts 0 = none ∧
    ( wavefront_align_global_initialize K w).aligner.d1wavefronts 0 = none ∧
    ( wavefront_align_global_initialize K w).aligner.i2wavefronts 0 = none ∧
    ( wavefront_align_global_initialize K w).aligner.d2wavefronts 0 = none ∧
    ( wavefront_align_global_initialize K w).aligner.distance_metric
      = w.aligner.distance_metric := by
  unfold wavefront_align_global_initialize
  simp [hd]

/-- The history the initial conditions leave is a computed two-piece history of
score 0. -/
theorem history2p_computed_initialize {σ β : Type} (P : affine2p_problem_t)
    (K : kernels_t σ β) (w : world_t σ β)
    (hd : w.aligner.distance_metric = distance_metric_t.gap_affine_2p)
    (hx : 0 < P.penalties.mismatch)
    (he1 : 0 < P.penalties.gap_extension1) (he2 : 0 < P.penalties.gap_extension2) :
    history2p_computed P ( wavefront_align_global_initialize K w).aligner 0 := by
  obtain ⟨m0, hm0, hlo, hhi, hoff⟩ := initialize_mwavefront_zero K w
  obtain ⟨hi1, hd1, hi2, hd2, _⟩ := initialize_gaps2p_null K w hd
  have hset : retained_set2p ( wavefront_align_global_initialize K w).aligner ((0 : Nat) : Int)
      = { mwavefront := some m0, i1wavefront := none, d1wavefront := none,
          i2wavefront := none, d2wavefront := none } := by
    unfold retained_set2p
    rw [Nat.cast_zero, score_slot_zero, hm0, hi1, hd1, hi2, hd2]
  refine ⟨fun t ht => absurd ht (Nat.not_lt_zero t), ?_, ?_⟩
  · rw [hset]
    intro X
    cases X with
    | M =>
      intro k hk
      obtain ⟨m, hm, hklo, hkhi, hke⟩ := wavefront_offset_at_reachable hk
      cases hm
      have hk0 : k = 0 := by omega
      subst hk0
      have hke' : wavefront_offset_at (some m0) 0 = m0.offsets 0 := hke
      show _ ∧ cell_sound2p P component2p_t.M _
        (wavefront_offset_at (some m0) 0 - 0) (wavefront_offset_at (some m0) 0)
      rw [hke', hoff]
      refine ⟨by simp, by simp, by simp, Or.inl ⟨by simp, by simp, ?_⟩⟩
      show (P.table 0 0).m ≤ _
      rw [table2p_m_zero_zero]
      simp
    | I p => cases p <;> exact wavefront_sound2p_none _ _ _
    | D p => cases p <;> exact wavefront_sound2p_none _ _ _
  · rw [hset]
    refine ⟨?_, ?_⟩
    · intro i j _ _ hc _ hnm
      simp only [Nat.cast_zero, Int.toNat_zero] at hc hnm
      obtain ⟨rfl, rfl⟩ := table2p_m_zero_origin P hx he1 he2 i j (by simpa using hc)
        (by simpa using hnm)
      rw [wavefront_offset_at_some _ _ (by simp [hlo]) (by simp [hhi])]
      simp [hoff]
    · intro p
      constructor
      · intro i j _ _ hc _
        simp only [Nat.cast_zero, Int.toNat_zero] at hc
        exact absurd hc (table2p_ins_ne_zero P he1 he2 p i j)
      · intro i j _ _ hc _
        simp only [Nat.cast_zero, Int.toNat_zero] at hc
        exact absurd hc (table2p_del_ne_zero P he1 he2 p i j)

/-- On an extended two-piece history, a successful termination check of score `s`
bounds the cost of the alignment by `s`. -/
theorem cost2p_le_of_check {σ β : Type} (P : affine2p_problem_t) (K : kernels_t σ β)
    (w : world_t σ β) (sequences : strings_padded_t) (s : Nat)
    (h : history2p_extended P w.aligner s)
    (hW : w.aligner.memory_modular = true → 0 < w.aligner.max_score_scope)
    (hc : (wavefront_align_global_terminate K w sequences
      P.pattern_length P.text_length s).1 = true) :
    P.cost ≤ (s : ℕ∞) := by
  obtain ⟨m, hm, hlo, hhi, hoff⟩ := (terminate_fst_iff K w sequences _ _ _).mp hc
  have hret : retained w.aligner s s := ⟨le_refl _, fun hmm => by have := hW hmm; omega⟩
  have hs := (h s hret).1 component2p_t.M
  have he : wavefront_offset_at ((retained_set2p w.aligner s).get component2p_t.M)
      ((P.text_length : Int) - (P.pattern_length : Int))
      = m.offsets ((P.text_length : Int) - (P.pattern_length : Int)) := by
    show wavefront_offset_at (retained_set2p w.aligner s).mwavefront _ = _
    unfold retained_set2p
    simp only []
    rw [hm, wavefront_offset_at_some _ _ hlo hhi]
  obtain ⟨_, hcell⟩ := hs ((P.text_length : Int) - (P.pattern_length : Int))
    (by rw [he]; omega)
  rw [he] at hcell
  have hout := cell_sound2p_outside hcell (Or.inr hoff)
  have e : m.offsets ((P.text_length : Int) - (P.pattern_length : Int))
        - (m.offsets ((P.text_length : Int) - (P.pattern_length : Int))
            - ((P.text_length : Int) - (P.pattern_length : Int)))
        - ((P.text_length : Int) - (P.pattern_length : Int)) = 0 := by ring
  rw [e, gap_potential2p_zero] at hout
  simpa using hout

/-- On an extended two-piece history, the termination check of the score that
equals the cost of the alignment succeeds. -/
theorem check_of_cost2p_eq {σ β : Type} (P : affine2p_problem_t) (K : kernels_t σ β)
    (w : world_t σ β) (sequences : strings_padded_t) (s : Nat)
    (h : history2p_extended P w.aligner s)
    (hW : w.aligner.memory_modular = true → 0 < w.aligner.max_score_scope)
    (hc : P.cost = (s : ℕ∞)) :
    (wavefront_align_global_terminate K w sequences
      P.pattern_length P.text_length s).1 = true := by
  have hret : retained w.aligner s s := ⟨le_refl _, fun hmm => by have := hW hmm; omega⟩
  have hcomp := (h s hret).2 component2p_t.M
  have hle := hcomp P.pattern_length P.text_length (le_refl _) (le_refl _)
    (by simpa using hc) (by omega)
  have hle' : (P.text_length : Int) ≤ wavefront_offset_at
      (w.aligner.mwavefronts (score_slot w.aligner s))
      ((P.text_length : Int) - (P.pattern_length : Int)) := hle
  obtain ⟨m, hm, hlo, hhi, he⟩ := wavefront_offset_at_reachable (le_trans (by omega) hle')
  rw [terminate_fst_iff]
  refine ⟨m, hm, hlo, hhi, ?_⟩
  rw [he] at hle'
  exact hle'

theorem scope2p_covers_congr {σ β : Type} {pen : affine2p_penalties_t}
    {a b : wavefront_aligner_t σ β} (h : same_config a b) (hW : scope2p_covers pen b) :
    scope2p_covers pen a := by
  unfold scope2p_covers at hW ⊢
  rw [h.1, h.2.1]
  exact hW

theorem scope2p_covers_pos {σ β : Type} {pen : affine2p_penalties_t}
    {a : wavefront_aligner_t σ β} (hW : scope2p_covers pen a) :
    a.memory_modular = true → 0 < a.max_score_scope := by
  intro hm
  have := hW hm
  omega

/-- As long as the checks fail, the two-piece loop keeps the history computed and
the configuration unchanged. -/
theorem loop_world_history2p {σ β : Type} (pen : affine_penalties_t)
    (pen2p : affine2p_penalties_t) (K : kernels_t σ β)
    (sequences : strings_padded_t) (pl tl : Nat) (a0 : wavefront_aligner_t σ β)
    (hx : 0 < pen2p.mismatch) (he1 : 0 < pen2p.gap_extension1)
    (he2 : 0 < pen2p.gap_extension2) (hW : scope2p_covers pen2p a0) :
    ∀ (n : Nat) (w : world_t σ β) (s : Nat),
      history2p_computed (problem2p_of pen2p sequences pl tl) w.aligner s →
      same_config w.aligner a0 →
      (∀ t, t < n → (loop_check (with_spec_kernels pen pen2p K) sequences pl tl
        distance_metric_t.gap_affine_2p t w s).1 = false) →
      history2p_computed (problem2p_of pen2p sequences pl tl)
        (loop_world (with_spec_kernels pen pen2p K) sequences pl tl
          distance_metric_t.gap_affine_2p n w s).aligner (s + n) ∧
      same_config (loop_world (with_spec_kernels pen pen2p K) sequences pl tl
        distance_metric_t.gap_affine_2p n w s).aligner a0 := by
  intro n
  induction n with
  | zero =>
    intro w s h hc _
    exact ⟨h, hc⟩
  | succ n ih =>
    intro w s h hc hfail
    have h0 := hfail 0 (Nat.succ_pos _)
    rw [loop_check_zero] at h0
    have hframe := terminate_false_world _ _ sequences pl tl s h0
    have hext : history2p_extended (problem2p_of pen2p sequences pl tl)
        (after_extend (with_spec_kernels pen pen2p K) sequences pl tl w s).aligner s :=
      history2p_extended_of_computed (problem2p_of pen2p sequences pl tl) w.aligner s h
    have hcext : same_config
        (after_extend (with_spec_kernels pen pen2p K) sequences pl tl w s).aligner a0 :=
      same_config_trans (same_config_extend w.aligner _ _ _ _ _) hc
    have hcomp := history2p_computed_succ (problem2p_of pen2p sequences pl tl)
      (after_extend (with_spec_kernels pen pen2p K) sequences pl tl w s).aligner s hext
      (scope2p_covers_congr hcext hW) hx he1 he2
      sequences.pattern_padded pl sequences.text_padded tl
    have ecast : (s : Int) + 1 = ((s + 1 : Nat) : Int) := by push_cast; ring
    rw [loop_world, hframe, ecast]
    have hres := ih
      (after_compute (with_spec_kernels pen pen2p K) sequences pl tl
        distance_metric_t.gap_affine_2p
        (after_extend (with_spec_kernels pen pen2p K) sequences pl tl w s) ((s + 1 : Nat) : Int))
      (s + 1)
      (by rw [← ecast]; exact hcomp)
      (by rw [← ecast]; exact same_config_trans ⟨rfl, rfl, rfl, rfl⟩ hcext)
      (by
        intro t ht
        have := hfail (t + 1) (by omega)
        rw [loop_check_succ, hframe, ecast] at this
        exact this)
    have e : s + 1 + n = s + (n + 1) := by ring
    rw [e] at hres
    exact hres

/-- The initial conditions keep the configuration, whatever the metric. -/
theorem same_config_initialize_any {σ β : Type} (K : kernels_t σ β) (w : world_t σ β) :
    same_config ( wavefront_align_global_initialize K w).aligner w.aligner := by
  have h := initialize_config K w
  refine ⟨h.2.1, h.2.2.1, h.1, ?_⟩
  unfold wavefront_align_global_initialize
  simp only []
  split_ifs <;> rfl

/-- In a two-piece invocation with the operators of the contracts, as long as the
checks below score `n` fail, the check of score `n` runs on an extended history. -/
theorem extended_world_history2p {σ β : Type} (pen : affine_penalties_t)
    (pen2p : affine2p_penalties_t) (K : kernels_t σ β)
    (w : world_t σ β) (sequences : strings_padded_t) (pl tl : Nat)
    (hx : 0 < pen2p.mismatch) (he1 : 0 < pen2p.gap_extension1)
    (he2 : 0 < pen2p.gap_extension2)
    (hd : w.aligner.distance_metric = distance_metric_t.gap_affine_2p)
    (hW : scope2p_covers pen2p w.aligner) (n : Nat)
    (hfail : ∀ t, t < n →
      (check_at (with_spec_kernels pen pen2p K) sequences pl tl w t).1 = false) :
    history2p_extended (problem2p_of pen2p sequences pl tl)
      (extended_world (with_spec_kernels pen pen2p K) sequences pl tl w n).aligner n ∧
    same_config (extended_world (with_spec_kernels pen pen2p K) sequences pl tl w n).aligner
      w.aligner := by
  have hinit := history2p_computed_initialize (problem2p_of pen2p sequences pl tl)
    (with_spec_kernels pen pen2p K) w hd hx he1 he2
  have hcfg := same_config_initialize_any (with_spec_kernels pen pen2p K) w
  have hloop := loop_world_history2p pen pen2p K sequences pl tl w.aligner hx he1 he2 hW n
    ( wavefront_align_global_initialize (with_spec_kernels pen pen2p K) w) 0 hinit hcfg
    (by
      intro t ht
      have := hfail t ht
      rw [check_at_eq_loop_check, hd] at this
      simpa using this)
  rw [zero_add, Nat.cast_zero] at hloop
  unfold extended_world
  rw [hd]
  exact ⟨history2p_extended_of_computed (problem2p_of pen2p sequences pl tl) _ n hloop.1,
    same_config_trans (same_config_extend _ _ _ _ _ _) hloop.2⟩

/-- The minimum cost of a two-piece problem is a natural number. -/
theorem cost2p_finite (P : affine2p_problem_t) : ∃ c : Nat, P.cost = (c : ℕ∞) :=
  ⟨P.cost.toNat, (ENat.coe_toNat (table2p_m_ne_top P _ _)).symm⟩

/-- In a two-piece invocation with the operators of the contracts, the checks of
the scores below the cost of the alignment fail and the check of the cost
succeeds. -/
theorem check_at_cost2p {σ β : Type} (pen : affine_penalties_t)
    (pen2p : affine2p_penalties_t) (K : kernels_t σ β)
    (w : world_t σ β) (sequences : strings_padded_t) (pl tl : Nat)
    (hx : 0 < pen2p.mismatch) (he1 : 0 < pen2p.gap_extension1)
    (he2 : 0 < pen2p.gap_extension2)
    (hd : w.aligner.distance_metric = distance_metric_t.gap_affine_2p)
    (hW : scope2p_covers pen2p w.aligner) (c : Nat)
    (hc : (problem2p_of pen2p sequences pl tl).cost = (c : ℕ∞)) :
    (∀ t, t < c →
      (check_at (with_spec_kernels pen pen2p K) sequences pl tl w t).1 = false) ∧
    (check_at (with_spec_kernels pen pen2p K) sequences pl tl w c).1 = true := by
  have hpos : ∀ n, (∀ t, t < n →
        (check_at (with_spec_kernels pen pen2p K) sequences pl tl w t).1 = false) →
      (extended_world (with_spec_kernels pen pen2p K) sequences pl tl w n).aligner.memory_modular
        = true →
      0 < (extended_world (with_spec_kernels pen pen2p K) sequences pl tl w
        n).aligner.max_score_scope :=
    fun n hn => scope2p_covers_pos (scope2p_covers_congr
      (extended_world_history2p pen pen2p K w sequences pl tl hx he1 he2 hd hW n hn).2 hW)
  have hfail : ∀ t, t < c →
      (check_at (with_spec_kernels pen pen2p K) sequences pl tl w t).1 = false := by
    intro t
    induction t using Nat.strong_induction_on with
    | _ t ih =>
      intro ht
      have hprev : ∀ u, u < t →
          (check_at (with_spec_kernels pen pen2p K) sequences pl tl w u).1 = false :=
        fun u hu => ih u hu (by omega)
      have hh := extended_world_history2p pen pen2p K w sequences pl tl hx he1 he2 hd hW t hprev
      by_contra hne
      have htrue : (check_at (with_spec_kernels pen pen2p K) sequences pl tl w t).1 = true := by
        simpa using hne
      have hle := cost2p_le_of_check (problem2p_of pen2p sequences pl tl)
        (with_spec_kernels pen pen2p K)
        (extended_world (with_spec_kernels pen pen2p K) sequences pl tl w t) sequences t hh.1
        (hpos t hprev) htrue
      rw [hc] at hle
      have := ENat.coe_le_coe.mp hle
      omega
  refine ⟨hfail, ?_⟩
  have hh := extended_world_history2p pen pen2p K w sequences pl tl hx he1 he2 hd hW c hfail
  exact check_of_cost2p_eq (problem2p_of pen2p sequences pl tl) (with_spec_kernels pen pen2p K)
    (extended_world (with_spec_kernels pen pen2p K) sequences pl tl w c) sequences c hh.1
    (hpos c hfail) hc

/-! ## Both affine metrics at once -/

/-- The kernels of both contracts are those of the gap-affine contract over kernels
that already hold the two-piece compute of its contract. -/
theorem with_spec_kernels_eq {σ β : Type} (pen : affine_penalties_t)
    (pen2p : affine2p_penalties_t) (K : kernels_t σ β) :
    with_spec_kernels pen pen2p K
      = with_spec_affine pen
          { K with wavefront_compute_affine2p := (wavefront_compute_affine2p_spec pen2p) } :=
  rfl

/-- Under either affine metric, with the operators of the contracts, positive
penalties and a scope that covers the penalties: the checks of the scores below
the cost of the configured model fail, the check of the cost succeeds, and it runs
on a state with the configuration of the invocation. -/
theorem check_at_model_cost {σ β : Type} (penalties : affine_penalties_t)
    (penalties2p : affine2p_penalties_t) (K : kernels_t σ β)
    (w : world_t σ β) (sequences : strings_padded_t) (pattern_length text_length : Nat)
    (hd : w.aligner.distance_metric = distance_metric_t.gap_affine ∨
      w.aligner.distance_metric = distance_metric_t.gap_affine_2p)
    (hpen : w.aligner.distance_metric = distance_metric_t.gap_affine →
      0 < penalties.mismatch ∧ 0 < penalties.gap_extension ∧
      scope_covers penalties w.aligner)
    (hpen2p : w.aligner.distance_metric = distance_metric_t.gap_affine_2p →
      0 < penalties2p.mismatch ∧ 0 < penalties2p.gap_extension1 ∧
      0 < penalties2p.gap_extension2 ∧ scope2p_covers penalties2p w.aligner) :
    ∃ c : Nat,
      affine_model_cost w.aligner.distance_metric penalties penalties2p
        sequences.pattern_padded pattern_length sequences.text_padded text_length = (c : ℕ∞) ∧
      (∀ t, t < c → (check_at (with_spec_kernels penalties penalties2p K) sequences
        pattern_length text_length w t).1 = false) ∧
      (check_at (with_spec_kernels penalties penalties2p K) sequences
        pattern_length text_length w c).1 = true ∧
      same_config (extended_world (with_spec_kernels penalties penalties2p K) sequences
        pattern_length text_length w c).aligner w.aligner := by
  rcases hd with hd | hd
  · obtain ⟨hx, he, hW⟩ := hpen hd
    obtain ⟨c, hc⟩ := cost_finite (problem_of penalties sequences pattern_length text_length)
    rw [with_spec_kernels_eq]
    obtain ⟨hfail, hok⟩ := check_at_cost penalties
      { K with wavefront_compute_affine2p := (wavefront_compute_affine2p_spec penalties2p) }
      w sequences pattern_length text_length hx he hd hW c hc
    refine ⟨c, ?_, hfail, hok, (extended_world_history penalties _ w sequences
      pattern_length text_length hx he hd hW c hfail).2⟩
    rw [hd]
    exact hc
  · obtain ⟨hx, he1, he2, hW⟩ := hpen2p hd
    obtain ⟨c, hc⟩ := cost2p_finite
      (problem2p_of penalties2p sequences pattern_length text_length)
    obtain ⟨hfail, hok⟩ := check_at_cost2p penalties penalties2p K
      w sequences pattern_length text_length hx he1 he2 hd hW c hc
    refine ⟨c, ?_, hfail, hok, (extended_world_history2p penalties penalties2p K w sequences
      pattern_length text_length hx he1 he2 hd hW c hfail).2⟩
    rw [hd]
    exact hc

/-! ## The claims about the termination detector and the initial conditions -/

/-- C1: for every aligner state, pattern_length, text_length and score_final, the
termination detector returns true exactly when the match wavefront stored in the
slot of score_final (score_final itself under full retention, score_final
reduced by the C remainder modulo max_score_scope when memory_modular is set) is
non-null, its range contains the diagonal text_length - pattern_length, and its
offset on that diagonal is at least text_length. -/
theorem terminate_true_iff {σ β : Type} (K : kernels_t σ β) (w : world_t σ β)
    (sequences : strings_padded_t) (pattern_length text_length score_final : Int) :
    (wavefront_align_global_terminate K w sequences pattern_length text_length score_final).1 = true
      ↔ ∃ mwavefront,
          w.aligner.mwavefronts
            (if w.aligner.memory_modular then Int.tmod score_final w.aligner.max_score_scope
             else score_final) = some mwavefront ∧
          mwavefront.lo ≤ text_length - pattern_length ∧
          text_length - pattern_length ≤ mwavefront.hi ∧
          mwavefront.offsets (text_length - pattern_length) ≥ text_length := by
  have h := terminate_fst_iff K w sequences pattern_length text_length score_final
  unfold score_slot at h
  exact h

/-- C4: when the termination check succeeds and the alignment scope is score-only,
the detector writes the negation of score_final (the full score, whatever the
retention policy) to cigar.score, writes 0 to cigar.begin_offset and
cigar.end_offset, leaves everything else as it was and calls no backtrace
function (the call log is unchanged). -/
theorem terminate_score_only {σ β : Type} (K : kernels_t σ β) (w : world_t σ β)
    (sequences : strings_padded_t) (pattern_length text_length score_final : Int)
    (hret : (wavefront_align_global_terminate K w sequences
      pattern_length text_length score_final).1 = true)
    (hscope : w.aligner.alignment_scope = alignment_scope_t.alignment_scope_score) :
    (wavefront_align_global_terminate K w sequences
        pattern_length text_length score_final).2
      = { w with aligner := { w.aligner with
            cigar := { w.aligner.cigar with
              begin_offset := 0, end_offset := 0, score := -score_final } } } ∧
    (wavefront_align_global_terminate K w sequences
        pattern_length text_length score_final).2.aligner.cigar.score = -score_final ∧
    (wavefront_align_global_terminate K w sequences
        pattern_length text_length score_final).2.aligner.cigar.begin_offset = 0 ∧
    (wavefront_align_global_terminate K w sequences
        pattern_length text_length score_final).2.aligner.cigar.end_offset = 0 ∧
    (wavefront_align_global_terminate K w sequences
        pattern_length text_length score_final).2.calls = w.calls := by
  have h := terminate_score_only_state K w sequences pattern_length text_length score_final
    hret hscope
  rw [h]
  exact ⟨rfl, rfl, rfl, rfl, rfl⟩

/-- Witness for C4: score 5 under modular retention with scope 3 (slot 2). -/
theorem terminate_score_only_witness :
    (wavefront_align_global_terminate idle_kernels
      (sample_world (sample_aligner distance_metric_t.gap_affine
        alignment_scope_t.alignment_scope_score true false 3) 2 blank_wavefront)
      sample_sequences 0 0 5).2.aligner.cigar.score = -5 :=
  (terminate_score_only idle_kernels
    (sample_world (sample_aligner distance_metric_t.gap_affine
      alignment_scope_t.alignment_scope_score true false 3) 2 blank_wavefront)
    sample_sequences 0 0 5 (by decide) rfl).2.1

/-- C5: when the termination check succeeds and the alignment scope is not
score-only, the detector makes exactly one backtrace call, chosen by bt_piggyback
alone.  If the flag is set it is wf_backtrace_buffer_recover_cigar on the pair
(bt_pcigar[k], bt_prev[k]) of the terminating match wavefront at the target
diagonal k = text_length - pattern_length, which lies in [lo,hi], and the call's
results become the backtrace buffer and the cigar; if the flag is clear it is
wavefront_backtrace_affine, called with the slot index of score_final as its
score argument, whose result becomes the aligner. -/
theorem terminate_backtrace_dispatch {σ β : Type} (K : kernels_t σ β) (w : world_t σ β)
    (sequences : strings_padded_t) (pattern_length text_length score_final : Int)
    (hret : (wavefront_align_global_terminate K w sequences
      pattern_length text_length score_final).1 = true)
    (hscope : w.aligner.alignment_scope ≠ alignment_scope_t.alignment_scope_score) :
    ∃ mwavefront,
      w.aligner.mwavefronts (score_slot w.aligner score_final) = some mwavefront ∧
      mwavefront.lo ≤ text_length - pattern_length ∧
      text_length - pattern_length ≤ mwavefront.hi ∧
      (w.aligner.bt_piggyback = true →
        (wavefront_align_global_terminate K w sequences
            pattern_length text_length score_final).2.calls
          = w.calls ++ [call_t.wf_backtrace_buffer_recover_cigar
              (mwavefront.bt_pcigar (text_length - pattern_length))
              (mwavefront.bt_prev (text_length - pattern_length))
              pattern_length text_length] ∧
        (wavefront_align_global_terminate K w sequences
            pattern_length text_length score_final).2.aligner
          = { w.aligner with
                bt_buffer := (K.wf_backtrace_buffer_recover_cigar w.aligner.bt_buffer
                  (mwavefront.bt_pcigar (text_length - pattern_length))
                  (mwavefront.bt_prev (text_length - pattern_length))
                  sequences.pattern_padded pattern_length sequences.text_padded text_length
                  w.aligner.cigar).1,
                cigar := (K.wf_backtrace_buffer_recover_cigar w.aligner.bt_buffer
                  (mwavefront.bt_pcigar (text_length - pattern_length))
                  (mwavefront.bt_prev (text_length - pattern_length))
                  sequences.pattern_padded pattern_length sequences.text_padded text_length
                  w.aligner.cigar).2 }) ∧
      (w.aligner.bt_piggyback = false →
        (wavefront_align_global_terminate K w sequences
            pattern_length text_length score_final).2.calls
          = w.calls ++ [call_t.wavefront_backtrace_affine pattern_length text_length
              (score_slot w.aligner score_final)] ∧
        (wavefront_align_global_terminate K w sequences
            pattern_length text_length score_final).2.aligner
          = K.wavefront_backtrace_affine w.aligner sequences.pattern_padded pattern_length
              sequences.text_padded text_length (score_slot w.aligner score_final)) := by
  unfold wavefront_align_global_terminate at hret ⊢
  simp only [WAVEFRONT_DIAGONAL, WAVEFRONT_OFFSET] at hret ⊢
  cases hm : w.aligner.mwavefronts (score_slot w.aligner score_final) with
  | none => rw [hm] at hret; simp at hret
  | some mw =>
    rw [hm] at hret
    simp only [] at hret ⊢
    refine ⟨mw, rfl, ?_⟩
    by_cases h1 : mw.lo > text_length - pattern_length ∨ text_length - pattern_length > mw.hi
    · rw [if_pos h1] at hret; simp at hret
    · rw [if_neg h1] at hret ⊢
      by_cases h2 : mw.offsets (text_length - pattern_length) < text_length
      · rw [if_pos h2] at hret; simp at hret
      · rw [if_neg h2, if_neg hscope]
        refine ⟨by omega, by omega, ?_, ?_⟩
        · intro hp
          rw [if_pos hp]
          exact ⟨rfl, rfl⟩
        · intro hp
          rw [if_neg (by simp [hp])]
          exact ⟨rfl, rfl⟩

/-- Witness for C5: an end-to-end alignment with the piggyback flag set. -/
theorem terminate_backtrace_dispatch_witness :
    ∃ mwavefront,
      (sample_world (sample_aligner distance_metric_t.gap_affine
          alignment_scope_t.alignment_scope_alignment false true 3) 0 blank_wavefront
        ).aligner.mwavefronts 0 = some mwavefront ∧
      mwavefront.lo ≤ 0 ∧ 0 ≤ mwavefront.hi :=
  (terminate_backtrace_dispatch idle_kernels
    (sample_world (sample_aligner distance_metric_t.gap_affine
      alignment_scope_t.alignment_scope_alignment false true 3) 0 blank_wavefront)
    sample_sequences 0 0 0 (by decide) (by decide)).imp
    (fun _ h => ⟨h.1, h.2.1, h.2.2.1⟩)

/-- C9: whenever the termination detector returns false, the state after the
call is the state before it: the cigar (score, begin_offset, end_offset), the
wavefront history, the backtrace buffer and every other component of the aligner
are unchanged, and no call was made (the call log is unchanged). -/
theorem terminate_false_frame {σ β : Type} (K : kernels_t σ β) (w : world_t σ β)
    (sequences : strings_padded_t) (pattern_length text_length score_final : Int)
    (hret : (wavefront_align_global_terminate K w sequences
      pattern_length text_length score_final).1 = false) :
    (wavefront_align_global_terminate K w sequences
      pattern_length text_length score_final).2 = w :=
  terminate_false_world K w sequences pattern_length text_length score_final hret

/-- Witness for C9: the match wavefront of the slot is null. -/
theorem terminate_false_frame_witness :
    (wavefront_align_global_terminate idle_kernels
      (sample_world (sample_aligner distance_metric_t.gap_affine
        alignment_scope_t.alignment_scope_alignment true false 3) 2 blank_wavefront)
      sample_sequences 0 0 4).2
    = sample_world (sample_aligner distance_metric_t.gap_affine
        alignment_scope_t.alignment_scope_alignment true false 3) 2 blank_wavefront :=
  terminate_false_frame idle_kernels
    (sample_world (sample_aligner distance_metric_t.gap_affine
      alignment_scope_t.alignment_scope_alignment true false 3) 2 blank_wavefront)
    sample_sequences 0 0 4 (by decide)

/-- C7: after wavefront_align_global_initialize, for every aligner configuration,
the score-0 match wavefront is non-null with lo = hi = 0 and offsets[0] = 0; if
bt_piggyback is set its bt_pcigar[0] and bt_prev[0] are 0; for gap_affine the
score-0 I1 and D1 wavefronts are null, and for gap_affine_2p the score-0 I1, D1,
I2 and D2 wavefronts are all null. -/
theorem initialize_initial_conditions {σ β : Type} (K : kernels_t σ β) (w : world_t σ β) :
    (∃ m, ( wavefront_align_global_initialize K w).aligner.mwavefronts 0 = some m ∧
        m.lo = 0 ∧ m.hi = 0 ∧ m.offsets 0 = 0 ∧
        (w.aligner.bt_piggyback = true → m.bt_pcigar 0 = 0 ∧ m.bt_prev 0 = 0)) ∧
    (w.aligner.distance_metric = distance_metric_t.gap_affine →
        ( wavefront_align_global_initialize K w).aligner.i1wavefronts 0 = none ∧
        ( wavefront_align_global_initialize K w).aligner.d1wavefronts 0 = none) ∧
    (w.aligner.distance_metric = distance_metric_t.gap_affine_2p →
        ( wavefront_align_global_initialize K w).aligner.i1wavefronts 0 = none ∧
        ( wavefront_align_global_initialize K w).aligner.d1wavefronts 0 = none ∧
        ( wavefront_align_global_initialize K w).aligner.i2wavefronts 0 = none ∧
        ( wavefront_align_global_initialize K w).aligner.d2wavefronts 0 = none) := by
  unfold wavefront_align_global_initialize wavefront_slab_allocate
  refine ⟨?_, ?_, ?_⟩
  · cases hp : w.aligner.bt_piggyback
    all_goals cases hd : w.aligner.distance_metric
    all_goals simp
  · intro hd
    simp [hd]
  · intro hd
    simp [hd]

/-! ## The claims about the driver -/

/-- C2: for the gap_affine and gap_affine_2p metrics, whenever wavefront_align_global
returns, it returns from the termination check of some score s that succeeds on
the extended score-s state, every check of a smaller score having failed (so s
is the least such score) and the returned state is the one that check leaves.
Up to that check the calls are, in this order: the allocation of the score-0
wavefront, then for each t = 0..s-1 the extend of t followed by the compute of
t + 1 (each compute after the extend and the failed check of the score
before it), then the extend of s; after it come only backtrace calls, at most one. -/
theorem align_global_returns_at_first_success {σ β : Type} (K : kernels_t σ β) (fuel : Nat)
    (w : world_t σ β) (sequences : strings_padded_t) (pattern_length text_length : Int)
    (w' : world_t σ β)
    (hd : w.aligner.distance_metric = distance_metric_t.gap_affine ∨
      w.aligner.distance_metric = distance_metric_t.gap_affine_2p)
    (hret : wavefront_align_global K fuel w sequences pattern_length text_length
      = outcome_t.returned w') :
    ∃ s : Nat, s < fuel ∧
      (check_at K sequences pattern_length text_length w s).1 = true ∧
      (∀ t, t < s → (check_at K sequences pattern_length text_length w t).1 = false) ∧
      w' = (check_at K sequences pattern_length text_length w s).2 ∧
      (extended_world K sequences pattern_length text_length w s).calls
        = w.calls ++ [call_t.wavefront_slab_allocate 0 0]
          ++ (List.range s).flatMap
              (iteration_calls w.aligner.distance_metric pattern_length text_length)
          ++ [call_t.wavefront_extend pattern_length text_length s] ∧
      ∃ tail, w'.calls
          = (extended_world K sequences pattern_length text_length w s).calls ++ tail ∧
        tail.length ≤ 1 ∧ ∀ c ∈ tail, call_t.is_backtrace c = true := by
  unfold wavefront_align_global at hret
  obtain ⟨s, hs, hfail, hok, hw⟩ :=
    loop_returned_elim K sequences pattern_length text_length _ hd fuel _ 0 w' hret
  have hfail' : ∀ t, t < s →
      (check_at K sequences pattern_length text_length w t).1 = false := by
    intro t ht
    rw [check_at_eq_loop_check]
    exact hfail t ht
  refine ⟨s, hs, ?_, hfail', ?_, ?_, ?_⟩
  · rw [check_at_eq_loop_check]; exact hok
  · rw [check_at_eq_loop_check]; exact hw
  · unfold extended_world after_extend
    simp only []
    rw [loop_world_calls K sequences pattern_length text_length _ s _ 0 hfail, initialize_calls]
    simp only [zero_add]
    rfl
  · rw [hw, ← check_at_eq_loop_check]
    exact terminate_calls K _ sequences pattern_length text_length s

/-- Witness for C2: with the counting kernels and two sequences of length 2 the
driver returns from the check of score 2. -/
theorem align_global_returns_at_first_success_witness :
    ∃ s : Nat, s < 5 ∧
      (check_at counting_kernels sample_sequences 2 2
        (empty_world distance_metric_t.gap_affine alignment_scope_t.alignment_scope_score
          false false 1) s).1 = true ∧
      (∀ t, t < s → (check_at counting_kernels sample_sequences 2 2
        (empty_world distance_metric_t.gap_affine alignment_scope_t.alignment_scope_score
          false false 1) t).1 = false) :=
  (align_global_returns_at_first_success counting_kernels 5
    (empty_world distance_metric_t.gap_affine alignment_scope_t.alignment_scope_score
      false false 1) sample_sequences 2 2
    (check_at counting_kernels sample_sequences 2 2
      (empty_world distance_metric_t.gap_affine alignment_scope_t.alignment_scope_score
        false false 1) 2).2
    (Or.inl rfl) rfl).imp (fun _ h => ⟨h.1, h.2.1, h.2.2.1⟩)

/-- Counterexample for C6: with the edit metric and two empty sequences the
driver returns normally from the check of score 0, with the score-only result 0:
it does not exit with the "not implemented" error. -/
theorem align_global_edit_returns :
    wavefront_align_global idle_kernels 1
      (empty_world distance_metric_t.edit alignment_scope_t.alignment_scope_score false false 1)
      sample_sequences 0 0
    = outcome_t.returned
        (check_at idle_kernels sample_sequences 0 0
          (empty_world distance_metric_t.edit alignment_scope_t.alignment_scope_score
            false false 1) 0).2 ∧
    (check_at idle_kernels sample_sequences 0 0
      (empty_world distance_metric_t.edit alignment_scope_t.alignment_scope_score
        false false 1) 0).2.aligner.cigar.score = 0 :=
  ⟨rfl, by decide⟩

/-- C6 (amended): when the distance metric is edit or gap-lineal, the driver
runs the initial conditions, the extend of score 0 and the termination check of
score 0, and nothing else.  If that check fails it exits with the message
"Distance function not yet implemented" and status 1, in the state left by the
extend, no compute and no backtrace having been called and the initial
conditions not having written the cigar; if that check succeeds it returns
normally in the state the check leaves. -/
theorem align_global_other_metric {σ β : Type} (K : kernels_t σ β) (fuel : Nat)
    (w : world_t σ β) (sequences : strings_padded_t) (pattern_length text_length : Int)
    (hd : w.aligner.distance_metric = distance_metric_t.edit ∨
      w.aligner.distance_metric = distance_metric_t.gap_lineal) :
    wavefront_align_global K (fuel + 1) w sequences pattern_length text_length
      = (if (check_at K sequences pattern_length text_length w 0).1 = true then
          outcome_t.returned (check_at K sequences pattern_length text_length w 0).2
        else
          outcome_t.exited "Distance function not yet implemented\n" 1
            (extended_world K sequences pattern_length text_length w 0)) ∧
    (extended_world K sequences pattern_length text_length w 0).calls
      = w.calls ++ [call_t.wavefront_slab_allocate 0 0,
          call_t.wavefront_extend pattern_length text_length 0] ∧
    ( wavefront_align_global_initialize K w).aligner.cigar = w.aligner.cigar := by
  have hx : extended_world K sequences pattern_length text_length w 0
      = after_extend K sequences pattern_length text_length
          ( wavefront_align_global_initialize K w) 0 := by
    simp [extended_world, loop_world]
  refine ⟨?_, ?_, ?_⟩
  · unfold wavefront_align_global
    simp only []
    cases hc : (check_at K sequences pattern_length text_length w 0).1 with
    | true =>
      have hc' := hc
      unfold check_at at hc'
      rw [hx, Nat.cast_zero] at hc'
      rw [loop_succ_of_check_true K sequences pattern_length text_length _ fuel _ 0 hc']
      simp [check_at, hx]
    | false =>
      have hc' := hc
      unfold check_at at hc'
      rw [hx, Nat.cast_zero] at hc'
      rw [loop_succ_of_check_false_other K sequences pattern_length text_length _ hd fuel _ 0 hc']
      simp [hx, not_implemented_message]
  · rw [hx]
    simp [after_extend, initialize_calls]
  · unfold wavefront_align_global_initialize
    simp only []
    split_ifs <;> rfl

/-- Witness for C6 (amended): the gap-lineal metric on two sequences of length 2
that the idle kernels never extend. -/
theorem align_global_other_metric_witness :
    (extended_world idle_kernels sample_sequences 2 2
      (empty_world distance_metric_t.gap_lineal alignment_scope_t.alignment_scope_score
        false false 1) 0).calls
      = [call_t.wavefront_slab_allocate 0 0, call_t.wavefront_extend 2 2 0] :=
  (align_global_other_metric idle_kernels 0
    (empty_world distance_metric_t.gap_lineal alignment_scope_t.alignment_scope_score
      false false 1) sample_sequences 2 2 (Or.inr rfl)).2.1

/-- C8: for every sequence of n symbols (n = 0 included), aligning it against
itself with wavefront_align_global, the extend operator behaving as its contract
states and whatever the metric and the other kernels, succeeds at the termination
check of score 0 and returns there (any positive fuel): the calls are the
allocation of the score-0 wavefront, the extend of score 0 and then at most one
backtrace call, so no compute operator is ever invoked; and in score-only scope
the recorded cigar score is 0 and no backtrace is called. -/
theorem align_identical_sequences {σ β : Type} (K : kernels_t σ β) (fuel : Nat)
    (w : world_t σ β) (sequences : strings_padded_t) (n : Nat)
    (hsame : ∀ i : Int, 0 ≤ i → i < n →
      sequences.pattern_padded i = sequences.text_padded i) :
    (check_at (with_spec_extend K) sequences n n w 0).1 = true ∧
    wavefront_align_global (with_spec_extend K) (fuel + 1) w sequences n n
      = outcome_t.returned (check_at (with_spec_extend K) sequences n n w 0).2 ∧
    (∃ tail, (check_at (with_spec_extend K) sequences n n w 0).2.calls
        = w.calls ++ [call_t.wavefront_slab_allocate 0 0, call_t.wavefront_extend n n 0] ++ tail ∧
      tail.length ≤ 1 ∧ (∀ c ∈ tail, call_t.is_backtrace c = true) ∧
      ∀ c ∈ tail, call_t.is_compute c = false) ∧
    (w.aligner.alignment_scope = alignment_scope_t.alignment_scope_score →
      (check_at (with_spec_extend K) sequences n n w 0).2.aligner.cigar.score = 0 ∧
      (check_at (with_spec_extend K) sequences n n w 0).2.calls
        = w.calls ++ [call_t.wavefront_slab_allocate 0 0, call_t.wavefront_extend n n 0]) := by
  obtain ⟨m, hm, hlo, hhi, hoff⟩ := extended_zero_identical K w sequences n hsame
  have hx : extended_world (with_spec_extend K) sequences n n w 0
      = after_extend (with_spec_extend K) sequences n n
          ( wavefront_align_global_initialize (with_spec_extend K) w) 0 := by
    simp [extended_world, loop_world]
  have hcalls : (extended_world (with_spec_extend K) sequences n n w 0).calls
      = w.calls ++ [call_t.wavefront_slab_allocate 0 0, call_t.wavefront_extend n n 0] := by
    rw [hx]
    simp [after_extend, initialize_calls]
  have hscope : (extended_world (with_spec_extend K) sequences n n w 0).aligner.alignment_scope
      = w.aligner.alignment_scope := by
    rw [hx]
    show (wavefront_extend_spec _ _ _ _ _ _).alignment_scope = _
    rw [(extend_spec_config _ _ _ _ _ _).1, (initialize_config _ _).1]
  have hcheck : (check_at (with_spec_extend K) sequences n n w 0).1 = true := by
    unfold check_at
    rw [terminate_fst_iff]
    refine ⟨m, ?_, ?_, ?_, ?_⟩
    · rw [← hm, Nat.cast_zero]
      congr 1
      exact score_slot_zero _
    · simp [hlo]
    · simp [hhi]
    · simp [hoff]
  refine ⟨hcheck, ?_, ?_, ?_⟩
  · unfold wavefront_align_global
    simp only []
    have hc' := hcheck
    unfold check_at at hc'
    rw [hx, Nat.cast_zero] at hc'
    rw [loop_succ_of_check_true (with_spec_extend K) sequences n n _ fuel _ 0 hc']
    simp [check_at, hx]
  · obtain ⟨tail, h1, h2, h3⟩ := terminate_calls (with_spec_extend K)
      (extended_world (with_spec_extend K) sequences n n w 0) sequences n n ((0 : Nat) : Int)
    refine ⟨tail, ?_, h2, h3, ?_⟩
    · unfold check_at
      rw [h1, hcalls]
    · intro c hc
      have := h3 c hc
      cases c <;> simp_all [call_t.is_backtrace, call_t.is_compute]
  · intro hs
    have hs' : (extended_world (with_spec_extend K) sequences n n w 0).aligner.alignment_scope
        = alignment_scope_t.alignment_scope_score := by rw [hscope, hs]
    have := terminate_score_only_state (with_spec_extend K)
      (extended_world (with_spec_extend K) sequences n n w 0) sequences n n ((0 : Nat) : Int)
      hcheck hs'
    unfold check_at
    rw [this]
    exact ⟨by simp, hcalls⟩

/-- Witness for C8: the sequence ACGT against itself, gap-affine metric, score-only
scope, modular retention. -/
theorem align_identical_sequences_witness :
    wavefront_align_global (with_spec_extend idle_kernels) 1
      (empty_world distance_metric_t.gap_affine alignment_scope_t.alignment_scope_score
        true false 9)
      (padded_sequences ['A', 'C', 'G', 'T'] ['A', 'C', 'G', 'T']) 4 4
    = outcome_t.returned
        (check_at (with_spec_extend idle_kernels)
          (padded_sequences ['A', 'C', 'G', 'T'] ['A', 'C', 'G', 'T']) 4 4
          (empty_world distance_metric_t.gap_affine alignment_scope_t.alignment_scope_score
            true false 9) 0).2 :=
  (align_identical_sequences idle_kernels 0
    (empty_world distance_metric_t.gap_affine alignment_scope_t.alignment_scope_score
      true false 9)
    (padded_sequences ['A', 'C', 'G', 'T'] ['A', 'C', 'G', 'T']) 4
    (by
      intro i h0 h4
      have : i = 0 ∨ i = 1 ∨ i = 2 ∨ i = 3 := by omega
      rcases this with h | h | h | h <;> subst h <;> rfl)).2.1

/-! ## The claim about the score at which the driver halts -/

/-- C3: for every pattern/text pair (any padded sequences and lengths), under
either affine metric (gap-affine or two-piece gap-affine), with the extend and the
compute operators behaving as their contracts state, positive mismatch and
gap-extend penalties and, under modular retention, a scope above the largest
single-step score delta of the configured model: when wavefront_align_global halts
with a score-only result, the score s at which it halts (the first score whose
termination check succeeds) equals the minimum alignment cost of the configured
affine model given by the reference dynamic programme, the recorded result is -s,
and the driver does halt, with that same result, for every fuel above s. -/
theorem align_global_score_optimal {σ β : Type} (penalties : affine_penalties_t)
    (penalties2p : affine2p_penalties_t)
    (K : kernels_t σ β) (fuel : Nat) (w : world_t σ β) (sequences : strings_padded_t)
    (pattern_length text_length : Nat) (w' : world_t σ β)
    (hd : w.aligner.distance_metric = distance_metric_t.gap_affine ∨
      w.aligner.distance_metric = distance_metric_t.gap_affine_2p)
    (hscope : w.aligner.alignment_scope = alignment_scope_t.alignment_scope_score)
    (hpen : w.aligner.distance_metric = distance_metric_t.gap_affine →
      0 < penalties.mismatch ∧ 0 < penalties.gap_extension ∧
      (w.aligner.memory_modular = true →
        ((max penalties.mismatch (penalties.gap_opening + penalties.gap_extension) : Nat) : Int)
          < w.aligner.max_score_scope))
    (hpen2p : w.aligner.distance_metric = distance_metric_t.gap_affine_2p →
      0 < penalties2p.mismatch ∧ 0 < penalties2p.gap_extension1 ∧
      0 < penalties2p.gap_extension2 ∧
      (w.aligner.memory_modular = true →
        ((max penalties2p.mismatch
          (max (penalties2p.gap_opening1 + penalties2p.gap_extension1)
            (penalties2p.gap_opening2 + penalties2p.gap_extension2)) : Nat) : Int)
          < w.aligner.max_score_scope))
    (hret : wavefront_align_global (with_spec_kernels penalties penalties2p K) fuel w sequences
      pattern_length text_length = outcome_t.returned w') :
    ∃ s : Nat, s < fuel ∧
      affine_model_cost w.aligner.distance_metric penalties penalties2p
        sequences.pattern_padded pattern_length sequences.text_padded text_length = (s : ℕ∞) ∧
      (check_at (with_spec_kernels penalties penalties2p K) sequences
        pattern_length text_length w s).1 = true ∧
      (∀ t, t < s →
        (check_at (with_spec_kernels penalties penalties2p K) sequences
          pattern_length text_length w t).1 = false) ∧
      w' = (check_at (with_spec_kernels penalties penalties2p K) sequences
        pattern_length text_length w s).2 ∧
      w'.aligner.cigar.score = -(s : Int) ∧
      ∀ fuel', s < fuel' →
        wavefront_align_global (with_spec_kernels penalties penalties2p K) fuel' w sequences
          pattern_length text_length = outcome_t.returned w' := by
  obtain ⟨c, hc, hfail, hok, hcfg⟩ := check_at_model_cost penalties penalties2p K w sequences
    pattern_length text_length hd hpen hpen2p
  unfold wavefront_align_global at hret
  obtain ⟨n, hn, hnfail, hnok, hw⟩ := loop_returned_elim
    (with_spec_kernels penalties penalties2p K)
    sequences pattern_length text_length _ hd fuel _ 0 w' hret
  rw [← check_at_eq_loop_check] at hnok hw
  have hnc : n = c := by
    rcases lt_trichotomy n c with h | h | h
    · have := hfail n h
      rw [hnok] at this
      exact absurd this (by simp)
    · exact h
    · have := hnfail c h
      rw [← check_at_eq_loop_check, hok] at this
      exact absurd this (by simp)
  subst hnc
  have hscope' : (extended_world (with_spec_kernels penalties penalties2p K) sequences
      pattern_length text_length w n).aligner.alignment_scope
      = alignment_scope_t.alignment_scope_score := by
    rw [hcfg.2.2.1, hscope]
  refine ⟨n, hn, hc, hok, hfail, hw, ?_, ?_⟩
  · rw [hw]
    unfold check_at at hok ⊢
    rw [terminate_score_only_state _ _ _ _ _ _ hok hscope']
  · intro fuel' hf
    unfold wavefront_align_global
    simp only []
    rw [hw, check_at_eq_loop_check]
    apply loop_returned_intro _ _ _ _ _ hd n fuel' _ 0 hf
    · intro t ht
      rw [← check_at_eq_loop_check]
      exact hfail t ht
    · rw [← check_at_eq_loop_check]
      exact hok

/-- Witness for C3, one invocation for each affine metric, both with modular
retention of scope 3.  Gap-affine: pattern ACGT against text AGT under penalties
(mismatch 2, gap opening 1, gap extension 1) halts at 2, the cost of one deleted
symbol.  Two-piece: pattern ACGT against text AT under penalties (mismatch 2,
first profile 0 + 2 per symbol, second profile 1 + 1 per symbol) halts at 3, the
cost of two deleted symbols on the second profile. -/
theorem align_global_score_optimal_witness :
    (∃ s : Nat, s < 20 ∧
      affine_model_cost distance_metric_t.gap_affine
        { mismatch := 2, gap_opening := 1, gap_extension := 1 }
        { mismatch := 2, gap_opening1 := 0, gap_extension1 := 2,
          gap_opening2 := 1, gap_extension2 := 1 }
        (padded_sequences ['A', 'C', 'G', 'T'] ['A', 'G', 'T']).pattern_padded 4
        (padded_sequences ['A', 'C', 'G', 'T'] ['A', 'G', 'T']).text_padded 3 = (s : ℕ∞) ∧
      (check_at
        (with_spec_kernels { mismatch := 2, gap_opening := 1, gap_extension := 1 }
          { mismatch := 2, gap_opening1 := 0, gap_extension1 := 2,
            gap_opening2 := 1, gap_extension2 := 1 } idle_kernels)
        (padded_sequences ['A', 'C', 'G', 'T'] ['A', 'G', 'T']) 4 3
        (empty_world distance_metric_t.gap_affine alignment_scope_t.alignment_scope_score
          true false 3) 2).2.aligner.cigar.score = -(s : Int)) ∧
    (∃ s : Nat, s < 20 ∧
      affine_model_cost distance_metric_t.gap_affine_2p
        { mismatch := 2, gap_opening := 1, gap_extension := 1 }
        { mismatch := 2, gap_opening1 := 0, gap_extension1 := 2,
          gap_opening2 := 1, gap_extension2 := 1 }
        (padded_sequences ['A', 'C', 'G', 'T'] ['A', 'T']).pattern_padded 4
        (padded_sequences ['A', 'C', 'G', 'T'] ['A', 'T']).text_padded 2 = (s : ℕ∞) ∧
      (check_at
        (with_spec_kernels { mismatch := 2, gap_opening := 1, gap_extension := 1 }
          { mismatch := 2, gap_opening1 := 0, gap_extension1 := 2,
            gap_opening2 := 1, gap_extension2 := 1 } idle_kernels)
        (padded_sequences ['A', 'C', 'G', 'T'] ['A', 'T']) 4 2
        (empty_world distance_metric_t.gap_affine_2p alignment_scope_t.alignment_scope_score
          true false 3) 3).2.aligner.cigar.score = -(s : Int)) :=
  ⟨(align_global_score_optimal { mismatch := 2, gap_opening := 1, gap_extension := 1 }
      { mismatch := 2, gap_opening1 := 0, gap_extension1 := 2,
        gap_opening2 := 1, gap_extension2 := 1 }
      idle_kernels 20
      (empty_world distance_metric_t.gap_affine alignment_scope_t.alignment_scope_score
        true false 3)
      (padded_sequences ['A', 'C', 'G', 'T'] ['A', 'G', 'T']) 4 3
      (check_at
        (with_spec_kernels { mismatch := 2, gap_opening := 1, gap_extension := 1 }
          { mismatch := 2, gap_opening1 := 0, gap_extension1 := 2,
            gap_opening2 := 1, gap_extension2 := 1 } idle_kernels)
        (padded_sequences ['A', 'C', 'G', 'T'] ['A', 'G', 'T']) 4 3
        (empty_world distance_metric_t.gap_affine alignment_scope_t.alignment_scope_score
          true false 3) 2).2
      (Or.inl rfl) rfl (fun _ => ⟨by decide, by decide, fun _ => by decide⟩)
      (fun h => absurd h (by decide)) rfl).imp
      (fun _ h => ⟨h.1, h.2.1, h.2.2.2.2.2.1⟩),
   (align_global_score_optimal { mismatch := 2, gap_opening := 1, gap_extension := 1 }
      { mismatch := 2, gap_opening1 := 0, gap_extension1 := 2,
        gap_opening2 := 1, gap_extension2 := 1 }
      idle_kernels 20
      (empty_world distance_metric_t.gap_affine_2p alignment_scope_t.alignment_scope_score
        true false 3)
      (padded_sequences ['A', 'C', 'G', 'T'] ['A', 'T']) 4 2
      (check_at
        (with_spec_kernels { mismatch := 2, gap_opening := 1, gap_extension := 1 }
          { mismatch := 2, gap_opening1 := 0, gap_extension1 := 2,
            gap_opening2 := 1, gap_extension2 := 1 } idle_kernels)
        (padded_sequences ['A', 'C', 'G', 'T'] ['A', 'T']) 4 2
        (empty_world distance_metric_t.gap_affine_2p alignment_scope_t.alignment_scope_score
          true false 3) 3).2
      (Or.inr rfl) rfl (fun h => absurd h (by decide))
      (fun _ => ⟨by decide, by decide, by decide, fun _ => by decide⟩) rfl).imp
      (fun _ h => ⟨h.1, h.2.1, h.2.2.2.2.2.1⟩)⟩

/-- The reference costs of the two invocations above: 2 for ACGT against AGT under
the gap-affine penalties, 3 for ACGT against AT under the two-piece penalties
(where the first profile alone would charge 4). -/
theorem affine_model_cost_example :
    affine_model_cost distance_metric_t.gap_affine
      { mismatch := 2, gap_opening := 1, gap_extension := 1 }
      { mismatch := 2, gap_opening1 := 0, gap_extension1 := 2,
        gap_opening2 := 1, gap_extension2 := 1 }
      (padded_view ['A', 'C', 'G', 'T'] '?') 4 (padded_view ['A', 'G', 'T'] '!') 3 = 2 ∧
    affine_model_cost distance_metric_t.gap_affine_2p
      { mismatch := 2, gap_opening := 1, gap_extension := 1 }
      { mismatch := 2, gap_opening1 := 0, gap_extension1 := 2,
        gap_opening2 := 1, gap_extension2 := 1 }
      (padded_view ['A', 'C', 'G', 'T'] '?') 4 (padded_view ['A', 'T'] '!') 2 = 3 := by
  constructor <;> decide

/-! ## Claim C10: the score handed to the recompute retrace -/

/-- C10 (amended): for every state in which the termination check succeeds with
end-to-end scope and bt_piggyback clear, the detector runs wavefront_backtrace_affine
once, on the aligner as it stands, and the score argument is the index of the
history slot that holds the terminating wavefront.  Under full retention
(memory_modular clear) that argument is score_final.  Under modular retention it is
the C remainder of score_final by max_score_scope.  For 0 <= score_final <
max_score_scope it is score_final under either policy.  Under modular retention
with 0 < max_score_scope <= score_final it lies in [0, max_score_scope) and the
call made is not the call with score_final. -/
theorem terminate_retrace_score_argument {σ β : Type} (K : kernels_t σ β) (w : world_t σ β)
    (sequences : strings_padded_t) (pattern_length text_length score_final : Int)
    (hret : (wavefront_align_global_terminate K w sequences
      pattern_length text_length score_final).1 = true)
    (hscope : w.aligner.alignment_scope = alignment_scope_t.alignment_scope_alignment)
    (hpiggy : w.aligner.bt_piggyback = false) :
    (w.aligner.memory_modular = false →
      (wavefront_align_global_terminate K w sequences
          pattern_length text_length score_final).2
        = { aligner := K.wavefront_backtrace_affine w.aligner
              sequences.pattern_padded pattern_length sequences.text_padded text_length
              score_final
            calls := w.calls ++ [call_t.wavefront_backtrace_affine pattern_length text_length
              score_final] }) ∧
    (w.aligner.memory_modular = true →
      (wavefront_align_global_terminate K w sequences
          pattern_length text_length score_final).2
        = { aligner := K.wavefront_backtrace_affine w.aligner
              sequences.pattern_padded pattern_length sequences.text_padded text_length
              (Int.tmod score_final w.aligner.max_score_scope)
            calls := w.calls ++ [call_t.wavefront_backtrace_affine pattern_length text_length
              (Int.tmod score_final w.aligner.max_score_scope)] }) ∧
    (0 ≤ score_final → score_final < w.aligner.max_score_scope →
      (wavefront_align_global_terminate K w sequences
          pattern_length text_length score_final).2
        = { aligner := K.wavefront_backtrace_affine w.aligner
              sequences.pattern_padded pattern_length sequences.text_padded text_length
              score_final
            calls := w.calls ++ [call_t.wavefront_backtrace_affine pattern_length text_length
              score_final] }) ∧
    (w.aligner.memory_modular = true → 0 < w.aligner.max_score_scope →
      w.aligner.max_score_scope ≤ score_final →
      0 ≤ Int.tmod score_final w.aligner.max_score_scope ∧
      Int.tmod score_final w.aligner.max_score_scope < w.aligner.max_score_scope ∧
      (wavefront_align_global_terminate K w sequences
          pattern_length text_length score_final).2.calls
        ≠ w.calls ++ [call_t.wavefront_backtrace_affine pattern_length text_length
            score_final]) := by
  have hstate := terminate_retrace_state K w sequences pattern_length text_length score_final
    hret hscope hpiggy
  have hfull : w.aligner.memory_modular = false → score_slot w.aligner score_final
      = score_final := by
    intro hm
    simp [score_slot, hm]
  have hmod : w.aligner.memory_modular = true → score_slot w.aligner score_final
      = Int.tmod score_final w.aligner.max_score_scope := by
    intro hm
    simp [score_slot, hm]
  refine ⟨?_, ?_, ?_, ?_⟩
  · intro hm
    rw [hstate, hfull hm]
  · intro hm
    rw [hstate, hmod hm]
  · intro h0 hlt
    rw [hstate]
    cases hm : w.aligner.memory_modular with
    | false => rw [hfull hm]
    | true => rw [hmod hm, tmod_of_lt _ _ h0 hlt]
  · intro hm hW hge
    obtain ⟨hnn, hlt⟩ := tmod_of_ge score_final w.aligner.max_score_scope hW hge
    refine ⟨hnn, hlt, ?_⟩
    rw [hstate, hmod hm]
    intro heq
    have h1 := List.append_cancel_left heq
    simp only [List.cons.injEq, call_t.wavefront_backtrace_affine.injEq, and_true,
      true_and] at h1
    omega

/-- Witness for C10 (amended): the terminating wavefront of score 5 in slot 2 under
modular retention with scope 3, end-to-end scope, no piggyback: the retrace is
called with 2, not with 5. -/
theorem terminate_retrace_score_argument_witness :
    (wavefront_align_global_terminate idle_kernels
      (sample_world (sample_aligner distance_metric_t.gap_affine
        alignment_scope_t.alignment_scope_alignment true false 3) 2 blank_wavefront)
      sample_sequences 0 0 5).2.calls = [call_t.wavefront_backtrace_affine 0 0 2] ∧
    (wavefront_align_global_terminate idle_kernels
      (sample_world (sample_aligner distance_metric_t.gap_affine
        alignment_scope_t.alignment_scope_alignment true false 3) 2 blank_wavefront)
      sample_sequences 0 0 5).2.calls ≠ [call_t.wavefront_backtrace_affine 0 0 5] :=
  ⟨(congrArg world_t.calls
      ((terminate_retrace_score_argument idle_kernels
        (sample_world (sample_aligner distance_metric_t.gap_affine
          alignment_scope_t.alignment_scope_alignment true false 3) 2 blank_wavefront)
        sample_sequences 0 0 5 (by decide) rfl rfl).2.1 rfl)).trans rfl,
   ((terminate_retrace_score_argument idle_kernels
        (sample_world (sample_aligner distance_metric_t.gap_affine
          alignment_scope_t.alignment_scope_alignment true false 3) 2 blank_wavefront)
        sample_sequences 0 0 5 (by decide) rfl rfl).2.2.2 rfl (by decide) (by decide)).2.2⟩

/-- C10 (counterexample): pattern AA against the empty text, gap-affine metric with
penalties (mismatch 2, gap opening 1, gap extension 1), modular retention with
scope 3, end-to-end scope, no piggyback, the extend and compute operators behaving
as their contracts state.  The alignment costs 3, the termination checks of scores
0, 1 and 2 fail and the check of score 3 succeeds, so score_final = 3 >= 0; the
driver halts after the extends of 0..3 and the computes of 1..3, and the one
backtrace call is wavefront_backtrace_affine with score argument 0, the slot index
3 mod 3, not score_final = 3. -/
theorem retrace_receives_slot_index :
    outcome_t.calls
      (wavefront_align_global
        (with_spec_affine { mismatch := 2, gap_opening := 1, gap_extension := 1 } idle_kernels) 5
        (empty_world distance_metric_t.gap_affine alignment_scope_t.alignment_scope_alignment
          true false 3)
        (padded_sequences ['A', 'A'] []) 2 0)
      = [call_t.wavefront_slab_allocate 0 0,
         call_t.wavefront_extend 2 0 0, call_t.wavefront_compute_affine 2 0 1,
         call_t.wavefront_extend 2 0 1, call_t.wavefront_compute_affine 2 0 2,
         call_t.wavefront_extend 2 0 2, call_t.wavefront_compute_affine 2 0 3,
         call_t.wavefront_extend 2 0 3, call_t.wavefront_backtrace_affine 2 0 0] ∧
    affine_alignment_cost { mismatch := 2, gap_opening := 1, gap_extension := 1 }
      (padded_view ['A', 'A'] '?') 2 (padded_view [] '!') 0 = 3 ∧
    (check_at
      (with_spec_affine { mismatch := 2, gap_opening := 1, gap_extension := 1 } idle_kernels)
      (padded_sequences ['A', 'A'] []) 2 0
      (empty_world distance_metric_t.gap_affine alignment_scope_t.alignment_scope_alignment
        true false 3) 3).1 = true ∧
    (check_at
      (with_spec_affine { mismatch := 2, gap_opening := 1, gap_extension := 1 } idle_kernels)
      (padded_sequences ['A', 'A'] []) 2 0
      (empty_world distance_metric_t.gap_affine alignment_scope_t.alignment_scope_alignment
        true false 3) 3).2.calls.getLast?
      = some (call_t.wavefront_backtrace_affine 2 0 0) := by
  refine ⟨?_, ?_, ?_, ?_⟩ <;> decide

end WFA
